import Mathlib

/-!
# Cutoff NDCG (levels 4 and 5) of `m_ndcg45_cut.c`

A shallow embedding of `te_calc_ndcg45_cut` and `get_gain`.

* C `double` is an arbitrary linearly ordered field `F`; the theorems take `F = ℝ` and
  `log2 = Real.logb 2`.
* C `long` is `Int` (or `Nat` for the counters `i` and `cutoff_index`, which start at 0 and are
  only incremented); no value computed here comes near the 64-bit range.
* An array is a list together with its length: `num_ret`, `num_rel_levels` and `num_params`
  are the lengths of `results_rel_list`, `rel_levels` and `param_values`.  A read outside the
  list yields `none`, which aborts the whole computation.
* `eval->values` is a map from indices to values; a store is `Function.update`.
* The `printf` calls under `epi->debug_level` do not touch any of these values and are left out;
  the versions of the loops that keep a record of the run do record the one array read such a
  call makes, `cutoffs[cutoff_index]` in the two `while` loops.
-/

namespace Ndcg45

/-- The part of `PARAMS` used by the measure: `param_values` (the cutoffs), whose length is
`num_params`. -/
structure PARAMS where
  param_values : List Int

/-- The field `num_params` of `PARAMS`. -/
abbrev PARAMS.num_params (p : PARAMS) : Nat := p.param_values.length

/-- The part of `TREC_MEAS` read by `te_calc_ndcg45_cut`. -/
structure TREC_MEAS where
  meas_params : PARAMS
  eval_index : Int

/-- The part of `RES_RELS` read by `te_calc_ndcg45_cut`: the relevance level of every retrieved
document in rank order, and the number of judged documents for every level. -/
structure RES_RELS where
  results_rel_list : List Int
  rel_levels : List Int

/-- The field `num_ret` of `RES_RELS`. -/
abbrev RES_RELS.num_ret (r : RES_RELS) : Nat := r.results_rel_list.length

/-- The field `num_rel_levels` of `RES_RELS`. -/
abbrev RES_RELS.num_rel_levels (r : RES_RELS) : Int := r.rel_levels.length

/-- An array read `a[k]` with a `long` index; `none` outside the array. -/
def readAt {α : Type} (a : List α) (k : Int) : Option α :=
  if k < 0 then none else a[k.toNat]?

/-- The function `get_gain`. -/
def get_gain (F : Type) [LinearOrderedField F] (rel_level : Int) : F :=
  match rel_level with
  | 4 => 1
  | 5 => 2
  | _ => 0

/-- The state shared by the loops of `te_calc_ndcg45_cut`: the cutoff pointer, the running sum
(`sum` in the first half, `ideal_dcg` in the second) and `eval->values`. -/
structure Walk (F : Type) where
  cutoff_index : Nat
  acc : F
  values : Int → F

/-- The static array `long_cutoff_array`. -/
def long_cutoff_array : List Int := [5, 10, 15, 20, 30, 100]

/-- The static `default_ndcg45_cutoffs`: its parameter count is
`sizeof (long_cutoff_array) / sizeof (long_cutoff_array[0])`, the length of the array, and its
values are the array. -/
def default_ndcg45_cutoffs : PARAMS := ⟨long_cutoff_array⟩

/-! ## The code -/

section Code

variable {F : Type} [LinearOrderedField F]

/-- The first `for` loop (lines 52 to 69), from its head with loop variable `i`. -/
def actualLoop (log2 : F → F) (cutoffs : List Int) (eval_index : Int) (rel : List Int)
    (i : Nat) (s : Walk F) : Option (Walk F) :=
  if h : i < rel.length then
    match cutoffs[s.cutoff_index]? with
    | none => none
    | some c =>
      let hit : Bool := decide ((i : Int) = c)
      let values := if hit then Function.update s.values (eval_index + s.cutoff_index) s.acc
        else s.values
      let cutoff_index := if hit then s.cutoff_index + 1 else s.cutoff_index
      if hit ∧ cutoff_index = cutoffs.length then
        some ⟨cutoff_index, s.acc, values⟩
      else
        let gain : F := get_gain F rel[i]
        let sum := if gain > 0 then s.acc + gain / log2 (((i : Int) + 2 : Int) : F) else s.acc
        actualLoop log2 cutoffs eval_index rel (i + 1) ⟨cutoff_index, sum, values⟩
  else some s
termination_by rel.length - i

/-- The first `while` loop (lines 71 to 77): the cutoffs not reached get the final sum. -/
def actualFill (num_params : Nat) (eval_index : Int) (s : Walk F) : Walk F :=
  if h : s.cutoff_index < num_params then
    actualFill num_params eval_index
      ⟨s.cutoff_index + 1, s.acc, Function.update s.values (eval_index + s.cutoff_index) s.acc⟩
  else s
termination_by num_params - s.cutoff_index

/-- The inner `while` loop (lines 86 to 89). -/
def descend (rel_levels : List Int) (cur_lvl lvl_count : Int) : Option (Int × Int) :=
  if h : cur_lvl > 0 then
    match readAt rel_levels cur_lvl with
    | none => none
    | some n =>
      if lvl_count > n then descend rel_levels (cur_lvl - 1) 1
      else some (cur_lvl, lvl_count)
  else some (cur_lvl, lvl_count)
termination_by cur_lvl.toNat
decreasing_by omega

/-- The second `for` loop (lines 84 to 110), from its head with loop variable `i`; the running
sum of the walk is `ideal_dcg`. -/
def idealLoop (log2 : F → F) (cutoffs : List Int) (eval_index : Int) (rel_levels : List Int)
    (i : Nat) (cur_lvl lvl_count : Int) (s : Walk F) : Option (Walk F) :=
  match hd : descend rel_levels cur_lvl (lvl_count + 1) with
  | none => none
  | some (cur_lvl1, lvl_count1) =>
    if h0 : cur_lvl1 = 0 then some s
    else
      match cutoffs[s.cutoff_index]? with
      | none => none
      | some c =>
        let hit : Bool := decide ((i : Int) = c)
        let values :=
          if hit ∧ s.acc > 0 then
            Function.update s.values (eval_index + s.cutoff_index)
              (s.values (eval_index + s.cutoff_index) / s.acc)
          else s.values
        let cutoff_index := if hit then s.cutoff_index + 1 else s.cutoff_index
        if hit ∧ cutoff_index = cutoffs.length then
          some ⟨cutoff_index, s.acc, values⟩
        else
          if hg : get_gain F cur_lvl1 = 0 then
            some ⟨cutoff_index, s.acc, values⟩
          else
            idealLoop log2 cutoffs eval_index rel_levels (i + 1) cur_lvl1 lvl_count1
              ⟨cutoff_index, s.acc + get_gain F cur_lvl1 / log2 (((i : Int) + 2 : Int) : F), values⟩
termination_by (cur_lvl.toNat, (rel_levels.getD cur_lvl.toNat 0 - lvl_count).toNat)
decreasing_by
  have key : ∀ (n : Nat) (c k c1 k1 : Int), c.toNat = n →
      descend rel_levels c k = some (c1, k1) →
      (c1 = c ∧ k1 = k ∧ (0 < c → k ≤ rel_levels.getD c.toNat 0)) ∨ (c1 < c ∧ 0 ≤ c1) := by
    intro n
    induction n with
    | zero =>
      intro c k c1 k1 hc hdesc
      have hc0 : ¬ c > 0 := by omega
      rw [descend, dif_neg hc0] at hdesc
      simp only [Option.some.injEq, Prod.mk.injEq] at hdesc
      exact Or.inl ⟨hdesc.1.symm, hdesc.2.symm, fun h => absurd h hc0⟩
    | succ n ih =>
      intro c k c1 k1 hc hdesc
      have hcp : c > 0 := by omega
      rw [descend, dif_pos hcp] at hdesc
      have hnotneg : ¬ c < 0 := by omega
      cases hr : readAt rel_levels c with
      | none => rw [hr] at hdesc; exact absurd hdesc (by simp)
      | some m =>
        rw [hr] at hdesc
        simp only at hdesc
        have hm : rel_levels.getD c.toNat 0 = m := by
          simp only [readAt, if_neg hnotneg] at hr
          simp [List.getD, hr]
        by_cases hk : k > m
        · rw [if_pos hk] at hdesc
          rcases ih (c - 1) 1 c1 k1 (by omega) hdesc with h | h
          · exact Or.inr ⟨by omega, by omega⟩
          · exact Or.inr ⟨by omega, h.2⟩
        · rw [if_neg hk] at hdesc
          simp only [Option.some.injEq, Prod.mk.injEq] at hdesc
          exact Or.inl ⟨hdesc.1.symm, hdesc.2.symm, fun _ => by omega⟩
  have hpos : 0 < cur_lvl1 := by
    by_contra hcon
    apply hg
    unfold get_gain
    split
    · omega
    · omega
    · rfl
  rcases key cur_lvl.toNat cur_lvl (lvl_count + 1) cur_lvl1 lvl_count1 rfl hd with h | h
  · obtain ⟨h1, h2, h3⟩ := h
    subst h1 h2
    have := h3 hpos
    exact Prod.Lex.right _ (by omega)
  · exact Prod.Lex.left _ _ (by omega)

/-- The second `while` loop (lines 113 to 121): the cutoffs not reached are divided by the final
`ideal_dcg` when it is positive. -/
def idealFill (num_params : Nat) (eval_index : Int) (s : Walk F) : Walk F :=
  if h : s.cutoff_index < num_params then
    idealFill num_params eval_index
      ⟨s.cutoff_index + 1, s.acc,
        if s.acc > 0 then
          Function.update s.values (eval_index + s.cutoff_index)
            (s.values (eval_index + s.cutoff_index) / s.acc)
        else s.values⟩
  else s
termination_by num_params - s.cutoff_index

/-- Lines 51 to 77 of `te_calc_ndcg45_cut`: the walk over the retrieved documents, which leaves
the discounted cumulative gain at every cutoff in `eval->values`. -/
def actualPhase (log2 : F → F) (tm : TREC_MEAS) (res_rels : RES_RELS) (values : Int → F) :
    Option (Int → F) :=
  match actualLoop log2 tm.meas_params.param_values tm.eval_index res_rels.results_rel_list 0
      ⟨0, 0, values⟩ with
  | none => none
  | some s => some (actualFill tm.meas_params.num_params tm.eval_index s).values

/-- Lines 80 to 110 of `te_calc_ndcg45_cut`: the walk over the ideal ranking, up to the exit of
the `for` loop. -/
def idealWalk (log2 : F → F) (tm : TREC_MEAS) (res_rels : RES_RELS) (values : Int → F) :
    Option (Walk F) :=
  idealLoop log2 tm.meas_params.param_values tm.eval_index res_rels.rel_levels 0
    (res_rels.num_rel_levels - 1) 0 ⟨0, 0, values⟩

/-- Lines 80 to 121 of `te_calc_ndcg45_cut`: the walk over the ideal ranking, which divides the
values left by the first half. -/
def idealPhase (log2 : F → F) (tm : TREC_MEAS) (res_rels : RES_RELS) (values : Int → F) :
    Option (Int → F) :=
  match idealWalk log2 tm res_rels values with
  | none => none
  | some s => some (idealFill tm.meas_params.num_params tm.eval_index s).values

/-- The function `te_calc_ndcg45_cut`.  `UNDEF` is the sentinel of `common.h`, `form` is what
`te_form_res_rels` returned and the `RES_RELS` it filled; the result is the returned `int` and
`eval->values`. -/
def te_calc_ndcg45_cut (UNDEF : Int) (log2 : F → F) (form : Int × RES_RELS) (tm : TREC_MEAS)
    (values : Int → F) : Option (Int × (Int → F)) :=
  if UNDEF = form.1 then some (UNDEF, values)
  else
    match actualPhase log2 tm form.2 values with
    | none => none
    | some raw =>
      match idealPhase log2 tm form.2 raw with
      | none => none
      | some final => some (1, final)

end Code

/-! ## The code with a record of what it does

The same loops, each returning, next to its result, the list of the array accesses, divisions
and loop steps it made, in the order it made them.  A read outside an array yields 0 here and is
recorded like any other read. -/

/-- What a run records. -/
inductive Event (F : Type) where
  /-- A read of `cutoffs[cutoff_index]`. -/
  | readCutoff (cutoff_index : Nat)
  /-- The store `eval->values[tm->eval_index + cutoff_index].value = sum`. -/
  | storeValue (cutoff_index : Nat)
  /-- A read of `res_rels.results_rel_list[i]`. -/
  | readRel (i : Nat)
  /-- The division `gain / log2 (i + 2)`, with its divisor. -/
  | divideGain (i : Nat) (divisor : F)
  /-- The start of an iteration of the second `for` loop. -/
  | iteration (i : Nat)
  /-- A read of `res_rels.rel_levels[cur_lvl]`. -/
  | readLevel (cur_lvl : Int)
  /-- A run of the body of the inner `while` loop, entered at `cur_lvl`. -/
  | descendStep (cur_lvl : Int)
  /-- The call `get_gain (cur_lvl)` of the second `for` loop at rank index `i`. -/
  | takeGain (i : Nat) (cur_lvl : Int)
  /-- The division `eval->values[tm->eval_index + cutoff_index].value /= ideal_dcg`, with its
  divisor. -/
  | divideValue (cutoff_index : Nat) (divisor : F)

section Traced

variable {F : Type} [LinearOrderedField F]

/-- The first `for` loop (lines 52 to 69) with its record. -/
def actualLoopT (log2 : F → F) (cutoffs : List Int) (eval_index : Int) (rel : List Int)
    (i : Nat) (s : Walk F) : Walk F × List (Event F) :=
  if h : i < rel.length then
    let c := cutoffs.getD s.cutoff_index 0
    let hit : Bool := decide ((i : Int) = c)
    let values := if hit then Function.update s.values (eval_index + s.cutoff_index) s.acc
      else s.values
    let cutoff_index := if hit then s.cutoff_index + 1 else s.cutoff_index
    let ev1 : List (Event F) :=
      Event.readCutoff s.cutoff_index :: (if hit then [Event.storeValue s.cutoff_index] else [])
    if hit ∧ cutoff_index = cutoffs.length then
      (⟨cutoff_index, s.acc, values⟩, ev1)
    else
      let gain : F := get_gain F (rel.getD i 0)
      let sum := if gain > 0 then s.acc + gain / log2 (((i : Int) + 2 : Int) : F) else s.acc
      let ev2 : List (Event F) :=
        Event.readRel i ::
          (if gain > 0 then [Event.divideGain i (log2 (((i : Int) + 2 : Int) : F))] else [])
      let r := actualLoopT log2 cutoffs eval_index rel (i + 1) ⟨cutoff_index, sum, values⟩
      (r.1, ev1 ++ ev2 ++ r.2)
  else (s, [])
termination_by rel.length - i

/-- The first `while` loop (lines 71 to 77) with its record.  The read of
`cutoffs[cutoff_index]` for the debug line, made when `epi->debug_level > 0`, is recorded in
every run. -/
def actualFillT (num_params : Nat) (eval_index : Int) (s : Walk F) : Walk F × List (Event F) :=
  if h : s.cutoff_index < num_params then
    let r := actualFillT num_params eval_index
      ⟨s.cutoff_index + 1, s.acc, Function.update s.values (eval_index + s.cutoff_index) s.acc⟩
    (r.1, Event.storeValue s.cutoff_index :: Event.readCutoff s.cutoff_index :: r.2)
  else (s, [])
termination_by num_params - s.cutoff_index

/-- The inner `while` loop (lines 86 to 89) with its record. -/
def descendT (F : Type) (rel_levels : List Int) (cur_lvl lvl_count : Int) :
    (Int × Int) × List (Event F) :=
  if h : cur_lvl > 0 then
    if lvl_count > rel_levels.getD cur_lvl.toNat 0 then
      let r := descendT F rel_levels (cur_lvl - 1) 1
      (r.1, Event.readLevel cur_lvl :: Event.descendStep cur_lvl :: r.2)
    else ((cur_lvl, lvl_count), [Event.readLevel cur_lvl])
  else ((cur_lvl, lvl_count), [])
termination_by cur_lvl.toNat
decreasing_by omega

/-- The second `for` loop (lines 84 to 110) with its record. -/
def idealLoopT (log2 : F → F) (cutoffs : List Int) (eval_index : Int) (rel_levels : List Int)
    (i : Nat) (cur_lvl lvl_count : Int) (s : Walk F) : Walk F × List (Event F) :=
  let d := descendT F rel_levels cur_lvl (lvl_count + 1)
  if h0 : d.1.1 = 0 then (s, Event.iteration i :: d.2)
  else
    let c := cutoffs.getD s.cutoff_index 0
    let hit : Bool := decide ((i : Int) = c)
    let values :=
      if hit ∧ s.acc > 0 then
        Function.update s.values (eval_index + s.cutoff_index)
          (s.values (eval_index + s.cutoff_index) / s.acc)
      else s.values
    let cutoff_index := if hit then s.cutoff_index + 1 else s.cutoff_index
    let ev1 : List (Event F) :=
      Event.readCutoff s.cutoff_index ::
        (if hit ∧ s.acc > 0 then [Event.divideValue s.cutoff_index s.acc] else [])
    if hit ∧ cutoff_index = cutoffs.length then
      (⟨cutoff_index, s.acc, values⟩, Event.iteration i :: d.2 ++ ev1)
    else
      if hg : get_gain F d.1.1 = 0 then
        (⟨cutoff_index, s.acc, values⟩,
          Event.iteration i :: d.2 ++ ev1 ++ [Event.takeGain i d.1.1])
      else
        let r := idealLoopT log2 cutoffs eval_index rel_levels (i + 1) d.1.1 d.1.2
          ⟨cutoff_index, s.acc + get_gain F d.1.1 / log2 (((i : Int) + 2 : Int) : F), values⟩
        (r.1, Event.iteration i :: d.2 ++ ev1
          ++ [Event.takeGain i d.1.1, Event.divideGain i (log2 (((i : Int) + 2 : Int) : F))]
          ++ r.2)
termination_by (cur_lvl.toNat, (rel_levels.getD cur_lvl.toNat 0 - lvl_count).toNat)
decreasing_by
  have key : ∀ (n : Nat) (c k : Int), c.toNat = n →
      ((descendT F rel_levels c k).1.1 = c ∧ (descendT F rel_levels c k).1.2 = k ∧
          (0 < c → k ≤ rel_levels.getD c.toNat 0)) ∨
        ((descendT F rel_levels c k).1.1 < c ∧ 0 ≤ (descendT F rel_levels c k).1.1) := by
    intro n
    induction n with
    | zero =>
      intro c k hc
      have hc0 : ¬ c > 0 := by omega
      rw [descendT, dif_neg hc0]
      exact Or.inl ⟨rfl, rfl, fun h => absurd h hc0⟩
    | succ n ih =>
      intro c k hc
      have hcp : c > 0 := by omega
      rw [descendT, dif_pos hcp]
      by_cases hk : k > rel_levels.getD c.toNat 0
      · rw [if_pos hk]
        rcases ih (c - 1) 1 (by omega) with h | h
        · exact Or.inr ⟨by simp only; omega, by simp only; omega⟩
        · exact Or.inr ⟨by simp only; omega, h.2⟩
      · rw [if_neg hk]
        exact Or.inl ⟨rfl, rfl, fun _ => by omega⟩
  have hpos : 0 < (descendT F rel_levels cur_lvl (lvl_count + 1)).1.1 := by
    by_contra hcon
    apply hg
    generalize (descendT F rel_levels cur_lvl (lvl_count + 1)).1.1 = x at hcon
    unfold get_gain
    split
    · omega
    · omega
    · rfl
  rcases key cur_lvl.toNat cur_lvl (lvl_count + 1) rfl with h | h
  · obtain ⟨h1, h2, h3⟩ := h
    rw [h1, h2]
    rw [h1] at hpos
    have := h3 hpos
    exact Prod.Lex.right _ (by omega)
  · exact Prod.Lex.left _ _ (by omega)

/-- The second `while` loop (lines 113 to 121) with its record.  The read of
`cutoffs[cutoff_index]` for the debug line, made when `epi->debug_level > 0`, is recorded in
every run. -/
def idealFillT (num_params : Nat) (eval_index : Int) (s : Walk F) : Walk F × List (Event F) :=
  if h : s.cutoff_index < num_params then
    let r := idealFillT num_params eval_index
      ⟨s.cutoff_index + 1, s.acc,
        if s.acc > 0 then
          Function.update s.values (eval_index + s.cutoff_index)
            (s.values (eval_index + s.cutoff_index) / s.acc)
        else s.values⟩
    (r.1, (if s.acc > 0 then [Event.divideValue s.cutoff_index s.acc] else [])
      ++ Event.readCutoff s.cutoff_index :: r.2)
  else (s, [])
termination_by num_params - s.cutoff_index

/-- The function `te_calc_ndcg45_cut` with its record: the returned `int`, `eval->values`, and
what the four loops recorded, in order. -/
def te_calc_ndcg45_cutT (UNDEF : Int) (log2 : F → F) (form : Int × RES_RELS) (tm : TREC_MEAS)
    (values : Int → F) : (Int × (Int → F)) × List (Event F) :=
  if UNDEF = form.1 then ((UNDEF, values), [])
  else
    let a := actualLoopT log2 tm.meas_params.param_values tm.eval_index
      form.2.results_rel_list 0 ⟨0, 0, values⟩
    let b := actualFillT tm.meas_params.num_params tm.eval_index a.1
    let c := idealLoopT log2 tm.meas_params.param_values tm.eval_index form.2.rel_levels 0
      (form.2.num_rel_levels - 1) 0 ⟨0, 0, b.1.values⟩
    let d := idealFillT tm.meas_params.num_params tm.eval_index c.1
    ((1, d.1.values), a.2 ++ b.2 ++ c.2 ++ d.2)

end Traced

/-! ## Reference notions

The mathematical notions the properties of the code are stated with; none of them is code. -/

section Reference

variable {F : Type} [LinearOrderedField F]

/-- The discounted gain of a document of level `x` at rank index `i` (rank `i + 1`). -/
def discGain (log2 : F → F) (i : Nat) (x : Int) : F :=
  get_gain F x / log2 (((i : Int) + 2 : Int) : F)

/-- The discounted cumulative gain of the levels `l` placed at the rank indices `i`, `i + 1`, … -/
def dcgFrom (log2 : F → F) : Nat → List Int → F
  | _, [] => 0
  | i, x :: t => discGain log2 i x + dcgFrom log2 (i + 1) t

/-- The discounted cumulative gain of the first `c` documents of the ranking `l` (of all of
them when `l` has fewer than `c`). -/
def dcg (log2 : F → F) (l : List Int) (c : Nat) : F :=
  dcgFrom log2 0 (l.take c)

/-- What the second half does to a recorded value `v` given the ideal gain `d`. -/
def normalise (v d : F) : F := if d > 0 then v / d else v

/-- The levels the ideal walk still has to visit when it stands at level `cur_lvl` and has
consumed `lvl_count` documents of it: what is left of `cur_lvl`, then every lower level down
to 1, each as often as `rel_levels` says. -/
def levelsFrom (rel_levels : List Int) : Nat → Int → List Int
  | 0, _ => []
  | L + 1, lvl_count =>
    List.replicate (rel_levels.getD (L + 1) 0 - lvl_count).toNat ((L : Int) + 1)
      ++ levelsFrom rel_levels L 0

/-- The ideal ranking in the words of the specification: `rel_levels[L]` copies of `L`, for `L`
from `num_rel_levels - 1` down to 1. -/
def idealRanking (rel_levels : List Int) : List Int :=
  ((List.range rel_levels.length).reverse.filter (fun L => 1 ≤ L)).flatMap
    (fun L => List.replicate (rel_levels.getD L 0).toNat (L : Int))

/-- The leading documents of a ranking whose gain is not zero. -/
def gainPrefix (F : Type) [LinearOrderedField F] (l : List Int) : List Int :=
  l.takeWhile (fun x => decide (get_gain F x ≠ 0))

/-- The number of iterations of the second `for` loop in a record. -/
def iterations (log : List (Event F)) : Nat :=
  log.countP (fun ev => match ev with
    | Event.iteration _ => true
    | _ => false)

/-- The number of runs of the body of the inner `while` loop in a record. -/
def descendSteps (log : List (Event F)) : Nat :=
  log.countP (fun ev => match ev with
    | Event.descendStep _ => true
    | _ => false)

/-- The levels whose gain the second `for` loop took, in the order of the record. -/
def gainLevels (log : List (Event F)) : List Int :=
  log.filterMap (fun ev => match ev with
    | Event.takeGain _ l => some l
    | _ => none)

/-- What makes an event harmless for `K` cutoffs, `N` retrieved documents and `n` levels: an
index inside its array (for `rel_levels` an index from 1 on), and a divisor that is the discount
`log2 (i + 2)` or a positive `ideal_dcg`. -/
def Event.ok (log2 : F → F) (K N : Nat) (n : Int) : Event F → Prop
  | Event.readCutoff k => k < K
  | Event.storeValue k => k < K
  | Event.readRel i => i < N
  | Event.divideGain i d => d = log2 (((i : Int) + 2 : Int) : F)
  | Event.iteration _ => True
  | Event.readLevel l => 1 ≤ l ∧ l ≤ n - 1
  | Event.descendStep _ => True
  | Event.takeGain _ _ => True
  | Event.divideValue k d => k < K ∧ 0 < d

/-- The sum of the weights `w s`, `w (s + 1)`, … of the positions of `l` whose level is marked
by `p`, the first element of `l` standing at position `s`. -/
def markedSum (p : Int → Bool) (w : Nat → F) : Nat → List Int → F
  | _, [] => 0
  | s, x :: t => (if p x then w s else 0) + markedSum p w (s + 1) t

/-- The variant of the second `for` loop in the words of the specification: it does not stop at
a level of zero gain but adds nothing for it and goes on through the lower levels, until level 0
is reached (or there is no level at all) or the last cutoff is passed.  Everything else is as
in `idealLoop`. -/
def idealLoopSkip (log2 : F → F) (cutoffs : List Int) (eval_index : Int) (rel_levels : List Int)
    (i : Nat) (cur_lvl lvl_count : Int) (s : Walk F) : Option (Walk F) :=
  match hd : descend rel_levels cur_lvl (lvl_count + 1) with
  | none => none
  | some (cur_lvl1, lvl_count1) =>
    if h0 : cur_lvl1 ≤ 0 then some s
    else
      match cutoffs[s.cutoff_index]? with
      | none => none
      | some c =>
        let hit : Bool := decide ((i : Int) = c)
        let values :=
          if hit ∧ s.acc > 0 then
            Function.update s.values (eval_index + s.cutoff_index)
              (s.values (eval_index + s.cutoff_index) / s.acc)
          else s.values
        let cutoff_index := if hit then s.cutoff_index + 1 else s.cutoff_index
        if hit ∧ cutoff_index = cutoffs.length then
          some ⟨cutoff_index, s.acc, values⟩
        else
          idealLoopSkip log2 cutoffs eval_index rel_levels (i + 1) cur_lvl1 lvl_count1
            ⟨cutoff_index,
              if get_gain F cur_lvl1 = 0 then s.acc
              else s.acc + get_gain F cur_lvl1 / log2 (((i : Int) + 2 : Int) : F),
              values⟩
termination_by (cur_lvl.toNat, (rel_levels.getD cur_lvl.toNat 0 - lvl_count).toNat)
decreasing_by
  have key : ∀ (n : Nat) (c k c1 k1 : Int), c.toNat = n →
      descend rel_levels c k = some (c1, k1) →
      (c1 = c ∧ k1 = k ∧ (0 < c → k ≤ rel_levels.getD c.toNat 0)) ∨ (c1 < c ∧ 0 ≤ c1) := by
    intro n
    induction n with
    | zero =>
      intro c k c1 k1 hc hdesc
      have hc0 : ¬ c > 0 := by omega
      rw [descend, dif_neg hc0] at hdesc
      simp only [Option.some.injEq, Prod.mk.injEq] at hdesc
      exact Or.inl ⟨hdesc.1.symm, hdesc.2.symm, fun h => absurd h hc0⟩
    | succ n ih =>
      intro c k c1 k1 hc hdesc
      have hcp : c > 0 := by omega
      rw [descend, dif_pos hcp] at hdesc
      have hnotneg : ¬ c < 0 := by omega
      cases hr : readAt rel_levels c with
      | none => rw [hr] at hdesc; exact absurd hdesc (by simp)
      | some m =>
        rw [hr] at hdesc
        simp only at hdesc
        have hm : rel_levels.getD c.toNat 0 = m := by
          simp only [readAt, if_neg hnotneg] at hr
          simp [List.getD, hr]
        by_cases hk : k > m
        · rw [if_pos hk] at hdesc
          rcases ih (c - 1) 1 c1 k1 (by omega) hdesc with h | h
          · exact Or.inr ⟨by omega, by omega⟩
          · exact Or.inr ⟨by omega, h.2⟩
        · rw [if_neg hk] at hdesc
          simp only [Option.some.injEq, Prod.mk.injEq] at hdesc
          exact Or.inl ⟨hdesc.1.symm, hdesc.2.symm, fun _ => by omega⟩
  have hpos : 0 < cur_lvl1 := by omega
  rcases key cur_lvl.toNat cur_lvl (lvl_count + 1) cur_lvl1 lvl_count1 rfl hd with h | h
  · obtain ⟨h1, h2, h3⟩ := h
    subst h1 h2
    have := h3 hpos
    exact Prod.Lex.right _ (by omega)
  · exact Prod.Lex.left _ _ (by omega)

/-- The variant walk over the ideal ranking, from its start. -/
def idealWalkSkip (log2 : F → F) (tm : TREC_MEAS) (res_rels : RES_RELS) (values : Int → F) :
    Option (Walk F) :=
  idealLoopSkip log2 tm.meas_params.param_values tm.eval_index res_rels.rel_levels 0
    (res_rels.num_rel_levels - 1) 0 ⟨0, 0, values⟩

/-- The second half of `te_calc_ndcg45_cut` with the variant walk in the place of the walk. -/
def idealPhaseSkip (log2 : F → F) (tm : TREC_MEAS) (res_rels : RES_RELS) (values : Int → F) :
    Option (Int → F) :=
  match idealWalkSkip log2 tm res_rels values with
  | none => none
  | some s => some (idealFill tm.meas_params.num_params tm.eval_index s).values

end Reference

/-! ## What the loops compute -/

section Lemmas

variable {F : Type} [LinearOrderedField F]

theorem get_gain_nonneg (x : Int) : (0 : F) ≤ get_gain F x := by
  unfold get_gain
  split <;> norm_num

theorem get_gain_eq_zero_iff (x : Int) : get_gain F x = 0 ↔ x ≠ 4 ∧ x ≠ 5 := by
  unfold get_gain
  split <;> simp_all

theorem get_gain_pos_iff (x : Int) : (0 : F) < get_gain F x ↔ x = 4 ∨ x = 5 := by
  rw [lt_iff_le_and_ne]
  constructor
  · rintro ⟨-, h⟩
    by_contra hcon
    exact h ((get_gain_eq_zero_iff x).2 (by omega)).symm
  · intro h
    refine ⟨get_gain_nonneg x, fun h0 => ?_⟩
    have := (get_gain_eq_zero_iff (F := F) x).1 h0.symm
    omega

theorem dcgFrom_append (log2 : F → F) (a b : List Int) (i : Nat) :
    dcgFrom log2 i (a ++ b) = dcgFrom log2 i a + dcgFrom log2 (i + a.length) b := by
  induction a generalizing i with
  | nil => simp [dcgFrom]
  | cons x t ih =>
    have h : dcgFrom log2 i (x :: (t ++ b)) = discGain log2 i x + dcgFrom log2 (i + 1) (t ++ b) :=
      rfl
    have h2 : dcgFrom log2 i (x :: t) = discGain log2 i x + dcgFrom log2 (i + 1) t := rfl
    rw [List.cons_append, h, h2, ih, List.length_cons,
      show i + (t.length + 1) = i + 1 + t.length by omega]
    ring

theorem dcg_succ (log2 : F → F) (l : List Int) (i : Nat) (h : i < l.length) :
    dcg log2 l (i + 1) = dcg log2 l i + discGain log2 i l[i] := by
  unfold dcg
  rw [List.take_succ, List.getElem?_eq_getElem h, dcgFrom_append]
  simp [dcgFrom, List.length_take, Nat.min_eq_left (Nat.le_of_lt h)]

theorem dcg_zero (log2 : F → F) (l : List Int) : dcg log2 l 0 = 0 := by
  simp [dcg, dcgFrom]

theorem dcg_of_length_le (log2 : F → F) (l : List Int) (c : Nat) (h : l.length ≤ c) :
    dcg log2 l c = dcg log2 l l.length := by
  simp [dcg, List.take_of_length_le h]

theorem actualFill_values (K : Nat) (e : Int) :
    ∀ (n : Nat) (s : Walk F), n = K - s.cutoff_index →
      (∀ m, s.cutoff_index ≤ m → m < K → (actualFill K e s).values (e + m) = s.acc) ∧
      (∀ x, (∀ m, s.cutoff_index ≤ m → m < K → x ≠ e + m) →
        (actualFill K e s).values x = s.values x) := by
  intro n
  induction n with
  | zero =>
    intro s hn
    have hK : ¬ s.cutoff_index < K := by omega
    rw [actualFill, dif_neg hK]
    exact ⟨fun m h1 h2 => by omega, fun x _ => rfl⟩
  | succ n ih =>
    intro s hn
    have hK : s.cutoff_index < K := by omega
    rw [actualFill, dif_pos hK]
    obtain ⟨ih1, ih2⟩ := ih ⟨s.cutoff_index + 1, s.acc,
      Function.update s.values (e + s.cutoff_index) s.acc⟩ (by simp; omega)
    simp only at ih1 ih2
    constructor
    · intro m h1 h2
      by_cases hm : m = s.cutoff_index
      · subst hm
        rw [ih2 _ (fun m h1 _ => by omega)]
        simp
      · exact ih1 m (by omega) h2
    · intro x hx
      rw [ih2 x (fun m h1 h2 => hx m (by omega) h2)]
      exact Function.update_noteq (hx _ (le_refl _) hK) _ _

theorem idealFill_values (K : Nat) (e : Int) :
    ∀ (n : Nat) (s : Walk F), n = K - s.cutoff_index →
      (∀ m, s.cutoff_index ≤ m → m < K →
        (idealFill K e s).values (e + m) = normalise (s.values (e + m)) s.acc) ∧
      (∀ x, (∀ m, s.cutoff_index ≤ m → m < K → x ≠ e + m) →
        (idealFill K e s).values x = s.values x) := by
  intro n
  induction n with
  | zero =>
    intro s hn
    have hK : ¬ s.cutoff_index < K := by omega
    rw [idealFill, dif_neg hK]
    exact ⟨fun m h1 h2 => by omega, fun x _ => rfl⟩
  | succ n ih =>
    intro s hn
    have hK : s.cutoff_index < K := by omega
    rw [idealFill, dif_pos hK]
    obtain ⟨ih1, ih2⟩ := ih ⟨s.cutoff_index + 1, s.acc,
      if s.acc > 0 then
        Function.update s.values (e + s.cutoff_index) (s.values (e + s.cutoff_index) / s.acc)
      else s.values⟩ (by simp; omega)
    simp only at ih1 ih2
    constructor
    · intro m h1 h2
      by_cases hm : m = s.cutoff_index
      · subst hm
        rw [ih2 _ (fun m h1 _ => by omega)]
        unfold normalise
        split <;> simp
      · rw [ih1 m (by omega) h2]
        have hne : e + (m : Int) ≠ e + (s.cutoff_index : Int) := by omega
        split <;> simp [Function.update_noteq hne]
    · intro x hx
      rw [ih2 x (fun m h1 h2 => hx m (by omega) h2)]
      have hne : x ≠ e + (s.cutoff_index : Int) := hx _ (le_refl _) hK
      split <;> simp [Function.update_noteq hne]

theorem gain_step (log2 : F → F) (a : F) (i : Nat) (x : Int) :
    (if get_gain F x > 0 then a + get_gain F x / log2 (((i : Int) + 2 : Int) : F) else a)
      = a + discGain log2 i x := by
  unfold discGain
  split
  · rfl
  · rename_i h
    have h0 : get_gain F x = 0 := le_antisymm (not_lt.1 h) (get_gain_nonneg x)
    simp [h0]

theorem actualLoop_spec (log2 : F → F) (cutoffs : List Int) (e : Int) (rel : List Int)
    (hasc : ∀ (a b : Nat) (ca cb : Int), cutoffs[a]? = some ca → cutoffs[b]? = some cb → a < b → ca < cb) :
    ∀ (n i : Nat) (s : Walk F), n = rel.length - i → i ≤ rel.length →
      (∃ c, cutoffs[s.cutoff_index]? = some c ∧ (i : Int) ≤ c) →
      s.acc = dcg log2 rel i →
      ∃ s1, actualLoop log2 cutoffs e rel i s = some s1 ∧
        (∀ m c, cutoffs[m]? = some c → s.cutoff_index ≤ m →
          (actualFill cutoffs.length e s1).values (e + m) = dcg log2 rel c.toNat) ∧
        (∀ x, (∀ m, s.cutoff_index ≤ m → m < cutoffs.length → x ≠ e + m) →
          (actualFill cutoffs.length e s1).values x = s.values x) := by
  intro n
  induction n with
  | zero =>
    intro i s hn hi ⟨c, hc, hic⟩ hacc
    have hi2 : ¬ i < rel.length := by omega
    refine ⟨s, by rw [actualLoop, dif_neg hi2], ?_, ?_⟩
    · intro m cm hm hjm
      have hmK : m < cutoffs.length := (List.getElem?_eq_some.1 hm).1
      rw [(actualFill_values cutoffs.length e _ s rfl).1 m hjm hmK, hacc]
      have hcm : c ≤ cm := by
        rcases Nat.eq_or_lt_of_le hjm with h | h
        · subst h; rw [hc] at hm; simp at hm; omega
        · exact le_of_lt (hasc _ _ _ _ hc hm h)
      have hiN : i = rel.length := by omega
      rw [hiN, dcg_of_length_le log2 rel cm.toNat (by omega)]
    · intro x hx
      exact (actualFill_values cutoffs.length e _ s rfl).2 x hx
  | succ n ih =>
    intro i s hn hi ⟨c, hc, hic⟩ hacc
    have hi2 : i < rel.length := by omega
    have hjK : s.cutoff_index < cutoffs.length := (List.getElem?_eq_some.1 hc).1
    rw [actualLoop, dif_pos hi2]
    simp only [hc, gain_step]
    by_cases hit : (i : Int) = c
    · simp only [hit, decide_True, if_true, true_and]
      by_cases hlast : s.cutoff_index + 1 = cutoffs.length
      · rw [if_pos hlast]
        refine ⟨_, rfl, ?_, ?_⟩
        · intro m cm hm hjm
          have hmK : m < cutoffs.length := (List.getElem?_eq_some.1 hm).1
          have hmj : m = s.cutoff_index := by omega
          subst hmj
          rw [hc] at hm
          simp only [Option.some.injEq] at hm
          rw [(actualFill_values cutoffs.length e _ _ rfl).2 _ (fun m h1 h2 => by
            simp only at h1; omega)]
          simp only [Function.update_same]
          rw [hacc, ← hm, ← hit]
          simp
        · intro x hx
          rw [(actualFill_values cutoffs.length e _ _ rfl).2 _ (fun m h1 h2 => by
            simp only at h1; omega)]
          exact Function.update_noteq (hx _ (le_refl _) hjK) _ _
      · rw [if_neg hlast]
        have hj1 : s.cutoff_index + 1 < cutoffs.length := by omega
        obtain ⟨s1, hs1, h1, h2⟩ := ih (i + 1)
          ⟨s.cutoff_index + 1, s.acc + discGain log2 i rel[i],
            Function.update s.values (e + s.cutoff_index) s.acc⟩ (by omega) (by omega)
          ⟨cutoffs[s.cutoff_index + 1], List.getElem?_eq_getElem hj1, by
            have := hasc _ _ _ _ hc (List.getElem?_eq_getElem hj1) (Nat.lt_succ_self _)
            push_cast
            omega⟩
          (by simp only; rw [dcg_succ log2 rel i hi2, hacc])
        simp only at h1 h2
        refine ⟨s1, hs1, ?_, ?_⟩
        · intro m cm hm hjm
          rcases Nat.eq_or_lt_of_le hjm with h | h
          · subst h
            rw [hc] at hm
            simp only [Option.some.injEq] at hm
            rw [h2 _ (fun m h1 _ => by omega)]
            simp only [Function.update_same]
            rw [hacc, ← hm, ← hit]
            simp
          · exact h1 m cm hm h
        · intro x hx
          rw [h2 x (fun m h1 h2 => hx m (by omega) h2)]
          exact Function.update_noteq (hx _ (le_refl _) hjK) _ _
    · simp only [hit, decide_False, if_false, false_and, Bool.false_eq_true]
      obtain ⟨s1, hs1, h1, h2⟩ := ih (i + 1)
        ⟨s.cutoff_index, s.acc + discGain log2 i rel[i], s.values⟩ (by omega) (by omega)
        ⟨c, hc, by push_cast; omega⟩
        (by simp only; rw [dcg_succ log2 rel i hi2, hacc])
      exact ⟨s1, hs1, h1, h2⟩

theorem descend_levels (rel_levels : List Int) :
    ∀ (cur : Nat) (cnt : Int), cur < rel_levels.length ∨ cur = 0 →
      ∃ (cur1 : Nat) (cnt1 : Int),
        descend rel_levels (cur : Int) (cnt + 1) = some ((cur1 : Int), cnt1) ∧
        (cur1 < rel_levels.length ∨ cur1 = 0) ∧
        ((levelsFrom rel_levels cur cnt = [] ∧ cur1 = 0) ∨
          (0 < cur1 ∧
            levelsFrom rel_levels cur cnt = (cur1 : Int) :: levelsFrom rel_levels cur1 cnt1)) := by
  intro cur
  induction cur with
  | zero =>
    intro cnt _
    refine ⟨0, cnt + 1, ?_, Or.inr rfl, Or.inl ⟨rfl, rfl⟩⟩
    rw [descend, dif_neg (by simp)]
  | succ L ih =>
    intro cnt hb
    have hL : L + 1 < rel_levels.length := by omega
    have hpos : ((L + 1 : Nat) : Int) > 0 := by omega
    have hread : readAt rel_levels ((L + 1 : Nat) : Int) = some (rel_levels.getD (L + 1) 0) := by
      have hneg : ¬ ((L + 1 : Nat) : Int) < 0 := by omega
      rw [readAt, if_neg hneg, Int.toNat_ofNat, List.getElem?_eq_getElem hL,
        List.getD_eq_getElem _ _ hL]
    rw [descend, dif_pos hpos]
    simp only [hread]
    by_cases hk : cnt + 1 > rel_levels.getD (L + 1) 0
    · rw [if_pos hk]
      obtain ⟨cur1, cnt1, h1, h2, h3⟩ := ih 0 (by omega)
      have hemp : (rel_levels.getD (L + 1) 0 - cnt).toNat = 0 := by omega
      refine ⟨cur1, cnt1, ?_, h2, ?_⟩
      · rw [← h1]
        congr 1
        · push_cast; omega
      · simp only [levelsFrom, hemp, List.replicate_zero, List.nil_append]
        exact h3
    · rw [if_neg hk]
      refine ⟨L + 1, cnt + 1, rfl, Or.inl hL, Or.inr ⟨Nat.succ_pos _, ?_⟩⟩
      obtain ⟨k, hk2⟩ : ∃ k, (rel_levels.getD (L + 1) 0 - cnt).toNat = k + 1 :=
        ⟨(rel_levels.getD (L + 1) 0 - cnt).toNat - 1, by omega⟩
      have hk3 : (rel_levels.getD (L + 1) 0 - (cnt + 1)).toNat = k := by omega
      simp only [levelsFrom, hk2, hk3, List.replicate_succ, List.cons_append]
      push_cast
      rfl

theorem gainPrefix_cons_zero (x : Int) (t : List Int) (h : get_gain F x = 0) :
    gainPrefix F (x :: t) = [] := by
  simp [gainPrefix, List.takeWhile, h]

theorem gainPrefix_cons_pos (x : Int) (t : List Int) (h : get_gain F x ≠ 0) :
    gainPrefix F (x :: t) = x :: gainPrefix F t := by
  simp [gainPrefix, List.takeWhile, h]

theorem idealLoop_unfold (log2 : F → F) (cutoffs : List Int) (e : Int) (rel_levels : List Int)
    (i : Nat) (cur cnt cur1 cnt1 c : Int) (s : Walk F)
    (hd : descend rel_levels cur (cnt + 1) = some (cur1, cnt1)) (h0 : cur1 ≠ 0)
    (hc : cutoffs[s.cutoff_index]? = some c) :
    idealLoop log2 cutoffs e rel_levels i cur cnt s =
      if (i : Int) = c ∧ s.cutoff_index + 1 = cutoffs.length then
        some ⟨s.cutoff_index + 1, s.acc,
          Function.update s.values (e + s.cutoff_index)
            (normalise (s.values (e + s.cutoff_index)) s.acc)⟩
      else if get_gain F cur1 = 0 then
        some ⟨if (i : Int) = c then s.cutoff_index + 1 else s.cutoff_index, s.acc,
          if (i : Int) = c then
            Function.update s.values (e + s.cutoff_index)
              (normalise (s.values (e + s.cutoff_index)) s.acc)
          else s.values⟩
      else
        idealLoop log2 cutoffs e rel_levels (i + 1) cur1 cnt1
          ⟨if (i : Int) = c then s.cutoff_index + 1 else s.cutoff_index,
            s.acc + discGain log2 i cur1,
            if (i : Int) = c then
              Function.update s.values (e + s.cutoff_index)
                (normalise (s.values (e + s.cutoff_index)) s.acc)
            else s.values⟩ := by
  have hupd : (if s.acc > 0 then
      Function.update s.values (e + s.cutoff_index) (s.values (e + s.cutoff_index) / s.acc)
      else s.values) = Function.update s.values (e + s.cutoff_index)
        (normalise (s.values (e + s.cutoff_index)) s.acc) := by
    unfold normalise
    split <;> simp
  rw [idealLoop]
  split
  · rename_i heq
    rw [hd] at heq
    exact absurd heq (by simp)
  · rename_i a b heq
    rw [hd] at heq
    simp only [Option.some.injEq, Prod.mk.injEq] at heq
    obtain ⟨ha, hb⟩ := heq
    subst ha hb
    rw [dif_neg h0]
    simp only [hc]
    by_cases hit : (i : Int) = c
    · simp only [hit, decide_True, true_and, if_true, hupd, discGain]
      by_cases hlast : s.cutoff_index + 1 = cutoffs.length
      · simp [hlast]
      · simp only [hlast, if_false]
        split <;> rfl
    · simp only [hit, decide_False, false_and, if_false, Bool.false_eq_true, discGain]
      split <;> rfl

theorem idealLoop_stop (log2 : F → F) (cutoffs : List Int) (e : Int) (rel_levels : List Int)
    (i : Nat) (cur cnt cnt1 : Int) (s : Walk F)
    (hd : descend rel_levels cur (cnt + 1) = some (0, cnt1)) :
    idealLoop log2 cutoffs e rel_levels i cur cnt s = some s := by
  rw [idealLoop]
  split
  · rename_i heq
    rw [hd] at heq
    exact absurd heq (by simp)
  · rename_i a b heq
    rw [hd] at heq
    simp only [Option.some.injEq, Prod.mk.injEq] at heq
    rw [dif_pos heq.1.symm]

theorem normalise_zero (v : F) : normalise v 0 = v := by
  simp [normalise]

/-- The walk over the ideal ranking, followed by the loop that fills the cutoffs not reached:
every cutoff from the current one on is divided by the gain of the leading documents of non-zero
gain that lie before the cutoff, nothing else is touched, and the walk ends with the ideal gain
of the last cutoff. -/
theorem idealLoop_spec (log2 : F → F) (cutoffs : List Int) (e : Int) (rel_levels : List Int)
    (hasc : ∀ (a b : Nat) (ca cb : Int), cutoffs[a]? = some ca → cutoffs[b]? = some cb →
      a < b → ca < cb) :
    ∀ (n i cur : Nat) (cnt : Int) (s : Walk F), (levelsFrom rel_levels cur cnt).length = n →
      (cur < rel_levels.length ∨ cur = 0) →
      (∃ c, cutoffs[s.cutoff_index]? = some c ∧ (i : Int) ≤ c) →
      ∃ s1, idealLoop log2 cutoffs e rel_levels i (cur : Int) cnt s = some s1 ∧
        (∀ m c, cutoffs[m]? = some c → s.cutoff_index ≤ m →
          (idealFill cutoffs.length e s1).values (e + m) = normalise (s.values (e + m))
            (s.acc + dcgFrom log2 i
              ((gainPrefix F (levelsFrom rel_levels cur cnt)).take (c.toNat - i)))) ∧
        (∀ x, (∀ m, s.cutoff_index ≤ m → m < cutoffs.length → x ≠ e + m) →
          (idealFill cutoffs.length e s1).values x = s.values x) ∧
        (∀ c, cutoffs[cutoffs.length - 1]? = some c →
          s1.acc = s.acc + dcgFrom log2 i
            ((gainPrefix F (levelsFrom rel_levels cur cnt)).take (c.toNat - i))) := by
  intro n
  induction n with
  | zero =>
    intro i cur cnt s hlen hb ⟨c, hc, hic⟩
    have hnil : levelsFrom rel_levels cur cnt = [] := List.length_eq_zero.1 hlen
    obtain ⟨cur1, cnt1, hd, -, h3⟩ := descend_levels rel_levels cur cnt hb
    have hcur1 : cur1 = 0 := by
      rcases h3 with h | h
      · exact h.2
      · rw [hnil] at h; exact absurd h.2 (by simp)
    subst hcur1
    refine ⟨s, idealLoop_stop log2 cutoffs e rel_levels i _ _ cnt1 s hd, ?_, ?_, ?_⟩
    · intro m cm hm hjm
      have hmK : m < cutoffs.length := (List.getElem?_eq_some.1 hm).1
      rw [(idealFill_values cutoffs.length e _ s rfl).1 m hjm hmK, hnil]
      simp [gainPrefix, dcgFrom]
    · intro x hx
      exact (idealFill_values cutoffs.length e _ s rfl).2 x hx
    · intro _ _
      rw [hnil]
      simp [gainPrefix, dcgFrom]
  | succ n ih =>
    intro i cur cnt s hlen hb ⟨c, hc, hic⟩
    have hjK : s.cutoff_index < cutoffs.length := (List.getElem?_eq_some.1 hc).1
    obtain ⟨cur1, cnt1, hd, hb1, h3⟩ := descend_levels rel_levels cur cnt hb
    have hcons : 0 < cur1 ∧
        levelsFrom rel_levels cur cnt = (cur1 : Int) :: levelsFrom rel_levels cur1 cnt1 := by
      rcases h3 with h | h
      · rw [h.1] at hlen; exact absurd hlen (by simp)
      · exact h
    obtain ⟨hpos, hR⟩ := hcons
    have hlen1 : (levelsFrom rel_levels cur1 cnt1).length = n := by
      rw [hR] at hlen; simpa using hlen
    have h0 : (cur1 : Int) ≠ 0 := by omega
    rw [idealLoop_unfold log2 cutoffs e rel_levels i _ _ _ _ c s hd h0 hc, hR]
    -- the values after the cutoff test of this iteration
    have key : ∀ (s0 : Walk F),
        s0.cutoff_index = (if (i : Int) = c then s.cutoff_index + 1 else s.cutoff_index) →
        s0.values = (if (i : Int) = c then
            Function.update s.values (e + s.cutoff_index)
              (normalise (s.values (e + s.cutoff_index)) s.acc)
          else s.values) →
        ∀ (V : Int → F) (P : List Int),
        (∀ m cm, cutoffs[m]? = some cm → s0.cutoff_index ≤ m →
          V (e + m) = normalise (s0.values (e + m))
            (s.acc + dcgFrom log2 i (P.take (cm.toNat - i)))) →
        (∀ x, (∀ m, s0.cutoff_index ≤ m → m < cutoffs.length → x ≠ e + m) →
          V x = s0.values x) →
        (∀ m cm, cutoffs[m]? = some cm → s.cutoff_index ≤ m →
          V (e + m) = normalise (s.values (e + m))
            (s.acc + dcgFrom log2 i (P.take (cm.toNat - i)))) ∧
        (∀ x, (∀ m, s.cutoff_index ≤ m → m < cutoffs.length → x ≠ e + m) →
          V x = s.values x) := by
      intro s0 hj0 hv0 V P hV1 hV2
      by_cases hit : (i : Int) = c
      · rw [if_pos hit] at hj0 hv0
        constructor
        · intro m cm hm hjm
          rcases Nat.eq_or_lt_of_le hjm with h | h
          · subst h
            rw [hc] at hm
            simp only [Option.some.injEq] at hm
            rw [hV2 _ (fun m h1 _ => by omega), hv0]
            simp only [Function.update_same]
            have : cm.toNat - i = 0 := by omega
            simp [this, dcgFrom]
          · rw [hV1 m cm hm (by omega), hv0]
            have hne : e + (m : Int) ≠ e + (s.cutoff_index : Int) := by omega
            rw [Function.update_noteq hne]
        · intro x hx
          rw [hV2 x (fun m h1 h2 => hx m (by omega) h2), hv0]
          exact Function.update_noteq (hx _ (le_refl _) hjK) _ _
      · rw [if_neg hit] at hj0 hv0
        constructor
        · intro m cm hm hjm
          rw [hV1 m cm hm (by omega), hv0]
        · intro x hx
          rw [hV2 x (fun m h1 h2 => hx m (by omega) h2), hv0]
    by_cases hlast : (i : Int) = c ∧ s.cutoff_index + 1 = cutoffs.length
    · rw [if_pos hlast]
      obtain ⟨hit, hl⟩ := hlast
      refine ⟨_, rfl, ?_, ?_, ?_⟩
      · intro m cm hm hjm
        have hmK : m < cutoffs.length := (List.getElem?_eq_some.1 hm).1
        have hmj : m = s.cutoff_index := by omega
        subst hmj
        rw [hc] at hm
        simp only [Option.some.injEq] at hm
        rw [(idealFill_values cutoffs.length e _ _ rfl).2 _ (fun m h1 h2 => by
          simp only at h1; omega)]
        simp only [Function.update_same]
        have : cm.toNat - i = 0 := by omega
        simp [this, dcgFrom]
      · intro x hx
        rw [(idealFill_values cutoffs.length e _ _ rfl).2 _ (fun m h1 h2 => by
          simp only at h1; omega)]
        exact Function.update_noteq (hx _ (le_refl _) hjK) _ _
      · intro cl hcl
        have : cutoffs.length - 1 = s.cutoff_index := by omega
        rw [this, hc] at hcl
        simp only [Option.some.injEq] at hcl
        have : cl.toNat - i = 0 := by omega
        simp [this, dcgFrom]
    · rw [if_neg hlast]
      -- the cutoff pointer after the test still points to a cutoff not yet passed
      have hnext : ∃ c1, cutoffs[(if (i : Int) = c then s.cutoff_index + 1
          else s.cutoff_index)]? = some c1 ∧ ((i + 1 : Nat) : Int) ≤ c1 := by
        by_cases hit : (i : Int) = c
        · rw [if_pos hit]
          have hj1 : s.cutoff_index + 1 < cutoffs.length := by
            rcases Nat.lt_or_ge (s.cutoff_index + 1) cutoffs.length with h | h
            · exact h
            · exact absurd ⟨hit, by omega⟩ hlast
          refine ⟨cutoffs[s.cutoff_index + 1], List.getElem?_eq_getElem hj1, ?_⟩
          have := hasc _ _ _ _ hc (List.getElem?_eq_getElem hj1) (Nat.lt_succ_self _)
          push_cast
          omega
        · rw [if_neg hit]
          exact ⟨c, hc, by push_cast; omega⟩
      obtain ⟨c1, hc1, hic1⟩ := hnext
      have hj0 : s.cutoff_index ≤ (if (i : Int) = c then s.cutoff_index + 1
          else s.cutoff_index) := by split <;> omega
      have hafter : ∀ m cm, cutoffs[m]? = some cm →
          (if (i : Int) = c then s.cutoff_index + 1 else s.cutoff_index) ≤ m →
          ((i + 1 : Nat) : Int) ≤ cm := by
        intro m cm hm hjm
        rcases Nat.eq_or_lt_of_le hjm with h | h
        · rw [h, hm] at hc1
          simp only [Option.some.injEq] at hc1
          omega
        · have := hasc _ _ _ _ hc1 hm h
          omega
      have hlastc : ∀ cl, cutoffs[cutoffs.length - 1]? = some cl → ((i + 1 : Nat) : Int) ≤ cl := by
        intro cl hcl
        refine hafter _ cl hcl ?_
        have := (List.getElem?_eq_some.1 hc1).1
        omega
      by_cases hg : get_gain F (cur1 : Int) = 0
      · rw [if_pos hg, gainPrefix_cons_zero _ _ hg]
        obtain ⟨k1, k2⟩ := key
          ⟨if (i : Int) = c then s.cutoff_index + 1 else s.cutoff_index, s.acc,
            if (i : Int) = c then
              Function.update s.values (e + s.cutoff_index)
                (normalise (s.values (e + s.cutoff_index)) s.acc)
            else s.values⟩ rfl rfl
          (idealFill cutoffs.length e
            ⟨if (i : Int) = c then s.cutoff_index + 1 else s.cutoff_index, s.acc,
              if (i : Int) = c then
                Function.update s.values (e + s.cutoff_index)
                  (normalise (s.values (e + s.cutoff_index)) s.acc)
              else s.values⟩).values []
          (fun m cm hm hjm => by
            have hmK : m < cutoffs.length := (List.getElem?_eq_some.1 hm).1
            rw [(idealFill_values cutoffs.length e _ _ rfl).1 m hjm hmK]
            simp [dcgFrom])
          (fun x hx => (idealFill_values cutoffs.length e _ _ rfl).2 x hx)
        exact ⟨_, rfl, k1, k2, fun cl _ => by simp [dcgFrom]⟩
      · rw [if_neg hg]
        obtain ⟨s1, hs1, q1, q2, q3⟩ := ih (i + 1) cur1 cnt1
          ⟨if (i : Int) = c then s.cutoff_index + 1 else s.cutoff_index,
            s.acc + discGain log2 i cur1,
            if (i : Int) = c then
              Function.update s.values (e + s.cutoff_index)
                (normalise (s.values (e + s.cutoff_index)) s.acc)
            else s.values⟩ hlen1 hb1 ⟨c1, hc1, hic1⟩
        simp only at q1 q2 q3
        have hP : gainPrefix F ((cur1 : Int) :: levelsFrom rel_levels cur1 cnt1)
            = (cur1 : Int) :: gainPrefix F (levelsFrom rel_levels cur1 cnt1) :=
          gainPrefix_cons_pos _ _ hg
        rw [hP]
        have hstep : ∀ cm : Int, ((i + 1 : Nat) : Int) ≤ cm →
            s.acc + dcgFrom log2 i
              (((cur1 : Int) :: gainPrefix F (levelsFrom rel_levels cur1 cnt1)).take
                (cm.toNat - i))
            = s.acc + discGain log2 i cur1 + dcgFrom log2 (i + 1)
              ((gainPrefix F (levelsFrom rel_levels cur1 cnt1)).take (cm.toNat - (i + 1))) := by
          intro cm hcm
          obtain ⟨k, hk⟩ : ∃ k, cm.toNat - i = k + 1 := ⟨cm.toNat - i - 1, by omega⟩
          have hk2 : cm.toNat - (i + 1) = k := by omega
          rw [hk, hk2, List.take_succ_cons]
          simp only [dcgFrom]
          ring
        obtain ⟨k1, k2⟩ := key
          ⟨if (i : Int) = c then s.cutoff_index + 1 else s.cutoff_index,
            s.acc + discGain log2 i cur1,
            if (i : Int) = c then
              Function.update s.values (e + s.cutoff_index)
                (normalise (s.values (e + s.cutoff_index)) s.acc)
            else s.values⟩ rfl rfl (idealFill cutoffs.length e s1).values
          ((cur1 : Int) :: gainPrefix F (levelsFrom rel_levels cur1 cnt1))
          (fun m cm hm hjm => by
            rw [q1 m cm hm hjm, hstep cm (hafter m cm hm hjm)])
          q2
        exact ⟨s1, hs1, k1, k2, fun cl hcl => by rw [q3 cl hcl, hstep cl (hlastc cl hcl)]⟩

/-- Strictly ascending cutoffs, as a statement about positions. -/
theorem asc_of_pairwise (cutoffs : List Int) (h : cutoffs.Pairwise (· < ·)) :
    ∀ (a b : Nat) (ca cb : Int), cutoffs[a]? = some ca → cutoffs[b]? = some cb →
      a < b → ca < cb := by
  intro a b ca cb ha hb hab
  obtain ⟨ha1, ha2⟩ := List.getElem?_eq_some.1 ha
  obtain ⟨hb1, hb2⟩ := List.getElem?_eq_some.1 hb
  rw [← ha2, ← hb2]
  exact List.pairwise_iff_getElem.1 h a b ha1 hb1 hab

/-- The first half of `te_calc_ndcg45_cut` leaves the gain of the documents before each cutoff in
the entry of that cutoff and touches nothing else. -/
theorem actualPhase_spec (log2 : F → F) (tm : TREC_MEAS) (res_rels : RES_RELS)
    (values : Int → F) (hne : tm.meas_params.param_values ≠ [])
    (hasc : tm.meas_params.param_values.Pairwise (· < ·))
    (hpos : ∀ c ∈ tm.meas_params.param_values, 0 < c) :
    ∃ raw, actualPhase log2 tm res_rels values = some raw ∧
      (∀ (m : Nat) (c : Int), tm.meas_params.param_values[m]? = some c →
        raw (tm.eval_index + m) = dcg log2 res_rels.results_rel_list c.toNat) ∧
      (∀ x, (∀ (m : Nat), m < tm.meas_params.param_values.length → x ≠ tm.eval_index + m) →
        raw x = values x) := by
  have hK : 0 < tm.meas_params.param_values.length := List.length_pos.2 hne
  have hc0 : (0 : Int) < tm.meas_params.param_values[0] := hpos _ (List.getElem_mem _)
  obtain ⟨s1, hs1, h1, h2⟩ := actualLoop_spec log2 tm.meas_params.param_values tm.eval_index
    res_rels.results_rel_list (asc_of_pairwise _ hasc) _ 0 ⟨0, 0, values⟩ rfl (Nat.zero_le _)
    ⟨_, List.getElem?_eq_getElem hK, by push_cast; omega⟩
    (dcg_zero log2 _).symm
  refine ⟨_, by rw [actualPhase, hs1], ?_, ?_⟩
  · intro m c hm
    exact h1 m c hm (Nat.zero_le _)
  · intro x hx
    exact h2 x (fun m _ hm => hx m hm)

/-- The second half of `te_calc_ndcg45_cut` divides the entry of each cutoff by the gain of the
leading non-zero-gain documents of the ideal ranking that lie before the cutoff (when that gain
is positive), touches nothing else, and its walk ends with the ideal gain of the last cutoff. -/
theorem idealPhase_spec (log2 : F → F) (tm : TREC_MEAS) (res_rels : RES_RELS)
    (values : Int → F) (hne : tm.meas_params.param_values ≠ [])
    (hasc : tm.meas_params.param_values.Pairwise (· < ·))
    (hpos : ∀ c ∈ tm.meas_params.param_values, 0 < c) :
    ∃ s1, idealWalk log2 tm res_rels values = some s1 ∧
      idealPhase log2 tm res_rels values
        = some (idealFill tm.meas_params.num_params tm.eval_index s1).values ∧
      (∀ (m : Nat) (c : Int), tm.meas_params.param_values[m]? = some c →
        (idealFill tm.meas_params.num_params tm.eval_index s1).values (tm.eval_index + m)
          = normalise (values (tm.eval_index + m))
            (dcg log2 (gainPrefix F
              (levelsFrom res_rels.rel_levels (res_rels.rel_levels.length - 1) 0)) c.toNat)) ∧
      (∀ x, (∀ (m : Nat), m < tm.meas_params.param_values.length → x ≠ tm.eval_index + m) →
        (idealFill tm.meas_params.num_params tm.eval_index s1).values x = values x) ∧
      (∀ c, tm.meas_params.param_values[tm.meas_params.param_values.length - 1]? = some c →
        s1.acc = dcg log2 (gainPrefix F
          (levelsFrom res_rels.rel_levels (res_rels.rel_levels.length - 1) 0)) c.toNat) := by
  have hK : 0 < tm.meas_params.param_values.length := List.length_pos.2 hne
  have hc0 : (0 : Int) < tm.meas_params.param_values[0] := hpos _ (List.getElem_mem _)
  have hget : tm.meas_params.param_values[0]? = some tm.meas_params.param_values[0] :=
    List.getElem?_eq_getElem hK
  have hwalk : ∃ s1, idealWalk log2 tm res_rels values = some s1 ∧
      (∀ (m : Nat) (c : Int), tm.meas_params.param_values[m]? = some c →
        (idealFill tm.meas_params.num_params tm.eval_index s1).values (tm.eval_index + m)
          = normalise (values (tm.eval_index + m))
            (dcg log2 (gainPrefix F
              (levelsFrom res_rels.rel_levels (res_rels.rel_levels.length - 1) 0)) c.toNat)) ∧
      (∀ x, (∀ (m : Nat), m < tm.meas_params.param_values.length → x ≠ tm.eval_index + m) →
        (idealFill tm.meas_params.num_params tm.eval_index s1).values x = values x) ∧
      (∀ c, tm.meas_params.param_values[tm.meas_params.param_values.length - 1]? = some c →
        s1.acc = dcg log2 (gainPrefix F
          (levelsFrom res_rels.rel_levels (res_rels.rel_levels.length - 1) 0)) c.toNat) := by
    rcases Nat.eq_zero_or_pos res_rels.rel_levels.length with hn | hn
    · -- no level at all: `cur_lvl` starts at -1 and the walk stops at once on a zero gain
      have hd : descend res_rels.rel_levels (-1) (0 + 1) = some (-1, 1) := by
        rw [descend, dif_neg (by decide)]; rfl
      have hg : get_gain F (-1) = 0 := rfl
      have hi : ¬ ((0 : Nat) : Int) = tm.meas_params.param_values[0] := by
        push_cast; omega
      have hrun : idealWalk log2 tm res_rels values = some ⟨0, 0, values⟩ := by
        unfold idealWalk RES_RELS.num_rel_levels
        rw [hn]
        have hrun := idealLoop_unfold log2 tm.meas_params.param_values tm.eval_index
          res_rels.rel_levels 0 (-1) 0 (-1) 1 _ ⟨0, 0, values⟩ hd (by decide) hget
        simp only [hi, false_and, if_false, hg, if_true] at hrun
        exact hrun
      have hlev : levelsFrom res_rels.rel_levels (res_rels.rel_levels.length - 1) 0 = [] := by
        rw [hn]; rfl
      rw [hlev]
      refine ⟨_, hrun, ?_, ?_, ?_⟩
      · intro m c hm
        have hmK : m < tm.meas_params.param_values.length := (List.getElem?_eq_some.1 hm).1
        rw [(idealFill_values _ tm.eval_index _ ⟨0, 0, values⟩ rfl).1 m (Nat.zero_le _) hmK]
        simp [gainPrefix, dcg, dcgFrom, normalise]
      · intro x hx
        exact (idealFill_values _ tm.eval_index _ ⟨0, 0, values⟩ rfl).2 x
          (fun m _ hm => hx m hm)
      · intro c _
        simp [gainPrefix, dcg, dcgFrom]
    · obtain ⟨s1, hs1, h1, h2, h3⟩ := idealLoop_spec log2 tm.meas_params.param_values
        tm.eval_index res_rels.rel_levels (asc_of_pairwise _ hasc) _ 0
        (res_rels.rel_levels.length - 1) 0 ⟨0, 0, values⟩ rfl (Or.inl (by omega))
        ⟨_, hget, by push_cast; omega⟩
      dsimp only at h1 h2 h3
      simp only [zero_add, Nat.sub_zero] at h1 h3
      unfold dcg
      refine ⟨s1, ?_, fun m c hm => h1 m c hm (Nat.zero_le _),
        fun x hx => h2 x (fun m _ hm => hx m hm), h3⟩
      rw [← hs1]
      unfold idealWalk RES_RELS.num_rel_levels
      congr 1
      omega
  obtain ⟨s1, hs1, h1, h2, h3⟩ := hwalk
  exact ⟨s1, hs1, by rw [idealPhase, hs1], h1, h2, h3⟩

theorem dcgFrom_eq_sum (log2 : F → F) (l : List Int) :
    ∀ s : Nat, dcgFrom log2 s l
      = ∑ k in Finset.range l.length, discGain log2 (s + k) (l.getD k 0) := by
  induction l with
  | nil => intro s; simp [dcgFrom]
  | cons x t ih =>
    intro s
    rw [List.length_cons, Finset.sum_range_succ', dcgFrom, ih (s + 1), add_comm]
    congr 1
    apply Finset.sum_congr rfl
    intro k _
    rw [show s + 1 + k = s + (k + 1) by omega]
    simp

theorem dcg_eq_sum (log2 : F → F) (l : List Int) (c : Nat) :
    dcg log2 l c = ∑ k in Finset.range (min c l.length), discGain log2 k (l.getD k 0) := by
  rw [dcg, dcgFrom_eq_sum, List.length_take]
  apply Finset.sum_congr rfl
  intro k hk
  have hk2 : k < c := lt_of_lt_of_le (Finset.mem_range.1 hk) (min_le_left _ _)
  rw [zero_add, List.getD_eq_getElem?_getD, List.getD_eq_getElem?_getD,
    List.getElem?_take_of_lt hk2]

theorem discGain_real (k : Nat) (x : Int) :
    discGain (Real.logb 2) k x = get_gain ℝ x / Real.logb 2 ((k : ℝ) + 2) := by
  unfold discGain
  push_cast
  rfl

theorem levelsFrom_eq_flatMap (rel_levels : List Int) :
    ∀ L : Nat, levelsFrom rel_levels L 0
      = ((List.range (L + 1)).reverse.filter (fun L => 1 ≤ L)).flatMap
          (fun L => List.replicate (rel_levels.getD L 0).toNat (L : Int)) := by
  intro L
  induction L with
  | zero => simp [levelsFrom]
  | succ L ih =>
    rw [List.range_succ, List.reverse_append, List.reverse_singleton, List.singleton_append,
      List.filter_cons_of_pos (by simp), List.flatMap_cons, ← ih]
    simp [levelsFrom]

theorem idealRanking_eq (rel_levels : List Int) :
    idealRanking rel_levels = levelsFrom rel_levels (rel_levels.length - 1) 0 := by
  unfold idealRanking
  rcases Nat.eq_zero_or_pos rel_levels.length with h | h
  · rw [h]; simp [levelsFrom]
  · rw [levelsFrom_eq_flatMap, Nat.sub_add_cancel h]

/-- The whole of `te_calc_ndcg45_cut` when `te_form_res_rels` did not fail: the recorded gain of
every cutoff, what it is divided by, and the entries left alone. -/
theorem te_calc_spec (UNDEF : Int) (log2 : F → F) (ret : Int) (res_rels : RES_RELS)
    (tm : TREC_MEAS) (values : Int → F) (hret : UNDEF ≠ ret)
    (hne : tm.meas_params.param_values ≠ [])
    (hasc : tm.meas_params.param_values.Pairwise (· < ·))
    (hpos : ∀ c ∈ tm.meas_params.param_values, 0 < c) :
    ∃ raw s1 final, actualPhase log2 tm res_rels values = some raw ∧
      idealWalk log2 tm res_rels raw = some s1 ∧
      te_calc_ndcg45_cut UNDEF log2 (ret, res_rels) tm values = some (1, final) ∧
      (∀ (m : Nat) (c : Int), tm.meas_params.param_values[m]? = some c →
        raw (tm.eval_index + m) = dcg log2 res_rels.results_rel_list c.toNat ∧
        final (tm.eval_index + m) = normalise (raw (tm.eval_index + m))
          (dcg log2 (gainPrefix F
            (levelsFrom res_rels.rel_levels (res_rels.rel_levels.length - 1) 0)) c.toNat)) ∧
      (∀ x, (∀ (m : Nat), m < tm.meas_params.param_values.length → x ≠ tm.eval_index + m) →
        final x = values x) ∧
      (∀ c, tm.meas_params.param_values[tm.meas_params.param_values.length - 1]? = some c →
        s1.acc = dcg log2 (gainPrefix F
          (levelsFrom res_rels.rel_levels (res_rels.rel_levels.length - 1) 0)) c.toNat) := by
  obtain ⟨raw, hraw, a1, a2⟩ := actualPhase_spec log2 tm res_rels values hne hasc hpos
  obtain ⟨s1, hs1, hph, b1, b2, b3⟩ := idealPhase_spec log2 tm res_rels raw hne hasc hpos
  refine ⟨raw, s1, _, hraw, hs1, ?_, fun m c hm => ⟨a1 m c hm, b1 m c hm⟩, ?_, b3⟩
  · rw [te_calc_ndcg45_cut, if_neg hret]
    simp only [hraw, hph]
  · intro x hx
    rw [b2 x hx, a2 x hx]

theorem mem_levelsFrom_bounds (rel_levels : List Int) :
    ∀ (L : Nat) (cnt x : Int), x ∈ levelsFrom rel_levels L cnt → 1 ≤ x ∧ x ≤ L := by
  intro L
  induction L with
  | zero => intro cnt x hx; simp [levelsFrom] at hx
  | succ L ih =>
    intro cnt x hx
    simp only [levelsFrom, List.mem_append] at hx
    rcases hx with hx | hx
    · have := (List.mem_replicate.1 hx).2
      push_cast
      omega
    · have := ih 0 x hx
      push_cast
      omega

theorem mem_levelsFrom_count (rel_levels : List Int) :
    ∀ (L : Nat) (cnt x : Int), 0 ≤ cnt → x ∈ levelsFrom rel_levels L cnt →
      0 < rel_levels.getD x.toNat 0 := by
  intro L
  induction L with
  | zero => intro cnt x _ hx; simp [levelsFrom] at hx
  | succ L ih =>
    intro cnt x hcnt hx
    simp only [levelsFrom, List.mem_append] at hx
    rcases hx with hx | hx
    · obtain ⟨h1, h2⟩ := List.mem_replicate.1 hx
      have h3 : x.toNat = L + 1 := by omega
      rw [h3]
      omega
    · exact ih 0 x (le_refl _) hx

theorem levelsFrom_sorted (rel_levels : List Int) :
    ∀ (L : Nat) (cnt : Int), (levelsFrom rel_levels L cnt).Pairwise (· ≥ ·) := by
  intro L
  induction L with
  | zero => intro cnt; simp [levelsFrom]
  | succ L ih =>
    intro cnt
    simp only [levelsFrom]
    rw [List.pairwise_append]
    refine ⟨?_, ih 0, ?_⟩
    · rw [List.pairwise_replicate]
      exact Or.inr (le_refl _)
    · intro a ha b hb
      have h1 := (List.mem_replicate.1 ha).2
      have h2 := (mem_levelsFrom_bounds rel_levels L 0 b hb).2
      show a ≥ b
      omega

theorem dcgFrom_eq_zero (log2 : F → F) (l : List Int) (h : ∀ x ∈ l, get_gain F x = 0) :
    ∀ s : Nat, dcgFrom log2 s l = 0 := by
  induction l with
  | nil => intro s; rfl
  | cons x t ih =>
    intro s
    rw [dcgFrom, ih (fun y hy => h y (List.mem_cons_of_mem _ hy)), discGain,
      h x (List.mem_cons_self _ _)]
    simp

/-- In a ranking sorted by descending level with no level above 5, every document after the
first one of zero gain has zero gain, so cutting the ranking there loses no gain. -/
theorem dcgFrom_take_gainPrefix (log2 : F → F) (l : List Int) (hs : l.Pairwise (· ≥ ·))
    (h5 : ∀ x ∈ l, x ≤ 5) :
    ∀ (s k : Nat), dcgFrom log2 s ((gainPrefix F l).take k) = dcgFrom log2 s (l.take k) := by
  induction l with
  | nil => intro s k; simp [gainPrefix]
  | cons x t ih =>
    intro s k
    by_cases hg : get_gain F x = 0
    · rw [gainPrefix_cons_zero x t hg, List.take_nil]
      symm
      apply dcgFrom_eq_zero
      intro y hy
      have hy2 := List.mem_of_mem_take hy
      rw [get_gain_eq_zero_iff] at hg ⊢
      have hx5 := h5 x (List.mem_cons_self _ _)
      rcases List.mem_cons.1 hy2 with h | h
      · subst h; exact hg
      · have : x ≥ y := List.rel_of_pairwise_cons hs h
        omega
    · rw [gainPrefix_cons_pos x t hg]
      cases k with
      | zero => simp
      | succ k =>
        rw [List.take_succ_cons, List.take_succ_cons, dcgFrom, dcgFrom,
          ih (List.Pairwise.of_cons hs) (fun y hy => h5 y (List.mem_cons_of_mem _ hy))]

theorem dcg_gainPrefix_levelsFrom (log2 : F → F) (rel_levels : List Int)
    (htop : ∀ L : Nat, 5 < L → L < rel_levels.length → rel_levels.getD L 0 ≤ 0) (c : Nat) :
    dcg log2 (gainPrefix F (levelsFrom rel_levels (rel_levels.length - 1) 0)) c
      = dcg log2 (idealRanking rel_levels) c := by
  rw [idealRanking_eq]
  unfold dcg
  apply dcgFrom_take_gainPrefix log2 _ (levelsFrom_sorted _ _ _)
  intro x hx
  have hb := mem_levelsFrom_bounds rel_levels _ 0 x hx
  have hc := mem_levelsFrom_count rel_levels _ 0 x (le_refl _) hx
  by_contra hcon
  have h1 : x.toNat < rel_levels.length := by
    by_contra hlt
    rw [List.getD_eq_default _ _ (not_lt.1 hlt)] at hc
    exact lt_irrefl _ hc
  have := htop x.toNat (by omega) h1
  omega

theorem logb_two_pos (k : Nat) : 0 < Real.logb 2 ((k : ℝ) + 2) := by
  apply Real.logb_pos (by norm_num)
  have : (0 : ℝ) ≤ k := Nat.cast_nonneg k
  linarith

theorem discGain_real_nonneg (k : Nat) (x : Int) : 0 ≤ discGain (Real.logb 2) k x := by
  rw [discGain_real]
  exact div_nonneg (get_gain_nonneg x) (le_of_lt (logb_two_pos k))

theorem dcgFrom_real_nonneg (l : List Int) : ∀ s : Nat, 0 ≤ dcgFrom (Real.logb 2) s l := by
  induction l with
  | nil => intro s; exact le_refl _
  | cons x t ih =>
    intro s
    rw [dcgFrom]
    exact add_nonneg (discGain_real_nonneg s x) (ih (s + 1))

theorem dcg_real_mono (l : List Int) (c c1 : Nat) (h : c ≤ c1) :
    dcg (Real.logb 2) l c ≤ dcg (Real.logb 2) l c1 := by
  rw [dcg_eq_sum, dcg_eq_sum]
  apply Finset.sum_le_sum_of_subset_of_nonneg
  · exact Finset.range_subset.2 (min_le_min_right _ h)
  · intro i _ _
    exact discGain_real_nonneg i _

theorem idealFill_acc_zero (K : Nat) (e : Int) :
    ∀ (n : Nat) (s : Walk F), n = K - s.cutoff_index → s.acc = 0 →
      (idealFill K e s).values = s.values := by
  intro n
  induction n with
  | zero =>
    intro s hn _
    have hK : ¬ s.cutoff_index < K := by omega
    rw [idealFill, dif_neg hK]
  | succ n ih =>
    intro s hn h0
    have hK : s.cutoff_index < K := by omega
    have hgt : ¬ s.acc > 0 := by rw [h0]; exact lt_irrefl _
    rw [idealFill, dif_pos hK, if_neg hgt]
    exact ih ⟨s.cutoff_index + 1, s.acc, s.values⟩ (by simp only; omega) h0

/-- With at least one cutoff the first loop never reads outside `cutoffs`, whatever the cutoffs
are: it runs to its end. -/
theorem actualLoop_some (log2 : F → F) (cutoffs : List Int) (e : Int) (rel : List Int) :
    ∀ (n i : Nat) (s : Walk F), n = rel.length - i → s.cutoff_index < cutoffs.length →
      ∃ s1, actualLoop log2 cutoffs e rel i s = some s1 := by
  intro n
  induction n with
  | zero =>
    intro i s hn _
    have hi : ¬ i < rel.length := by omega
    exact ⟨s, by rw [actualLoop, dif_neg hi]⟩
  | succ n ih =>
    intro i s hn hj
    have hi : i < rel.length := by omega
    rw [actualLoop, dif_pos hi]
    simp only [List.getElem?_eq_getElem hj, gain_step]
    by_cases hit : (i : Int) = cutoffs[s.cutoff_index]
    · simp only [hit, decide_True, if_true, true_and]
      by_cases hlast : s.cutoff_index + 1 = cutoffs.length
      · rw [if_pos hlast]
        exact ⟨_, rfl⟩
      · rw [if_neg hlast]
        exact ih (i + 1) _ (by omega) (by simp only; omega)
    · simp only [hit, decide_False, if_false, false_and, Bool.false_eq_true]
      exact ih (i + 1) _ (by omega) hj

/-- With at least one cutoff the second loop never reads outside `cutoffs` or `rel_levels`,
whatever the cutoffs and the counts are: it runs to its end. -/
theorem idealLoop_some (log2 : F → F) (cutoffs : List Int) (e : Int) (rel_levels : List Int) :
    ∀ (n i cur : Nat) (cnt : Int) (s : Walk F), (levelsFrom rel_levels cur cnt).length = n →
      (cur < rel_levels.length ∨ cur = 0) → s.cutoff_index < cutoffs.length →
      ∃ s1, idealLoop log2 cutoffs e rel_levels i (cur : Int) cnt s = some s1 := by
  intro n
  induction n with
  | zero =>
    intro i cur cnt s hlen hb _
    have hnil : levelsFrom rel_levels cur cnt = [] := List.length_eq_zero.1 hlen
    obtain ⟨cur1, cnt1, hd, -, h3⟩ := descend_levels rel_levels cur cnt hb
    have hcur1 : cur1 = 0 := by
      rcases h3 with h | h
      · exact h.2
      · rw [hnil] at h; exact absurd h.2 (by simp)
    subst hcur1
    exact ⟨s, idealLoop_stop log2 cutoffs e rel_levels i _ _ cnt1 s hd⟩
  | succ n ih =>
    intro i cur cnt s hlen hb hj
    obtain ⟨cur1, cnt1, hd, hb1, h3⟩ := descend_levels rel_levels cur cnt hb
    have hcons : 0 < cur1 ∧
        levelsFrom rel_levels cur cnt = (cur1 : Int) :: levelsFrom rel_levels cur1 cnt1 := by
      rcases h3 with h | h
      · rw [h.1] at hlen; exact absurd hlen (by simp)
      · exact h
    obtain ⟨hpos, hR⟩ := hcons
    have hlen1 : (levelsFrom rel_levels cur1 cnt1).length = n := by
      rw [hR] at hlen; simpa using hlen
    rw [idealLoop_unfold log2 cutoffs e rel_levels i _ _ _ _ _ s hd (by omega)
      (List.getElem?_eq_getElem hj)]
    by_cases hlast : (i : Int) = cutoffs[s.cutoff_index] ∧ s.cutoff_index + 1 = cutoffs.length
    · rw [if_pos hlast]
      exact ⟨_, rfl⟩
    · rw [if_neg hlast]
      by_cases hg : get_gain F (cur1 : Int) = 0
      · rw [if_pos hg]
        exact ⟨_, rfl⟩
      · rw [if_neg hg]
        apply ih (i + 1) cur1 cnt1 _ hlen1 hb1
        simp only
        by_cases hit : (i : Int) = cutoffs[s.cutoff_index]
        · rw [if_pos hit]
          rcases Nat.lt_or_ge (s.cutoff_index + 1) cutoffs.length with h | h
          · exact h
          · exact absurd ⟨hit, by omega⟩ hlast
        · rw [if_neg hit]
          exact hj

theorem idealWalk_some (log2 : F → F) (tm : TREC_MEAS) (res_rels : RES_RELS)
    (values : Int → F) (hne : tm.meas_params.param_values ≠ []) :
    ∃ s1, idealWalk log2 tm res_rels values = some s1 := by
  have hK : 0 < tm.meas_params.param_values.length := List.length_pos.2 hne
  unfold idealWalk RES_RELS.num_rel_levels
  rcases Nat.eq_zero_or_pos res_rels.rel_levels.length with hn | hn
  · have hd : descend res_rels.rel_levels (-1) (0 + 1) = some (-1, 1) := by
      rw [descend, dif_neg (by decide)]; rfl
    have hg : get_gain F (-1) = 0 := rfl
    rw [hn]
    have hrun := idealLoop_unfold log2 tm.meas_params.param_values tm.eval_index
      res_rels.rel_levels 0 (-1) 0 (-1) 1 _ ⟨0, 0, values⟩ hd (by decide)
      (List.getElem?_eq_getElem hK)
    simp only [hg, if_true] at hrun
    simp only [Nat.cast_zero, zero_sub]
    rw [hrun]
    split
    · exact ⟨_, rfl⟩
    · exact ⟨_, rfl⟩
  · have hcast : (res_rels.rel_levels.length : Int) - 1
        = ((res_rels.rel_levels.length - 1 : Nat) : Int) := by omega
    rw [hcast]
    exact idealLoop_some log2 _ _ _ _ 0 _ 0 ⟨0, 0, values⟩ rfl (Or.inl (by omega)) hK

/-- With at least one cutoff `te_calc_ndcg45_cut` runs to its `return`, whatever the cutoffs,
the ranked list and the counts are. -/
theorem te_calc_some (UNDEF : Int) (log2 : F → F) (form : Int × RES_RELS) (tm : TREC_MEAS)
    (values : Int → F) (hne : tm.meas_params.param_values ≠ []) :
    ∃ r final, te_calc_ndcg45_cut UNDEF log2 form tm values = some (r, final) ∧
      (UNDEF = form.1 → r = UNDEF ∧ final = values) ∧ (UNDEF ≠ form.1 → r = 1) := by
  have hK : 0 < tm.meas_params.param_values.length := List.length_pos.2 hne
  by_cases h : UNDEF = form.1
  · exact ⟨UNDEF, values, by rw [te_calc_ndcg45_cut, if_pos h], fun _ => ⟨rfl, rfl⟩,
      fun hn => absurd h hn⟩
  · obtain ⟨s0, hs0⟩ := actualLoop_some log2 tm.meas_params.param_values tm.eval_index
      form.2.results_rel_list _ 0 ⟨0, 0, values⟩ rfl hK
    obtain ⟨s1, hs1⟩ := idealWalk_some log2 tm form.2
      (actualFill tm.meas_params.num_params tm.eval_index s0).values hne
    refine ⟨1, (idealFill tm.meas_params.num_params tm.eval_index s1).values, ?_,
      fun hu => absurd hu h, fun _ => rfl⟩
    rw [te_calc_ndcg45_cut, if_neg h]
    simp only [actualPhase, hs0, idealPhase, hs1]

theorem logb_two_three_bounds : (84 : ℝ) / 53 < Real.logb 2 3 ∧ Real.logb 2 3 < (485 : ℝ) / 306 := by
  constructor
  · rw [Real.lt_logb_iff_rpow_lt (by norm_num) (by norm_num)]
    have h : ((2 : ℝ) ^ ((84 : ℝ) / 53)) ^ (53 : ℕ) < 3 ^ (53 : ℕ) := by
      rw [← Real.rpow_natCast, ← Real.rpow_mul (by norm_num)]
      norm_num
    exact lt_of_pow_lt_pow_left₀ 53 (by norm_num) h
  · rw [Real.logb_lt_iff_lt_rpow (by norm_num) (by norm_num)]
    have h : (3 : ℝ) ^ (306 : ℕ) < ((2 : ℝ) ^ ((485 : ℝ) / 306)) ^ (306 : ℕ) := by
      rw [← Real.rpow_natCast ((2 : ℝ) ^ ((485 : ℝ) / 306)), ← Real.rpow_mul (by norm_num)]
      norm_num
    exact lt_of_pow_lt_pow_left₀ 306 (by positivity) h

theorem logb_two_five_bounds :
    (339 : ℝ) / 146 < Real.logb 2 5 ∧ Real.logb 2 5 < (1493 : ℝ) / 643 := by
  constructor
  · rw [Real.lt_logb_iff_rpow_lt (by norm_num) (by norm_num)]
    have h : ((2 : ℝ) ^ ((339 : ℝ) / 146)) ^ (146 : ℕ) < 5 ^ (146 : ℕ) := by
      rw [← Real.rpow_natCast, ← Real.rpow_mul (by norm_num)]
      norm_num
    exact lt_of_pow_lt_pow_left₀ 146 (by norm_num) h
  · rw [Real.logb_lt_iff_lt_rpow (by norm_num) (by norm_num)]
    have h : (5 : ℝ) ^ (643 : ℕ) < ((2 : ℝ) ^ ((1493 : ℝ) / 643)) ^ (643 : ℕ) := by
      rw [← Real.rpow_natCast ((2 : ℝ) ^ ((1493 : ℝ) / 643)), ← Real.rpow_mul (by norm_num)]
      norm_num
    exact lt_of_pow_lt_pow_left₀ 643 (by positivity) h

theorem logb_two_four : Real.logb 2 4 = 2 := by
  rw [show (4 : ℝ) = 2 ^ (2 : ℝ) by norm_num, Real.logb_rpow (by norm_num) (by norm_num)]

/-- The run of `te_calc_ndcg45_cut` on the ranked list `[5, 4, 0, 5]`, two judged documents of
level 5 and one of level 4, and the cutoffs 2 and 4. -/
theorem scenario_run (UNDEF ret e : Int) (values : Int → ℝ) (hret : UNDEF ≠ ret) :
    ∃ raw s1 final,
      actualPhase (Real.logb 2) ⟨⟨[2, 4]⟩, e⟩ ⟨[5, 4, 0, 5], [0, 0, 0, 0, 1, 2]⟩ values = some raw ∧
      idealWalk (Real.logb 2) ⟨⟨[2, 4]⟩, e⟩ ⟨[5, 4, 0, 5], [0, 0, 0, 0, 1, 2]⟩ raw = some s1 ∧
      te_calc_ndcg45_cut UNDEF (Real.logb 2) (ret, ⟨[5, 4, 0, 5], [0, 0, 0, 0, 1, 2]⟩)
        ⟨⟨[2, 4]⟩, e⟩ values = some (1, final) ∧
      raw e = 2 / Real.logb 2 2 + 1 / Real.logb 2 3 ∧
      raw (e + 1) = 2 / Real.logb 2 2 + 1 / Real.logb 2 3 + 2 / Real.logb 2 5 ∧
      final e = normalise (raw e) (2 / Real.logb 2 2 + 2 / Real.logb 2 3) ∧
      final (e + 1) = normalise (raw (e + 1))
        (2 / Real.logb 2 2 + 2 / Real.logb 2 3 + 1 / Real.logb 2 4) ∧
      s1.acc = 2 / Real.logb 2 2 + 2 / Real.logb 2 3 + 1 / Real.logb 2 4 := by
  obtain ⟨raw, s1, final, hraw, hs1, hfin, h1, -, h3⟩ :=
    te_calc_spec UNDEF (Real.logb 2) ret ⟨[5, 4, 0, 5], [0, 0, 0, 0, 1, 2]⟩ ⟨⟨[2, 4]⟩, e⟩ values
      hret (show ([2, 4] : List Int) ≠ [] by decide)
      (show ([2, 4] : List Int).Pairwise (· < ·) by decide)
      (show ∀ c ∈ ([2, 4] : List Int), 0 < c by decide)
  have hlev : levelsFrom [0, 0, 0, 0, 1, 2] ([0, 0, 0, 0, 1, 2] : List Int).length.pred 0
      = [5, 5, 4] := by decide
  have hP : gainPrefix ℝ [5, 5, 4] = [5, 5, 4] := by
    simp [gainPrefix, List.takeWhile, get_gain]
  have ha := h1 0 2 rfl
  have hb := h1 1 4 rfl
  have hc := h3 4 rfl
  have hlev2 : levelsFrom [0, 0, 0, 0, 1, 2] (([0, 0, 0, 0, 1, 2] : List Int).length - 1) 0
      = [5, 5, 4] := hlev
  simp only [hlev2, hP] at ha hb hc
  have d1 : dcg (Real.logb 2) [5, 4, 0, 5] (2 : Int).toNat
      = 2 / Real.logb 2 2 + 1 / Real.logb 2 3 := by
    simp [dcg, dcgFrom, discGain, get_gain]
  have d2 : dcg (Real.logb 2) [5, 4, 0, 5] (4 : Int).toNat
      = 2 / Real.logb 2 2 + 1 / Real.logb 2 3 + 2 / Real.logb 2 5 := by
    simp [dcg, dcgFrom, discGain, get_gain]
    ring
  have d3 : dcg (Real.logb 2) [5, 5, 4] (2 : Int).toNat
      = 2 / Real.logb 2 2 + 2 / Real.logb 2 3 := by
    simp [dcg, dcgFrom, discGain, get_gain]
  have d4 : dcg (Real.logb 2) [5, 5, 4] (4 : Int).toNat
      = 2 / Real.logb 2 2 + 2 / Real.logb 2 3 + 1 / Real.logb 2 4 := by
    simp [dcg, dcgFrom, discGain, get_gain]
    ring
  rw [d1, d3] at ha
  rw [d2, d4] at hb
  rw [d4] at hc
  simp only [Nat.cast_zero, add_zero, Nat.cast_one] at ha hb
  refine ⟨raw, s1, final, hraw, hs1, hfin, ha.1, hb.1, ?_, ?_, hc⟩
  · rw [ha.2, ha.1]
  · rw [hb.2, hb.1]

theorem scenario_terms :
    ((306 : ℝ) / 485 < 1 / Real.logb 2 3 ∧ 1 / Real.logb 2 3 < (53 : ℝ) / 84) ∧
    ((612 : ℝ) / 485 < 2 / Real.logb 2 3 ∧ 2 / Real.logb 2 3 < (106 : ℝ) / 84) ∧
    ((1286 : ℝ) / 1493 < 2 / Real.logb 2 5 ∧ 2 / Real.logb 2 5 < (292 : ℝ) / 339) := by
  obtain ⟨a1, a2⟩ := logb_two_three_bounds
  obtain ⟨b1, b2⟩ := logb_two_five_bounds
  have h3 : 0 < Real.logb 2 3 := by linarith
  have h5 : 0 < Real.logb 2 5 := by linarith
  refine ⟨⟨?_, ?_⟩, ⟨?_, ?_⟩, ⟨?_, ?_⟩⟩
  · rw [div_lt_div_iff₀ (by norm_num) h3]; linarith
  · rw [div_lt_div_iff₀ h3 (by norm_num)]; linarith
  · rw [div_lt_div_iff₀ (by norm_num) h3]; linarith
  · rw [div_lt_div_iff₀ h3 (by norm_num)]; linarith
  · rw [div_lt_div_iff₀ (by norm_num) h5]; linarith
  · rw [div_lt_div_iff₀ h5 (by norm_num)]; linarith

theorem count_levelsFrom (rel_levels : List Int) :
    ∀ (L : Nat) (x : Int), List.count x (levelsFrom rel_levels L 0)
      = if 1 ≤ x ∧ x ≤ L then (rel_levels.getD x.toNat 0).toNat else 0 := by
  intro L
  induction L with
  | zero =>
    intro x
    have h0 : ¬ (1 ≤ x ∧ x ≤ ((0 : Nat) : Int)) := by omega
    rw [if_neg h0]
    rfl
  | succ L ih =>
    intro x
    simp only [levelsFrom, List.count_append, ih x, List.count_replicate, sub_zero]
    by_cases hx : x = (L : Int) + 1
    · subst hx
      have h1 : ¬ (1 ≤ (L : Int) + 1 ∧ (L : Int) + 1 ≤ (L : Int)) := by omega
      have h2 : 1 ≤ (L : Int) + 1 ∧ (L : Int) + 1 ≤ ((L + 1 : Nat) : Int) := by
        constructor <;> push_cast <;> omega
      have h3 : ((L : Int) + 1).toNat = L + 1 := by omega
      simp [h1, h2, h3]
    · have h1 : ¬ ((L : Int) + 1 == x) = true := by
        simp only [beq_iff_eq]
        exact fun h => hx h.symm
      have h2 : (1 ≤ x ∧ x ≤ ((L + 1 : Nat) : Int)) ↔ (1 ≤ x ∧ x ≤ (L : Int)) := by
        push_cast
        constructor
        · rintro ⟨a, b⟩; exact ⟨a, by omega⟩
        · rintro ⟨a, b⟩; exact ⟨a, by omega⟩
      simp only [h1, if_false, zero_add, h2, Bool.false_eq_true]

/-- A ranked list sorted by descending level is its documents of level 1 or more followed by
documents of lower level. -/
theorem sorted_split (l : List Int) (hs : l.Pairwise (· ≥ ·)) :
    ∃ t, l = l.filter (fun x => decide (1 ≤ x)) ++ t ∧ ∀ x ∈ t, x ≤ 0 := by
  induction l with
  | nil => exact ⟨[], rfl, fun x hx => absurd hx (List.not_mem_nil x)⟩
  | cons a r ih =>
    by_cases ha : 1 ≤ a
    · obtain ⟨t, ht, hle⟩ := ih (List.Pairwise.of_cons hs)
      refine ⟨t, ?_, hle⟩
      rw [List.filter_cons_of_pos (by simpa using ha), List.cons_append, ← ht]
    · have hall : ∀ x ∈ a :: r, x ≤ 0 := by
        intro x hx
        rcases List.mem_cons.1 hx with h | h
        · omega
        · have : a ≥ x := List.rel_of_pairwise_cons hs h
          omega
      refine ⟨a :: r, ?_, hall⟩
      have hnil : (a :: r).filter (fun x => decide (1 ≤ x)) = [] := by
        rw [List.filter_eq_nil_iff]
        intro x hx
        have := hall x hx
        simp only [decide_eq_true_eq]
        omega
      rw [hnil, List.nil_append]

/-- A ranked list sorted by descending level that holds, for every level of 1 or more, as many
documents as `rel_levels` counts is the ideal ranking followed by documents of lower level. -/
theorem perfect_eq_ideal (rel rel_levels : List Int) (hs : rel.Pairwise (· ≥ ·))
    (hmatch : ∀ L : Nat, 1 ≤ L → (rel.count (L : Int) : Int) = rel_levels.getD L 0) :
    ∃ t, rel = levelsFrom rel_levels (rel_levels.length - 1) 0 ++ t ∧ ∀ x ∈ t, x ≤ 0 := by
  obtain ⟨t, ht, hle⟩ := sorted_split rel hs
  refine ⟨t, ?_, hle⟩
  have hperm : (rel.filter (fun x => decide (1 ≤ x))).Perm
      (levelsFrom rel_levels (rel_levels.length - 1) 0) := by
    rw [List.perm_iff_count]
    intro x
    rw [count_levelsFrom]
    by_cases hx : 1 ≤ x
    · rw [List.count_filter (by simpa using hx)]
      have hm := hmatch x.toNat (by omega)
      rw [Int.toNat_of_nonneg (by omega)] at hm
      have hcount : rel.count x = (rel_levels.getD x.toNat 0).toNat := by omega
      by_cases hb : x ≤ ((rel_levels.length - 1 : Nat) : Int)
      · rw [if_pos ⟨hx, hb⟩, hcount]
      · rw [if_neg (fun h => hb h.2), hcount]
        have : rel_levels.length ≤ x.toNat := by omega
        rw [List.getD_eq_default _ _ this]
        rfl
    · rw [if_neg (fun h => hx h.1), List.count_eq_zero]
      intro hmem
      have := (List.mem_filter.1 hmem).2
      simp only [decide_eq_true_eq] at this
      exact hx this
  have hsf : (rel.filter (fun x => decide (1 ≤ x))).Pairwise (· ≥ ·) :=
    List.Pairwise.sublist (List.filter_sublist _) hs
  have heq := List.eq_of_perm_of_sorted hperm hsf (levelsFrom_sorted rel_levels _ 0)
  rw [← heq]
  exact ht

theorem dcg_append_zero (log2 : F → F) (a t : List Int) (ht : ∀ x ∈ t, get_gain F x = 0)
    (c : Nat) : dcg log2 (a ++ t) c = dcg log2 a c := by
  unfold dcg
  rw [List.take_append_eq_append_take, dcgFrom_append,
    dcgFrom_eq_zero log2 _ (fun x hx => ht x (List.mem_of_mem_take hx)), add_zero]

/-- The ideal gain at a cutoff of 1 or more is positive as soon as a document of level 4 or 5
is judged and no level above 5 has a positive count. -/
theorem dcg_ideal_pos (rel_levels : List Int)
    (htop : ∀ L : Nat, 5 < L → L < rel_levels.length → rel_levels.getD L 0 ≤ 0)
    (hgain : ∃ L : Nat, (L = 4 ∨ L = 5) ∧ 0 < rel_levels.getD L 0) (c : Nat) (hc : 1 ≤ c) :
    0 < dcg (Real.logb 2) (levelsFrom rel_levels (rel_levels.length - 1) 0) c := by
  obtain ⟨L, hL, hcnt⟩ := hgain
  have hLlt : L < rel_levels.length := by
    by_contra hlt
    rw [List.getD_eq_default _ _ (not_lt.1 hlt)] at hcnt
    exact lt_irrefl _ hcnt
  have hmemL : (L : Int) ∈ levelsFrom rel_levels (rel_levels.length - 1) 0 := by
    rw [← List.count_pos_iff, count_levelsFrom, if_pos ⟨by omega, by omega⟩, Int.toNat_ofNat]
    omega
  cases hlev : levelsFrom rel_levels (rel_levels.length - 1) 0 with
  | nil => rw [hlev] at hmemL; exact absurd hmemL (List.not_mem_nil _)
  | cons x t =>
    have hsorted := levelsFrom_sorted rel_levels (rel_levels.length - 1) 0
    rw [hlev] at hsorted hmemL
    have hxmem : x ∈ levelsFrom rel_levels (rel_levels.length - 1) 0 := by
      rw [hlev]; exact List.mem_cons_self _ _
    have hxL : (L : Int) ≤ x := by
      rcases List.mem_cons.1 hmemL with h | h
      · omega
      · exact List.rel_of_pairwise_cons hsorted h
    have hb := mem_levelsFrom_bounds rel_levels _ 0 x hxmem
    have hxc := mem_levelsFrom_count rel_levels _ 0 x (le_refl _) hxmem
    have hx5 : x ≤ 5 := by
      by_contra hcon
      have h1 : x.toNat < rel_levels.length := by omega
      have := htop x.toNat (by omega) h1
      omega
    have hgx : (0 : ℝ) < get_gain ℝ x := (get_gain_pos_iff x).2 (by omega)
    obtain ⟨k, rfl⟩ : ∃ k, c = k + 1 := ⟨c - 1, by omega⟩
    unfold dcg
    rw [List.take_succ_cons, dcgFrom]
    have h1 : 0 < discGain (Real.logb 2) 0 x := by
      rw [discGain_real]
      exact div_pos hgx (logb_two_pos 0)
    have h2 := dcgFrom_real_nonneg (t.take k) (0 + 1)
    linarith

/-- Levels without a positive count above the level `T` are skipped by the ideal ranking. -/
theorem levelsFrom_skip (rel_levels : List Int) (T : Nat) :
    ∀ L : Nat, T ≤ L → (∀ M : Nat, T < M → M ≤ L → rel_levels.getD M 0 ≤ 0) →
      levelsFrom rel_levels L 0 = levelsFrom rel_levels T 0 := by
  intro L
  induction L with
  | zero =>
    intro hT _
    have : T = 0 := by omega
    rw [this]
  | succ L ih =>
    intro hT hskip
    rcases Nat.eq_or_lt_of_le hT with h | h
    · rw [h]
    · have h0 := hskip (L + 1) h (le_refl _)
      have hemp : (rel_levels.getD (L + 1) 0 - 0).toNat = 0 := by omega
      simp only [levelsFrom, hemp, List.replicate_zero, List.nil_append]
      exact ih (by omega) (fun M h1 h2 => hskip M h1 (by omega))

theorem levelsFrom_head (rel_levels : List Int) (T : Nat) (hT : 1 ≤ T)
    (hc : 1 ≤ rel_levels.getD T 0) :
    ∃ t, levelsFrom rel_levels T 0 = (T : Int) :: t := by
  obtain ⟨L, rfl⟩ : ∃ L, T = L + 1 := ⟨T - 1, by omega⟩
  obtain ⟨k, hk⟩ : ∃ k, (rel_levels.getD (L + 1) 0 - 0).toNat = k + 1 :=
    ⟨(rel_levels.getD (L + 1) 0 - 0).toNat - 1, by omega⟩
  refine ⟨List.replicate k ((L : Int) + 1) ++ levelsFrom rel_levels L 0, ?_⟩
  simp only [levelsFrom, hk, List.replicate_succ, List.cons_append]
  push_cast
  rfl

/-- When the ideal ranking starts with a document of zero gain, or is empty, the walk over it
stops in its first iteration, before any cutoff, with `ideal_dcg` still 0 and without a store. -/
theorem idealWalk_of_gainPrefix_nil (log2 : F → F) (tm : TREC_MEAS) (res_rels : RES_RELS)
    (values : Int → F) (hne : tm.meas_params.param_values ≠ [])
    (hpos : ∀ c ∈ tm.meas_params.param_values, 0 < c)
    (hP : gainPrefix F (levelsFrom res_rels.rel_levels (res_rels.rel_levels.length - 1) 0) = []) :
    idealWalk log2 tm res_rels values = some ⟨0, 0, values⟩ := by
  have hK : 0 < tm.meas_params.param_values.length := List.length_pos.2 hne
  have hc0 : (0 : Int) < tm.meas_params.param_values[0] := hpos _ (List.getElem_mem _)
  have hget : tm.meas_params.param_values[0]? = some tm.meas_params.param_values[0] :=
    List.getElem?_eq_getElem hK
  have hi : ¬ ((0 : Nat) : Int) = tm.meas_params.param_values[0] := by
    push_cast; omega
  unfold idealWalk RES_RELS.num_rel_levels
  rcases Nat.eq_zero_or_pos res_rels.rel_levels.length with hn | hn
  · have hd : descend res_rels.rel_levels (-1) (0 + 1) = some (-1, 1) := by
      rw [descend, dif_neg (by decide)]; rfl
    have hg : get_gain F (-1) = 0 := rfl
    rw [hn]
    have hrun := idealLoop_unfold log2 tm.meas_params.param_values tm.eval_index
      res_rels.rel_levels 0 (-1) 0 (-1) 1 _ ⟨0, 0, values⟩ hd (by decide) hget
    simp only [hi, false_and, if_false, hg, if_true] at hrun
    exact hrun
  · obtain ⟨cur1, cnt1, hd, hb1, h3⟩ :=
      descend_levels res_rels.rel_levels (res_rels.rel_levels.length - 1) 0 (Or.inl (by omega))
    have hcast : ((res_rels.rel_levels.length - 1 : Nat) : Int)
        = (res_rels.rel_levels.length : Int) - 1 := by omega
    rw [hcast] at hd
    rcases Nat.eq_zero_or_pos cur1 with h0 | h0
    · subst h0
      exact idealLoop_stop log2 _ _ _ 0 _ 0 cnt1 _ hd
    · have hcons : levelsFrom res_rels.rel_levels (res_rels.rel_levels.length - 1) 0
          = (cur1 : Int) :: levelsFrom res_rels.rel_levels cur1 cnt1 := by
        rcases h3 with h | h
        · omega
        · exact h.2
      have hg : get_gain F (cur1 : Int) = 0 := by
        by_contra hcon
        rw [hcons, gainPrefix_cons_pos _ _ hcon] at hP
        exact absurd hP (by simp)
      have hrun := idealLoop_unfold log2 tm.meas_params.param_values tm.eval_index
        res_rels.rel_levels 0 _ 0 _ cnt1 _ ⟨0, 0, values⟩ hd (by omega) hget
      simp only [hi, false_and, if_false, hg, if_true] at hrun
      exact hrun

/-- The gain of a ranking is the discount summed over its documents of level 4 or 5, plus the
discount summed over its documents of level 5. -/
theorem dcgFrom_eq_marked (log2 : F → F) (l : List Int) :
    ∀ s : Nat, dcgFrom log2 s l
      = markedSum (fun x => decide (x = 4 ∨ x = 5))
          (fun k => 1 / log2 (((k : Int) + 2 : Int) : F)) s l
        + markedSum (fun x => decide (x = 5))
          (fun k => 1 / log2 (((k : Int) + 2 : Int) : F)) s l := by
  induction l with
  | nil => intro s; simp [dcgFrom, markedSum]
  | cons x t ih =>
    intro s
    rw [dcgFrom, ih (s + 1), markedSum, markedSum, discGain]
    by_cases h5 : x = 5
    · subst h5
      have hg : get_gain F 5 = 2 := rfl
      simp only [hg, decide_True, if_true, or_true]
      ring
    · by_cases h4 : x = 4
      · subst h4
        have hg : get_gain F 4 = 1 := rfl
        simp only [hg, decide_True, if_true, true_or, h5, decide_False, if_false,
          Bool.false_eq_true]
        ring
      · have hg : get_gain F x = 0 := (get_gain_eq_zero_iff x).2 ⟨h4, h5⟩
        simp only [hg, h4, h5, or_self, decide_False, if_false, Bool.false_eq_true]
        ring

theorem markedSum_le (p : Int → Bool) (w : Nat → F) (hw : ∀ a b : Nat, a ≤ b → w b ≤ w a)
    (l : List Int) :
    ∀ s : Nat, markedSum p w s l ≤ ∑ k in Finset.range (l.countP p), w (s + k) := by
  induction l with
  | nil => intro s; simp [markedSum]
  | cons x t ih =>
    intro s
    rw [markedSum]
    have hshift : ∑ k in Finset.range (t.countP p), w (s + 1 + k)
        = ∑ k in Finset.range (t.countP p), w (s + (k + 1)) :=
      Finset.sum_congr rfl (fun k _ => by rw [show s + 1 + k = s + (k + 1) by omega])
    by_cases hp : p x = true
    · rw [List.countP_cons_of_pos _ _ hp, Finset.sum_range_succ', if_pos hp]
      have := ih (s + 1)
      rw [hshift] at this
      have h0 : w (s + 0) = w s := by rw [Nat.add_zero]
      rw [h0]
      linarith
    · rw [List.countP_cons_of_neg _ _ hp, if_neg hp, zero_add]
      refine le_trans (ih (s + 1)) ?_
      apply Finset.sum_le_sum
      intro k _
      exact hw _ _ (by omega)

theorem markedSum_eq_zero (p : Int → Bool) (w : Nat → F) (l : List Int)
    (h : ∀ x ∈ l, ¬ p x = true) : ∀ s : Nat, markedSum p w s l = 0 := by
  induction l with
  | nil => intro s; rfl
  | cons x t ih =>
    intro s
    rw [markedSum, if_neg (h x (List.mem_cons_self _ _)),
      ih (fun y hy => h y (List.mem_cons_of_mem _ hy)), add_zero]

/-- In a ranking sorted by descending level, the documents marked by a mark that is passed on to
every higher level of the ranking stand first, so their positions are the first ones. -/
theorem markedSum_eq_of_sorted (p : Int → Bool) (w : Nat → F) (l : List Int)
    (hs : l.Pairwise (· ≥ ·))
    (hup : ∀ x ∈ l, ∀ y ∈ l, p x = true → x ≤ y → p y = true) :
    ∀ s : Nat, markedSum p w s l = ∑ k in Finset.range (l.countP p), w (s + k) := by
  induction l with
  | nil => intro s; simp [markedSum]
  | cons x t ih =>
    intro s
    have hup2 : ∀ a ∈ t, ∀ b ∈ t, p a = true → a ≤ b → p b = true :=
      fun a ha b hb => hup a (List.mem_cons_of_mem _ ha) b (List.mem_cons_of_mem _ hb)
    rw [markedSum]
    by_cases hp : p x = true
    · rw [List.countP_cons_of_pos _ _ hp, Finset.sum_range_succ', if_pos hp,
        ih (List.Pairwise.of_cons hs) hup2 (s + 1), Nat.add_zero, add_comm]
      congr 1
      exact Finset.sum_congr rfl (fun k _ => by rw [show s + 1 + k = s + (k + 1) by omega])
    · have hnone : ∀ y ∈ t, ¬ p y = true := by
        intro y hy hpy
        have hxy : x ≥ y := List.rel_of_pairwise_cons hs hy
        exact hp (hup y (List.mem_cons_of_mem _ hy) x (List.mem_cons_self _ _) hpy hxy)
      have hc : t.countP p = 0 := List.countP_eq_zero.2 hnone
      rw [List.countP_cons_of_neg _ _ hp, if_neg hp, markedSum_eq_zero p w t hnone, hc]
      simp

theorem countP_take_of_sorted (p : Int → Bool) (l : List Int) (hs : l.Pairwise (· ≥ ·))
    (hup : ∀ x ∈ l, ∀ y ∈ l, p x = true → x ≤ y → p y = true) :
    ∀ c : Nat, min c (l.countP p) ≤ (l.take c).countP p := by
  induction l with
  | nil => intro c; simp
  | cons x t ih =>
    intro c
    have hup2 : ∀ a ∈ t, ∀ b ∈ t, p a = true → a ≤ b → p b = true :=
      fun a ha b hb => hup a (List.mem_cons_of_mem _ ha) b (List.mem_cons_of_mem _ hb)
    cases c with
    | zero => simp
    | succ c =>
      rw [List.take_succ_cons]
      by_cases hp : p x = true
      · rw [List.countP_cons_of_pos _ _ hp, List.countP_cons_of_pos _ _ hp]
        have := ih (List.Pairwise.of_cons hs) hup2 c
        omega
      · have hnone : ∀ y ∈ t, ¬ p y = true := by
          intro y hy hpy
          have hxy : x ≥ y := List.rel_of_pairwise_cons hs hy
          exact hp (hup y (List.mem_cons_of_mem _ hy) x (List.mem_cons_self _ _) hpy hxy)
        have hc : t.countP p = 0 := List.countP_eq_zero.2 hnone
        rw [List.countP_cons_of_neg _ _ hp, hc]
        simp

theorem countP_four_five (l : List Int) :
    l.countP (fun x => decide (x = 4 ∨ x = 5)) = l.count 4 + l.count 5 := by
  induction l with
  | nil => rfl
  | cons x t ih =>
    by_cases h5 : x = 5
    · subst h5
      rw [List.countP_cons_of_pos _ _ (by decide), ih, List.count_cons_self,
        List.count_cons_of_ne (by decide)]
      omega
    · by_cases h4 : x = 4
      · subst h4
        rw [List.countP_cons_of_pos _ _ (by decide), ih, List.count_cons_self,
          List.count_cons_of_ne (by decide)]
        omega
      · rw [List.countP_cons_of_neg _ _ (by simp [h4, h5]), ih,
          List.count_cons_of_ne (fun h => h4 h.symm), List.count_cons_of_ne (fun h => h5 h.symm)]

theorem countP_five (l : List Int) : l.countP (fun x => decide (x = 5)) = l.count 5 := by
  induction l with
  | nil => rfl
  | cons x t ih =>
    by_cases h5 : x = 5
    · subst h5
      rw [List.countP_cons_of_pos _ _ (by decide), ih, List.count_cons_self]
    · rw [List.countP_cons_of_neg _ _ (by simp [h5]), ih,
        List.count_cons_of_ne (fun h => h5 h.symm)]

theorem discount_antitone (a b : Nat) (h : a ≤ b) :
    1 / Real.logb 2 ((((b : Int) + 2 : Int) : ℝ)) ≤ 1 / Real.logb 2 ((((a : Int) + 2 : Int) : ℝ)) := by
  push_cast
  apply one_div_le_one_div_of_le (logb_two_pos a)
  have ha : (0 : ℝ) ≤ a := Nat.cast_nonneg a
  have hab : (a : ℝ) ≤ b := Nat.cast_le.2 h
  rw [Real.logb_le_logb (by norm_num) (by linarith) (by linarith)]
  linarith

theorem discount_nonneg (k : Nat) : 0 ≤ 1 / Real.logb 2 ((((k : Int) + 2 : Int) : ℝ)) := by
  push_cast
  exact le_of_lt (one_div_pos.2 (logb_two_pos k))

/-- A ranked list that holds no more documents of level 4 and no more of level 5 than a ranking
sorted by descending level without a level above 5 gains no more than that ranking, at every
cutoff. -/
theorem dcg_le_of_counts (rel ideal : List Int) (hs : ideal.Pairwise (· ≥ ·))
    (h5 : ∀ x ∈ ideal, x ≤ 5) (hc4 : rel.count 4 ≤ ideal.count 4)
    (hc5 : rel.count 5 ≤ ideal.count 5) (c : Nat) :
    dcg (Real.logb 2) rel c ≤ dcg (Real.logb 2) ideal c := by
  unfold dcg
  rw [dcgFrom_eq_marked, dcgFrom_eq_marked]
  have hst : (ideal.take c).Pairwise (· ≥ ·) := List.Pairwise.sublist (List.take_sublist _ _) hs
  have hup45 : ∀ x ∈ ideal, ∀ y ∈ ideal, (fun x => decide (x = 4 ∨ x = 5)) x = true → x ≤ y →
      (fun x => decide (x = 4 ∨ x = 5)) y = true := by
    intro x _ y hy hx hxy
    have := h5 y hy
    simp only [decide_eq_true_eq] at hx ⊢
    omega
  have hup5 : ∀ x ∈ ideal, ∀ y ∈ ideal, (fun x => decide (x = 5)) x = true → x ≤ y →
      (fun x => decide (x = 5)) y = true := by
    intro x _ y hy hx hxy
    have := h5 y hy
    simp only [decide_eq_true_eq] at hx ⊢
    omega
  have hsub : ∀ (p : Int → Bool),
      (∀ x ∈ ideal, ∀ y ∈ ideal, p x = true → x ≤ y → p y = true) →
      rel.countP p ≤ ideal.countP p →
      markedSum p (fun k => 1 / Real.logb 2 ((((k : Int) + 2 : Int) : ℝ))) 0 (rel.take c)
        ≤ markedSum p (fun k => 1 / Real.logb 2 ((((k : Int) + 2 : Int) : ℝ))) 0
            (ideal.take c) := by
    intro p hup hcount
    rw [markedSum_eq_of_sorted p _ (ideal.take c) hst
      (fun x hx y hy => hup x (List.mem_of_mem_take hx) y (List.mem_of_mem_take hy))]
    refine le_trans (markedSum_le p _ discount_antitone (rel.take c) 0) ?_
    apply Finset.sum_le_sum_of_subset_of_nonneg
    · apply Finset.range_subset.2
      have h1 : (rel.take c).countP p ≤ rel.countP p :=
        List.Sublist.countP_le _ (List.take_sublist _ _)
      have h2 : (rel.take c).countP p ≤ (rel.take c).length := List.countP_le_length _
      have h3 : (rel.take c).length ≤ c := by
        rw [List.length_take]; exact min_le_left _ _
      have h4 := countP_take_of_sorted p ideal hs hup c
      omega
    · intro k _ _
      exact discount_nonneg _
  have a45 := hsub _ hup45 (by rw [countP_four_five, countP_four_five]; omega)
  have a5 := hsub _ hup5 (by rw [countP_five, countP_five]; omega)
  linarith

theorem count_le_ideal (rel rel_levels : List Int) (x : Nat) (hx : 1 ≤ x)
    (h : (rel.count (x : Int) : Int) ≤ rel_levels.getD x 0) :
    rel.count (x : Int) ≤ (levelsFrom rel_levels (rel_levels.length - 1) 0).count (x : Int) := by
  rw [count_levelsFrom, Int.toNat_ofNat]
  by_cases hb : (x : Int) ≤ ((rel_levels.length - 1 : Nat) : Int)
  · rw [if_pos ⟨by omega, hb⟩]
    omega
  · rw [if_neg (fun hh => hb hh.2)]
    have : rel_levels.length ≤ x := by omega
    rw [List.getD_eq_default _ _ this] at h
    omega

theorem idealLoopSkip_unfold (log2 : F → F) (cutoffs : List Int) (e : Int)
    (rel_levels : List Int) (i : Nat) (cur cnt cur1 cnt1 c : Int) (s : Walk F)
    (hd : descend rel_levels cur (cnt + 1) = some (cur1, cnt1)) (h0 : ¬ cur1 ≤ 0)
    (hc : cutoffs[s.cutoff_index]? = some c) :
    idealLoopSkip log2 cutoffs e rel_levels i cur cnt s =
      if (i : Int) = c ∧ s.cutoff_index + 1 = cutoffs.length then
        some ⟨s.cutoff_index + 1, s.acc,
          Function.update s.values (e + s.cutoff_index)
            (normalise (s.values (e + s.cutoff_index)) s.acc)⟩
      else
        idealLoopSkip log2 cutoffs e rel_levels (i + 1) cur1 cnt1
          ⟨if (i : Int) = c then s.cutoff_index + 1 else s.cutoff_index,
            s.acc + discGain log2 i cur1,
            if (i : Int) = c then
              Function.update s.values (e + s.cutoff_index)
                (normalise (s.values (e + s.cutoff_index)) s.acc)
            else s.values⟩ := by
  have hupd : (if s.acc > 0 then
      Function.update s.values (e + s.cutoff_index) (s.values (e + s.cutoff_index) / s.acc)
      else s.values) = Function.update s.values (e + s.cutoff_index)
        (normalise (s.values (e + s.cutoff_index)) s.acc) := by
    unfold normalise
    split <;> simp
  have hacc : (if get_gain F cur1 = 0 then s.acc
      else s.acc + get_gain F cur1 / log2 (((i : Int) + 2 : Int) : F))
      = s.acc + discGain log2 i cur1 := by
    unfold discGain
    split
    · rename_i hg
      simp [hg]
    · rfl
  rw [idealLoopSkip]
  split
  · rename_i heq
    rw [hd] at heq
    exact absurd heq (by simp)
  · rename_i a b heq
    rw [hd] at heq
    simp only [Option.some.injEq, Prod.mk.injEq] at heq
    obtain ⟨ha, hb⟩ := heq
    subst ha hb
    rw [dif_neg h0]
    simp only [hc, hacc]
    by_cases hit : (i : Int) = c
    · simp only [hit, decide_True, true_and, if_true, hupd]
    · simp only [hit, decide_False, false_and, if_false, Bool.false_eq_true]

theorem idealLoopSkip_stop (log2 : F → F) (cutoffs : List Int) (e : Int) (rel_levels : List Int)
    (i : Nat) (cur cnt cur1 cnt1 : Int) (s : Walk F)
    (hd : descend rel_levels cur (cnt + 1) = some (cur1, cnt1)) (h0 : cur1 ≤ 0) :
    idealLoopSkip log2 cutoffs e rel_levels i cur cnt s = some s := by
  rw [idealLoopSkip]
  split
  · rename_i heq
    rw [hd] at heq
    exact absurd heq (by simp)
  · rename_i a b heq
    rw [hd] at heq
    simp only [Option.some.injEq, Prod.mk.injEq] at heq
    obtain ⟨ha, hb⟩ := heq
    subst ha hb
    rw [dif_pos h0]

/-- The variant walk over the ideal ranking, followed by the loop that fills the cutoffs not
reached: every cutoff from the current one on is divided by the gain of the documents of the
ideal ranking that lie before the cutoff, nothing else is touched, and the walk ends with the
ideal gain of the last cutoff. -/
theorem idealLoopSkip_spec (log2 : F → F) (cutoffs : List Int) (e : Int) (rel_levels : List Int)
    (hasc : ∀ (a b : Nat) (ca cb : Int), cutoffs[a]? = some ca → cutoffs[b]? = some cb →
      a < b → ca < cb) :
    ∀ (n i cur : Nat) (cnt : Int) (s : Walk F), (levelsFrom rel_levels cur cnt).length = n →
      (cur < rel_levels.length ∨ cur = 0) →
      (∃ c, cutoffs[s.cutoff_index]? = some c ∧ (i : Int) ≤ c) →
      ∃ s1, idealLoopSkip log2 cutoffs e rel_levels i (cur : Int) cnt s = some s1 ∧
        (∀ m c, cutoffs[m]? = some c → s.cutoff_index ≤ m →
          (idealFill cutoffs.length e s1).values (e + m) = normalise (s.values (e + m))
            (s.acc + dcgFrom log2 i
              ((levelsFrom rel_levels cur cnt).take (c.toNat - i)))) ∧
        (∀ x, (∀ m, s.cutoff_index ≤ m → m < cutoffs.length → x ≠ e + m) →
          (idealFill cutoffs.length e s1).values x = s.values x) ∧
        (∀ c, cutoffs[cutoffs.length - 1]? = some c →
          s1.acc = s.acc + dcgFrom log2 i
            ((levelsFrom rel_levels cur cnt).take (c.toNat - i))) := by
  intro n
  induction n with
  | zero =>
    intro i cur cnt s hlen hb ⟨c, hc, hic⟩
    have hnil : levelsFrom rel_levels cur cnt = [] := List.length_eq_zero.1 hlen
    obtain ⟨cur1, cnt1, hd, -, h3⟩ := descend_levels rel_levels cur cnt hb
    have hcur1 : cur1 = 0 := by
      rcases h3 with h | h
      · exact h.2
      · rw [hnil] at h; exact absurd h.2 (by simp)
    subst hcur1
    refine ⟨s, idealLoopSkip_stop log2 cutoffs e rel_levels i _ _ _ cnt1 s hd (by simp),
      ?_, ?_, ?_⟩
    · intro m cm hm hjm
      have hmK : m < cutoffs.length := (List.getElem?_eq_some.1 hm).1
      rw [(idealFill_values cutoffs.length e _ s rfl).1 m hjm hmK, hnil]
      simp [dcgFrom]
    · intro x hx
      exact (idealFill_values cutoffs.length e _ s rfl).2 x hx
    · intro _ _
      rw [hnil]
      simp [dcgFrom]
  | succ n ih =>
    intro i cur cnt s hlen hb ⟨c, hc, hic⟩
    have hjK : s.cutoff_index < cutoffs.length := (List.getElem?_eq_some.1 hc).1
    obtain ⟨cur1, cnt1, hd, hb1, h3⟩ := descend_levels rel_levels cur cnt hb
    have hcons : 0 < cur1 ∧
        levelsFrom rel_levels cur cnt = (cur1 : Int) :: levelsFrom rel_levels cur1 cnt1 := by
      rcases h3 with h | h
      · rw [h.1] at hlen; exact absurd hlen (by simp)
      · exact h
    obtain ⟨hpos, hR⟩ := hcons
    have hlen1 : (levelsFrom rel_levels cur1 cnt1).length = n := by
      rw [hR] at hlen; simpa using hlen
    have h0 : ¬ (cur1 : Int) ≤ 0 := by omega
    rw [idealLoopSkip_unfold log2 cutoffs e rel_levels i _ _ _ _ c s hd h0 hc, hR]
    -- the values after the cutoff test of this iteration
    have key : ∀ (s0 : Walk F),
        s0.cutoff_index = (if (i : Int) = c then s.cutoff_index + 1 else s.cutoff_index) →
        s0.values = (if (i : Int) = c then
            Function.update s.values (e + s.cutoff_index)
              (normalise (s.values (e + s.cutoff_index)) s.acc)
          else s.values) →
        ∀ (V : Int → F) (P : List Int),
        (∀ m cm, cutoffs[m]? = some cm → s0.cutoff_index ≤ m →
          V (e + m) = normalise (s0.values (e + m))
            (s.acc + dcgFrom log2 i (P.take (cm.toNat - i)))) →
        (∀ x, (∀ m, s0.cutoff_index ≤ m → m < cutoffs.length → x ≠ e + m) →
          V x = s0.values x) →
        (∀ m cm, cutoffs[m]? = some cm → s.cutoff_index ≤ m →
          V (e + m) = normalise (s.values (e + m))
            (s.acc + dcgFrom log2 i (P.take (cm.toNat - i)))) ∧
        (∀ x, (∀ m, s.cutoff_index ≤ m → m < cutoffs.length → x ≠ e + m) →
          V x = s.values x) := by
      intro s0 hj0 hv0 V P hV1 hV2
      by_cases hit : (i : Int) = c
      · rw [if_pos hit] at hj0 hv0
        constructor
        · intro m cm hm hjm
          rcases Nat.eq_or_lt_of_le hjm with h | h
          · subst h
            rw [hc] at hm
            simp only [Option.some.injEq] at hm
            rw [hV2 _ (fun m h1 _ => by omega), hv0]
            simp only [Function.update_same]
            have : cm.toNat - i = 0 := by omega
            simp [this, dcgFrom]
          · rw [hV1 m cm hm (by omega), hv0]
            have hne : e + (m : Int) ≠ e + (s.cutoff_index : Int) := by omega
            rw [Function.update_noteq hne]
        · intro x hx
          rw [hV2 x (fun m h1 h2 => hx m (by omega) h2), hv0]
          exact Function.update_noteq (hx _ (le_refl _) hjK) _ _
      · rw [if_neg hit] at hj0 hv0
        constructor
        · intro m cm hm hjm
          rw [hV1 m cm hm (by omega), hv0]
        · intro x hx
          rw [hV2 x (fun m h1 h2 => hx m (by omega) h2), hv0]
    by_cases hlast : (i : Int) = c ∧ s.cutoff_index + 1 = cutoffs.length
    · rw [if_pos hlast]
      obtain ⟨hit, hl⟩ := hlast
      refine ⟨_, rfl, ?_, ?_, ?_⟩
      · intro m cm hm hjm
        have hmK : m < cutoffs.length := (List.getElem?_eq_some.1 hm).1
        have hmj : m = s.cutoff_index := by omega
        subst hmj
        rw [hc] at hm
        simp only [Option.some.injEq] at hm
        rw [(idealFill_values cutoffs.length e _ _ rfl).2 _ (fun m h1 h2 => by
          simp only at h1; omega)]
        simp only [Function.update_same]
        have : cm.toNat - i = 0 := by omega
        simp [this, dcgFrom]
      · intro x hx
        rw [(idealFill_values cutoffs.length e _ _ rfl).2 _ (fun m h1 h2 => by
          simp only at h1; omega)]
        exact Function.update_noteq (hx _ (le_refl _) hjK) _ _
      · intro cl hcl
        have : cutoffs.length - 1 = s.cutoff_index := by omega
        rw [this, hc] at hcl
        simp only [Option.some.injEq] at hcl
        have : cl.toNat - i = 0 := by omega
        simp [this, dcgFrom]
    · rw [if_neg hlast]
      -- the cutoff pointer after the test still points to a cutoff not yet passed
      have hnext : ∃ c1, cutoffs[(if (i : Int) = c then s.cutoff_index + 1
          else s.cutoff_index)]? = some c1 ∧ ((i + 1 : Nat) : Int) ≤ c1 := by
        by_cases hit : (i : Int) = c
        · rw [if_pos hit]
          have hj1 : s.cutoff_index + 1 < cutoffs.length := by
            rcases Nat.lt_or_ge (s.cutoff_index + 1) cutoffs.length with h | h
            · exact h
            · exact absurd ⟨hit, by omega⟩ hlast
          refine ⟨cutoffs[s.cutoff_index + 1], List.getElem?_eq_getElem hj1, ?_⟩
          have := hasc _ _ _ _ hc (List.getElem?_eq_getElem hj1) (Nat.lt_succ_self _)
          push_cast
          omega
        · rw [if_neg hit]
          exact ⟨c, hc, by push_cast; omega⟩
      obtain ⟨c1, hc1, hic1⟩ := hnext
      have hj0 : s.cutoff_index ≤ (if (i : Int) = c then s.cutoff_index + 1
          else s.cutoff_index) := by split <;> omega
      have hafter : ∀ m cm, cutoffs[m]? = some cm →
          (if (i : Int) = c then s.cutoff_index + 1 else s.cutoff_index) ≤ m →
          ((i + 1 : Nat) : Int) ≤ cm := by
        intro m cm hm hjm
        rcases Nat.eq_or_lt_of_le hjm with h | h
        · rw [h, hm] at hc1
          simp only [Option.some.injEq] at hc1
          omega
        · have := hasc _ _ _ _ hc1 hm h
          omega
      have hlastc : ∀ cl, cutoffs[cutoffs.length - 1]? = some cl → ((i + 1 : Nat) : Int) ≤ cl := by
        intro cl hcl
        refine hafter _ cl hcl ?_
        have := (List.getElem?_eq_some.1 hc1).1
        omega
      obtain ⟨s1, hs1, q1, q2, q3⟩ := ih (i + 1) cur1 cnt1
        ⟨if (i : Int) = c then s.cutoff_index + 1 else s.cutoff_index,
          s.acc + discGain log2 i cur1,
          if (i : Int) = c then
            Function.update s.values (e + s.cutoff_index)
              (normalise (s.values (e + s.cutoff_index)) s.acc)
          else s.values⟩ hlen1 hb1 ⟨c1, hc1, hic1⟩
      simp only at q1 q2 q3
      have hstep : ∀ cm : Int, ((i + 1 : Nat) : Int) ≤ cm →
          s.acc + dcgFrom log2 i
            (((cur1 : Int) :: levelsFrom rel_levels cur1 cnt1).take (cm.toNat - i))
          = s.acc + discGain log2 i cur1 + dcgFrom log2 (i + 1)
            ((levelsFrom rel_levels cur1 cnt1).take (cm.toNat - (i + 1))) := by
        intro cm hcm
        obtain ⟨k, hk⟩ : ∃ k, cm.toNat - i = k + 1 := ⟨cm.toNat - i - 1, by omega⟩
        have hk2 : cm.toNat - (i + 1) = k := by omega
        rw [hk, hk2, List.take_succ_cons]
        simp only [dcgFrom]
        ring
      obtain ⟨k1, k2⟩ := key
        ⟨if (i : Int) = c then s.cutoff_index + 1 else s.cutoff_index,
          s.acc + discGain log2 i cur1,
          if (i : Int) = c then
            Function.update s.values (e + s.cutoff_index)
              (normalise (s.values (e + s.cutoff_index)) s.acc)
          else s.values⟩ rfl rfl (idealFill cutoffs.length e s1).values
        ((cur1 : Int) :: levelsFrom rel_levels cur1 cnt1)
        (fun m cm hm hjm => by
          rw [q1 m cm hm hjm, hstep cm (hafter m cm hm hjm)])
        q2
      exact ⟨s1, hs1, k1, k2, fun cl hcl => by rw [q3 cl hcl, hstep cl (hlastc cl hcl)]⟩

/-- The second half of `te_calc_ndcg45_cut` with the variant walk divides the entry of each
cutoff by the gain of the documents of the ideal ranking that lie before the cutoff. -/
theorem idealPhaseSkip_spec (log2 : F → F) (tm : TREC_MEAS) (res_rels : RES_RELS)
    (values : Int → F) (hne : tm.meas_params.param_values ≠ [])
    (hasc : tm.meas_params.param_values.Pairwise (· < ·))
    (hpos : ∀ c ∈ tm.meas_params.param_values, 0 < c) :
    ∃ s1, idealWalkSkip log2 tm res_rels values = some s1 ∧
      idealPhaseSkip log2 tm res_rels values
        = some (idealFill tm.meas_params.num_params tm.eval_index s1).values ∧
      (∀ (m : Nat) (c : Int), tm.meas_params.param_values[m]? = some c →
        (idealFill tm.meas_params.num_params tm.eval_index s1).values (tm.eval_index + m)
          = normalise (values (tm.eval_index + m))
            (dcg log2 (levelsFrom res_rels.rel_levels (res_rels.rel_levels.length - 1) 0)
              c.toNat)) ∧
      (∀ x, (∀ (m : Nat), m < tm.meas_params.param_values.length → x ≠ tm.eval_index + m) →
        (idealFill tm.meas_params.num_params tm.eval_index s1).values x = values x) ∧
      (∀ c, tm.meas_params.param_values[tm.meas_params.param_values.length - 1]? = some c →
        s1.acc = dcg log2
          (levelsFrom res_rels.rel_levels (res_rels.rel_levels.length - 1) 0) c.toNat) := by
  have hK : 0 < tm.meas_params.param_values.length := List.length_pos.2 hne
  have hc0 : (0 : Int) < tm.meas_params.param_values[0] := hpos _ (List.getElem_mem _)
  have hget : tm.meas_params.param_values[0]? = some tm.meas_params.param_values[0] :=
    List.getElem?_eq_getElem hK
  have hwalk : ∃ s1, idealWalkSkip log2 tm res_rels values = some s1 ∧
      (∀ (m : Nat) (c : Int), tm.meas_params.param_values[m]? = some c →
        (idealFill tm.meas_params.num_params tm.eval_index s1).values (tm.eval_index + m)
          = normalise (values (tm.eval_index + m))
            (dcg log2 (levelsFrom res_rels.rel_levels (res_rels.rel_levels.length - 1) 0)
              c.toNat)) ∧
      (∀ x, (∀ (m : Nat), m < tm.meas_params.param_values.length → x ≠ tm.eval_index + m) →
        (idealFill tm.meas_params.num_params tm.eval_index s1).values x = values x) ∧
      (∀ c, tm.meas_params.param_values[tm.meas_params.param_values.length - 1]? = some c →
        s1.acc = dcg log2
          (levelsFrom res_rels.rel_levels (res_rels.rel_levels.length - 1) 0) c.toNat) := by
    rcases Nat.eq_zero_or_pos res_rels.rel_levels.length with hn | hn
    · have hd : descend res_rels.rel_levels (-1) (0 + 1) = some (-1, 1) := by
        rw [descend, dif_neg (by decide)]; rfl
      have hrun : idealWalkSkip log2 tm res_rels values = some ⟨0, 0, values⟩ := by
        unfold idealWalkSkip RES_RELS.num_rel_levels
        rw [hn]
        exact idealLoopSkip_stop log2 tm.meas_params.param_values tm.eval_index
          res_rels.rel_levels 0 (-1) 0 (-1) 1 ⟨0, 0, values⟩ hd (by decide)
      have hlev : levelsFrom res_rels.rel_levels (res_rels.rel_levels.length - 1) 0 = [] := by
        rw [hn]; rfl
      rw [hlev]
      refine ⟨_, hrun, ?_, ?_, ?_⟩
      · intro m c hm
        have hmK : m < tm.meas_params.param_values.length := (List.getElem?_eq_some.1 hm).1
        rw [(idealFill_values _ tm.eval_index _ ⟨0, 0, values⟩ rfl).1 m (Nat.zero_le _) hmK]
        simp [dcg, dcgFrom, normalise]
      · intro x hx
        exact (idealFill_values _ tm.eval_index _ ⟨0, 0, values⟩ rfl).2 x
          (fun m _ hm => hx m hm)
      · intro c _
        simp [dcg, dcgFrom]
    · obtain ⟨s1, hs1, h1, h2, h3⟩ := idealLoopSkip_spec log2 tm.meas_params.param_values
        tm.eval_index res_rels.rel_levels (asc_of_pairwise _ hasc) _ 0
        (res_rels.rel_levels.length - 1) 0 ⟨0, 0, values⟩ rfl (Or.inl (by omega))
        ⟨_, hget, by push_cast; omega⟩
      dsimp only at h1 h2 h3
      simp only [zero_add, Nat.sub_zero] at h1 h3
      unfold dcg
      refine ⟨s1, ?_, fun m c hm => h1 m c hm (Nat.zero_le _),
        fun x hx => h2 x (fun m _ hm => hx m hm), h3⟩
      rw [← hs1]
      unfold idealWalkSkip RES_RELS.num_rel_levels
      congr 1
      omega
  obtain ⟨s1, hs1, h1, h2, h3⟩ := hwalk
  exact ⟨s1, hs1, by rw [idealPhaseSkip, hs1], h1, h2, h3⟩

/-- The first loop and its record: with at least one cutoff the loop of the code returns what
the recorded loop returns, every recorded access and division is harmless, and the cutoffs the
loop has passed have had their store. -/
theorem actualLoopT_spec (log2 : F → F) (cutoffs : List Int) (e : Int) (rel : List Int)
    (nlev : Int) :
    ∀ (n i : Nat) (s : Walk F), n = rel.length - i → s.cutoff_index < cutoffs.length →
      actualLoop log2 cutoffs e rel i s = some (actualLoopT log2 cutoffs e rel i s).1 ∧
      (∀ ev ∈ (actualLoopT log2 cutoffs e rel i s).2,
        Event.ok log2 cutoffs.length rel.length nlev ev) ∧
      s.cutoff_index ≤ (actualLoopT log2 cutoffs e rel i s).1.cutoff_index ∧
      (∀ j, s.cutoff_index ≤ j → j < (actualLoopT log2 cutoffs e rel i s).1.cutoff_index →
        Event.storeValue j ∈ (actualLoopT log2 cutoffs e rel i s).2) := by
  intro n
  induction n with
  | zero =>
    intro i s hn _
    have hi : ¬ i < rel.length := by omega
    rw [actualLoop, dif_neg hi, actualLoopT, dif_neg hi]
    exact ⟨rfl, fun ev hev => absurd hev (List.not_mem_nil _), le_refl _,
      fun j h1 h2 => absurd h2 (by simp only; omega)⟩
  | succ n ih =>
    intro i s hn hj
    have hi : i < rel.length := by omega
    rw [actualLoop, dif_pos hi, actualLoopT, dif_pos hi]
    have hgetc : cutoffs.getD s.cutoff_index 0 = cutoffs[s.cutoff_index] :=
      List.getD_eq_getElem _ _ hj
    have hgetr : rel.getD i 0 = rel[i] := List.getD_eq_getElem _ _ hi
    simp only [List.getElem?_eq_getElem hj, hgetc, hgetr]
    have hdiv : ∀ ev ∈ (if get_gain F rel[i] > 0 then
        [Event.divideGain i (log2 (((i : Int) + 2 : Int) : F))] else []),
        Event.ok log2 cutoffs.length rel.length nlev ev := by
      intro ev hev
      split at hev
      · rw [List.mem_singleton.1 hev]
        exact rfl
      · exact absurd hev (List.not_mem_nil _)
    by_cases hit : (i : Int) = cutoffs[s.cutoff_index]
    · have hdec : decide ((i : Int) = cutoffs[s.cutoff_index]) = true := decide_eq_true hit
      simp only [hdec, if_true, true_and]
      by_cases hlast : s.cutoff_index + 1 = cutoffs.length
      · rw [if_pos hlast, if_pos hlast]
        dsimp only
        refine ⟨rfl, ?_, Nat.le_succ _, ?_⟩
        · intro ev hev
          simp only [List.mem_cons, List.mem_singleton, List.not_mem_nil, or_false] at hev
          rcases hev with h | h <;> rw [h] <;> exact hj
        · intro j h1 h2
          have : j = s.cutoff_index := by omega
          rw [this]
          simp
      · rw [if_neg hlast, if_neg hlast]
        dsimp only
        obtain ⟨a1, a2, a3, a4⟩ := ih (i + 1)
          ⟨s.cutoff_index + 1,
            if get_gain F rel[i] > 0 then
              s.acc + get_gain F rel[i] / log2 (((i : Int) + 2 : Int) : F) else s.acc,
            Function.update s.values (e + s.cutoff_index) s.acc⟩ (by omega)
          (by simp only; omega)
        simp only at a1 a2 a3 a4
        refine ⟨a1, ?_, by omega, ?_⟩
        · intro ev hev
          simp only [List.mem_append, List.mem_cons, List.mem_singleton, List.not_mem_nil,
            or_false] at hev
          rcases hev with ((h | h) | h | h) | h
          · rw [h]; exact hj
          · rw [h]; exact hj
          · rw [h]; exact hi
          · exact hdiv ev h
          · exact a2 ev h
        · intro j h1 h2
          rcases Nat.eq_or_lt_of_le h1 with h | h
          · rw [← h]
            simp
          · have := a4 j (by omega) h2
            simp only [List.mem_append]
            exact Or.inr this
    · simp only [hit, decide_False, if_false, false_and, Bool.false_eq_true]
      obtain ⟨a1, a2, a3, a4⟩ := ih (i + 1)
        ⟨s.cutoff_index,
          if get_gain F rel[i] > 0 then
            s.acc + get_gain F rel[i] / log2 (((i : Int) + 2 : Int) : F) else s.acc,
          s.values⟩ (by omega) hj
      simp only at a1 a2 a3 a4
      refine ⟨a1, ?_, a3, ?_⟩
      · intro ev hev
        simp only [List.mem_append, List.mem_cons, List.mem_singleton, List.not_mem_nil,
          or_false] at hev
        rcases hev with (h | h | h) | h
        · rw [h]; exact hj
        · rw [h]; exact hi
        · exact hdiv ev h
        · exact a2 ev h
      · intro j h1 h2
        have := a4 j h1 h2
        simp only [List.mem_append]
        exact Or.inr this

theorem actualFillT_spec (log2 : F → F) (K N : Nat) (e : Int) (nlev : Int) :
    ∀ (n : Nat) (s : Walk F), n = K - s.cutoff_index →
      (actualFillT K e s).1 = actualFill K e s ∧
      (∀ ev ∈ (actualFillT K e s).2, Event.ok log2 K N nlev ev) ∧
      (∀ j, s.cutoff_index ≤ j → j < K → Event.storeValue j ∈ (actualFillT K e s).2) := by
  intro n
  induction n with
  | zero =>
    intro s hn
    have hK : ¬ s.cutoff_index < K := by omega
    rw [actualFill, dif_neg hK, actualFillT, dif_neg hK]
    exact ⟨rfl, fun ev hev => absurd hev (List.not_mem_nil _), fun j h1 h2 => by omega⟩
  | succ n ih =>
    intro s hn
    have hK : s.cutoff_index < K := by omega
    rw [actualFill, dif_pos hK, actualFillT, dif_pos hK]
    obtain ⟨a1, a2, a3⟩ := ih ⟨s.cutoff_index + 1, s.acc,
      Function.update s.values (e + s.cutoff_index) s.acc⟩ (by simp only; omega)
    simp only at a1 a2 a3
    refine ⟨a1, ?_, ?_⟩
    · intro ev hev
      rcases List.mem_cons.1 hev with h | h
      · rw [h]; exact hK
      · rcases List.mem_cons.1 h with h | h
        · rw [h]; exact hK
        · exact a2 ev h
    · intro j h1 h2
      rcases Nat.eq_or_lt_of_le h1 with h | h
      · rw [← h]
        exact List.mem_cons_self _ _
      · exact List.mem_cons_of_mem _ (List.mem_cons_of_mem _ (a3 j (by omega) h2))

theorem idealFillT_spec (log2 : F → F) (K N : Nat) (e : Int) (nlev : Int) :
    ∀ (n : Nat) (s : Walk F), n = K - s.cutoff_index →
      (idealFillT K e s).1 = idealFill K e s ∧
      (∀ ev ∈ (idealFillT K e s).2, Event.ok log2 K N nlev ev) ∧
      iterations (idealFillT K e s).2 = 0 ∧ descendSteps (idealFillT K e s).2 = 0 ∧
      gainLevels (idealFillT K e s).2 = [] := by
  intro n
  induction n with
  | zero =>
    intro s hn
    have hK : ¬ s.cutoff_index < K := by omega
    rw [idealFill, dif_neg hK, idealFillT, dif_neg hK]
    exact ⟨rfl, fun ev hev => absurd hev (List.not_mem_nil _), rfl, rfl, rfl⟩
  | succ n ih =>
    intro s hn
    have hK : s.cutoff_index < K := by omega
    rw [idealFill, dif_pos hK, idealFillT, dif_pos hK]
    obtain ⟨a1, a2, a3, a4, a5⟩ := ih ⟨s.cutoff_index + 1, s.acc,
      if s.acc > 0 then
        Function.update s.values (e + s.cutoff_index) (s.values (e + s.cutoff_index) / s.acc)
      else s.values⟩ (by simp only; omega)
    refine ⟨a1, ?_, ?_, ?_, ?_⟩
    · intro ev hev
      rcases List.mem_append.1 hev with h | h
      · split at h
        · rename_i hpos
          rw [List.mem_singleton.1 h]
          exact ⟨hK, hpos⟩
        · exact absurd h (List.not_mem_nil _)
      · rcases List.mem_cons.1 h with h | h
        · rw [h]; exact hK
        · exact a2 ev h
    · unfold iterations at a3 ⊢
      rw [List.countP_append, List.countP_cons, a3]
      split <;> rfl
    · unfold descendSteps at a4 ⊢
      rw [List.countP_append, List.countP_cons, a4]
      split <;> rfl
    · unfold gainLevels at a5 ⊢
      rw [List.filterMap_append, List.filterMap_cons, a5]
      split <;> rfl

theorem descendT_spec (log2 : F → F) (K N : Nat) (rel_levels : List Int) :
    ∀ (cur : Nat) (k : Int), cur < rel_levels.length ∨ cur = 0 →
      descend rel_levels (cur : Int) k = some (descendT F rel_levels (cur : Int) k).1 ∧
      (∀ ev ∈ (descendT F rel_levels (cur : Int) k).2,
        Event.ok log2 K N (rel_levels.length : Int) ev) ∧
      iterations (descendT F rel_levels (cur : Int) k).2 = 0 ∧
      gainLevels (descendT F rel_levels (cur : Int) k).2 = [] ∧
      ((descendSteps (descendT F rel_levels (cur : Int) k).2 : Int)
        + (descendT F rel_levels (cur : Int) k).1.1 = cur) := by
  intro cur
  induction cur with
  | zero =>
    intro k _
    have h0 : ¬ ((0 : Nat) : Int) > 0 := by simp
    rw [descend, dif_neg h0, descendT, dif_neg h0]
    exact ⟨rfl, fun ev hev => absurd hev (List.not_mem_nil _), rfl, rfl, by
      simp [descendSteps]⟩
  | succ L ih =>
    intro k hb
    have hL : L + 1 < rel_levels.length := by omega
    have hpos : ((L + 1 : Nat) : Int) > 0 := by omega
    have hread : readAt rel_levels ((L + 1 : Nat) : Int) = some (rel_levels.getD (L + 1) 0) := by
      have hneg : ¬ ((L + 1 : Nat) : Int) < 0 := by omega
      rw [readAt, if_neg hneg, Int.toNat_ofNat, List.getElem?_eq_getElem hL,
        List.getD_eq_getElem _ _ hL]
    have hcast : ((L + 1 : Nat) : Int) - 1 = (L : Int) := by push_cast; omega
    rw [descend, dif_pos hpos, descendT, dif_pos hpos, Int.toNat_ofNat]
    simp only [hread, hcast]
    by_cases hk : k > rel_levels.getD (L + 1) 0
    · rw [if_pos hk, if_pos hk]
      obtain ⟨a1, a2, a3, a4, a5⟩ := ih 1 (by omega)
      refine ⟨a1, ?_, ?_, ?_, ?_⟩
      · intro ev hev
        rcases List.mem_cons.1 hev with h | h
        · rw [h]
          exact ⟨by omega, by omega⟩
        · rcases List.mem_cons.1 h with h | h
          · rw [h]; exact trivial
          · have := a2 ev h
            exact this
      · unfold iterations at a3 ⊢
        simp only [List.countP_cons, a3]
        rfl
      · unfold gainLevels at a4 ⊢
        simp only [List.filterMap_cons, a4]
      · unfold descendSteps at a5 ⊢
        simp only [List.countP_cons] at a5 ⊢
        simp only [if_true, Bool.false_eq_true, if_false, add_zero]
        push_cast
        omega
    · rw [if_neg hk, if_neg hk]
      refine ⟨rfl, ?_, rfl, rfl, ?_⟩
      · intro ev hev
        rw [List.mem_singleton.1 hev]
        exact ⟨by omega, by omega⟩
      · simp [descendSteps]

theorem idealLoopT_stop (log2 : F → F) (cutoffs : List Int) (e : Int) (rel_levels : List Int)
    (i : Nat) (cur cnt cnt1 : Int) (evd : List (Event F)) (s : Walk F)
    (hd : descendT F rel_levels cur (cnt + 1) = ((0, cnt1), evd)) :
    idealLoopT log2 cutoffs e rel_levels i cur cnt s = (s, Event.iteration i :: evd) := by
  rw [idealLoopT]
  simp only [hd, ↓reduceDIte]

theorem idealLoopT_unfold (log2 : F → F) (cutoffs : List Int) (e : Int) (rel_levels : List Int)
    (i : Nat) (cur cnt cur1 cnt1 c : Int) (evd : List (Event F)) (s : Walk F)
    (hd : descendT F rel_levels cur (cnt + 1) = ((cur1, cnt1), evd)) (h0 : cur1 ≠ 0)
    (hc : cutoffs.getD s.cutoff_index 0 = c) :
    idealLoopT log2 cutoffs e rel_levels i cur cnt s =
      if (i : Int) = c ∧ s.cutoff_index + 1 = cutoffs.length then
        (⟨s.cutoff_index + 1, s.acc,
          Function.update s.values (e + s.cutoff_index)
            (normalise (s.values (e + s.cutoff_index)) s.acc)⟩,
          Event.iteration i :: evd ++ (Event.readCutoff s.cutoff_index ::
            (if (i : Int) = c ∧ s.acc > 0 then [Event.divideValue s.cutoff_index s.acc]
              else [])))
      else if get_gain F cur1 = 0 then
        (⟨if (i : Int) = c then s.cutoff_index + 1 else s.cutoff_index, s.acc,
          if (i : Int) = c then
            Function.update s.values (e + s.cutoff_index)
              (normalise (s.values (e + s.cutoff_index)) s.acc)
          else s.values⟩,
          Event.iteration i :: evd ++ (Event.readCutoff s.cutoff_index ::
            (if (i : Int) = c ∧ s.acc > 0 then [Event.divideValue s.cutoff_index s.acc]
              else [])) ++ [Event.takeGain i cur1])
      else
        ((idealLoopT log2 cutoffs e rel_levels (i + 1) cur1 cnt1
          ⟨if (i : Int) = c then s.cutoff_index + 1 else s.cutoff_index,
            s.acc + discGain log2 i cur1,
            if (i : Int) = c then
              Function.update s.values (e + s.cutoff_index)
                (normalise (s.values (e + s.cutoff_index)) s.acc)
            else s.values⟩).1,
          Event.iteration i :: evd ++ (Event.readCutoff s.cutoff_index ::
            (if (i : Int) = c ∧ s.acc > 0 then [Event.divideValue s.cutoff_index s.acc]
              else []))
            ++ [Event.takeGain i cur1,
              Event.divideGain i (log2 (((i : Int) + 2 : Int) : F))]
            ++ (idealLoopT log2 cutoffs e rel_levels (i + 1) cur1 cnt1
              ⟨if (i : Int) = c then s.cutoff_index + 1 else s.cutoff_index,
                s.acc + discGain log2 i cur1,
                if (i : Int) = c then
                  Function.update s.values (e + s.cutoff_index)
                    (normalise (s.values (e + s.cutoff_index)) s.acc)
                else s.values⟩).2) := by
  have hupd : (if s.acc > 0 then
      Function.update s.values (e + s.cutoff_index) (s.values (e + s.cutoff_index) / s.acc)
      else s.values) = Function.update s.values (e + s.cutoff_index)
        (normalise (s.values (e + s.cutoff_index)) s.acc) := by
    unfold normalise
    split <;> simp
  rw [idealLoopT]
  simp only [hd, hc]
  rw [dif_neg h0]
  by_cases hit : (i : Int) = c
  · have hdec : decide ((i : Int) = c) = true := decide_eq_true hit
    simp only [hdec, hit, decide_True, true_and, if_true, hupd, discGain]
    by_cases hlast : s.cutoff_index + 1 = cutoffs.length
    · rw [if_pos hlast, if_pos hlast]
    · rw [if_neg hlast, if_neg hlast]
      split <;> rfl
  · simp only [hit, decide_False, false_and, if_false, Bool.false_eq_true, discGain]
    split <;> rfl

theorem iterations_append (a b : List (Event F)) :
    iterations (a ++ b) = iterations a + iterations b := by
  unfold iterations
  exact List.countP_append _ _ _

theorem descendSteps_append (a b : List (Event F)) :
    descendSteps (a ++ b) = descendSteps a + descendSteps b := by
  unfold descendSteps
  exact List.countP_append _ _ _

theorem gainLevels_append (a b : List (Event F)) :
    gainLevels (a ++ b) = gainLevels a ++ gainLevels b := by
  unfold gainLevels
  exact List.filterMap_append _ _ _

/-- What the start of an iteration of the second loop adds to the record, up to the cutoff
test: one iteration, the steps of the inner loop, and no gain taken. -/
theorem prefix_counts (i j : Nat) (evd : List (Event F)) (P : Prop) [Decidable P] (acc : F) :
    iterations (Event.iteration i :: evd ++ (Event.readCutoff j ::
        (if P then [Event.divideValue j acc] else []))) = 1 + iterations evd ∧
      descendSteps (Event.iteration i :: evd ++ (Event.readCutoff j ::
        (if P then [Event.divideValue j acc] else []))) = descendSteps evd ∧
      gainLevels (Event.iteration i :: evd ++ (Event.readCutoff j ::
        (if P then [Event.divideValue j acc] else []))) = gainLevels evd := by
  refine ⟨?_, ?_, ?_⟩
  · rw [iterations_append]
    unfold iterations
    split <;> simp [List.countP_cons] <;> omega
  · rw [descendSteps_append]
    unfold descendSteps
    split <;> simp [List.countP_cons]
  · rw [gainLevels_append]
    unfold gainLevels
    split <;> simp [List.filterMap_cons]

theorem prefix_ok (log2 : F → F) (K N : Nat) (n : Int) (i j : Nat) (evd : List (Event F))
    (P : Prop) [Decidable P] (acc : F) (hj : j < K) (hP : P → 0 < acc)
    (hevd : ∀ ev ∈ evd, Event.ok log2 K N n ev) :
    ∀ ev ∈ Event.iteration i :: evd ++ (Event.readCutoff j ::
        (if P then [Event.divideValue j acc] else [])), Event.ok log2 K N n ev := by
  intro ev hev
  rcases List.mem_append.1 hev with h | h
  · rcases List.mem_cons.1 h with h | h
    · rw [h]; exact trivial
    · exact hevd ev h
  · rcases List.mem_cons.1 h with h | h
    · rw [h]; exact hj
    · split at h
      · rename_i hp
        rw [List.mem_singleton.1 h]
        exact ⟨hj, hP hp⟩
      · exact absurd h (List.not_mem_nil _)

/-- The second loop and its record: with at least one cutoff the loop of the code returns what
the recorded loop returns, every recorded access and division is harmless, there is at most one
iteration more than documents left in the ideal ranking, and the inner loop makes no more
steps than there are levels below the current one. -/
theorem idealLoopT_spec (log2 : F → F) (cutoffs : List Int) (e : Int) (rel_levels : List Int)
    (N : Nat) :
    ∀ (n i cur : Nat) (cnt : Int) (s : Walk F), (levelsFrom rel_levels cur cnt).length = n →
      (cur < rel_levels.length ∨ cur = 0) → s.cutoff_index < cutoffs.length →
      idealLoop log2 cutoffs e rel_levels i (cur : Int) cnt s
        = some (idealLoopT log2 cutoffs e rel_levels i (cur : Int) cnt s).1 ∧
      (∀ ev ∈ (idealLoopT log2 cutoffs e rel_levels i (cur : Int) cnt s).2,
        Event.ok log2 cutoffs.length N (rel_levels.length : Int) ev) ∧
      iterations (idealLoopT log2 cutoffs e rel_levels i (cur : Int) cnt s).2 ≤ n + 1 ∧
      descendSteps (idealLoopT log2 cutoffs e rel_levels i (cur : Int) cnt s).2 ≤ cur := by
  intro n
  induction n with
  | zero =>
    intro i cur cnt s hlen hb hj
    have hnil : levelsFrom rel_levels cur cnt = [] := List.length_eq_zero.1 hlen
    obtain ⟨cur1, cnt1, hd, -, h3⟩ := descend_levels rel_levels cur cnt hb
    obtain ⟨t1, t2, t3, t4, t5⟩ := descendT_spec log2 cutoffs.length N rel_levels cur (cnt + 1) hb
    have hcur1 : cur1 = 0 := by
      rcases h3 with h | h
      · exact h.2
      · rw [hnil] at h; exact absurd h.2 (by simp)
    subst hcur1
    rw [hd] at t1
    have hdT : descendT F rel_levels (cur : Int) (cnt + 1)
        = ((((0 : Nat) : Int), cnt1), (descendT F rel_levels (cur : Int) (cnt + 1)).2) :=
      Prod.ext (Option.some.inj t1).symm rfl
    rw [idealLoop_stop log2 cutoffs e rel_levels i _ _ cnt1 s hd,
      idealLoopT_stop log2 cutoffs e rel_levels i _ _ cnt1 _ s hdT]
    refine ⟨rfl, ?_, ?_, ?_⟩
    · intro ev hev
      rcases List.mem_cons.1 hev with h | h
      · rw [h]; exact trivial
      · exact t2 ev h
    · have : iterations (Event.iteration i :: (descendT F rel_levels (cur : Int) (cnt + 1)).2)
          = 1 + iterations (descendT F rel_levels (cur : Int) (cnt + 1)).2 := by
        unfold iterations
        simp [List.countP_cons]
        omega
      simp only
      rw [this, t3]
    · have : descendSteps (Event.iteration i :: (descendT F rel_levels (cur : Int) (cnt + 1)).2)
          = descendSteps (descendT F rel_levels (cur : Int) (cnt + 1)).2 := by
        unfold descendSteps
        simp [List.countP_cons]
      simp only
      rw [this]
      rw [(Option.some.inj t1).symm] at t5
      simp only at t5
      omega
  | succ n ih =>
    intro i cur cnt s hlen hb hj
    obtain ⟨cur1, cnt1, hd, hb1, h3⟩ := descend_levels rel_levels cur cnt hb
    obtain ⟨t1, t2, t3, t4, t5⟩ := descendT_spec log2 cutoffs.length N rel_levels cur (cnt + 1) hb
    have hcons : 0 < cur1 ∧
        levelsFrom rel_levels cur cnt = (cur1 : Int) :: levelsFrom rel_levels cur1 cnt1 := by
      rcases h3 with h | h
      · rw [h.1] at hlen; exact absurd hlen (by simp)
      · exact h
    obtain ⟨hpos, hR⟩ := hcons
    have hlen1 : (levelsFrom rel_levels cur1 cnt1).length = n := by
      rw [hR] at hlen; simpa using hlen
    have h0 : (cur1 : Int) ≠ 0 := by omega
    rw [hd] at t1
    have hd1 : (descendT F rel_levels (cur : Int) (cnt + 1)).1 = ((cur1 : Int), cnt1) :=
      (Option.some.inj t1).symm
    have hdT : descendT F rel_levels (cur : Int) (cnt + 1)
        = (((cur1 : Int), cnt1), (descendT F rel_levels (cur : Int) (cnt + 1)).2) :=
      Prod.ext hd1 rfl
    rw [hd1] at t5
    generalize (descendT F rel_levels (cur : Int) (cnt + 1)).2 = evd at hdT t2 t3 t4 t5
    have hgetc : cutoffs.getD s.cutoff_index 0 = cutoffs[s.cutoff_index] :=
      List.getD_eq_getElem _ _ hj
    rw [idealLoop_unfold log2 cutoffs e rel_levels i _ _ _ _ _ s hd h0
        (List.getElem?_eq_getElem hj),
      idealLoopT_unfold log2 cutoffs e rel_levels i _ _ _ _ _ evd s hdT h0 hgetc]
    obtain ⟨p1, p2, p3⟩ := prefix_counts i s.cutoff_index evd
      ((i : Int) = cutoffs[s.cutoff_index] ∧ s.acc > 0) s.acc
    have pok := prefix_ok log2 cutoffs.length N (rel_levels.length : Int) i s.cutoff_index evd
      ((i : Int) = cutoffs[s.cutoff_index] ∧ s.acc > 0) s.acc hj (fun h => h.2) t2
    have hsteps : descendSteps evd ≤ cur := by omega
    by_cases hlast : (i : Int) = cutoffs[s.cutoff_index] ∧ s.cutoff_index + 1 = cutoffs.length
    · rw [if_pos hlast, if_pos hlast]
      refine ⟨rfl, pok, ?_, ?_⟩
      · simp only
        rw [p1, t3]
        omega
      · simp only
        rw [p2]
        exact hsteps
    · rw [if_neg hlast, if_neg hlast]
      by_cases hg : get_gain F (cur1 : Int) = 0
      · rw [if_pos hg, if_pos hg]
        refine ⟨rfl, ?_, ?_, ?_⟩
        · intro ev hev
          rcases List.mem_append.1 hev with h | h
          · exact pok ev h
          · rw [List.mem_singleton.1 h]; exact trivial
        · simp only
          rw [iterations_append, p1, t3]
          simp [iterations]
        · simp only
          rw [descendSteps_append, p2]
          simp only [descendSteps, List.countP_cons, List.countP_nil]
          simpa using hsteps
      · rw [if_neg hg, if_neg hg]
        have hj1 : (if (i : Int) = cutoffs[s.cutoff_index] then s.cutoff_index + 1
            else s.cutoff_index) < cutoffs.length := by
          by_cases hit : (i : Int) = cutoffs[s.cutoff_index]
          · rw [if_pos hit]
            rcases Nat.lt_or_ge (s.cutoff_index + 1) cutoffs.length with h | h
            · exact h
            · exact absurd ⟨hit, by omega⟩ hlast
          · rw [if_neg hit]
            exact hj
        obtain ⟨q1, q2, q3, q4⟩ := ih (i + 1) cur1 cnt1
          ⟨if (i : Int) = cutoffs[s.cutoff_index] then s.cutoff_index + 1 else s.cutoff_index,
            s.acc + discGain log2 i cur1,
            if (i : Int) = cutoffs[s.cutoff_index] then
              Function.update s.values (e + s.cutoff_index)
                (normalise (s.values (e + s.cutoff_index)) s.acc)
            else s.values⟩ hlen1 hb1 hj1
        refine ⟨q1, ?_, ?_, ?_⟩
        · intro ev hev
          rcases List.mem_append.1 hev with h | h
          · rcases List.mem_append.1 h with h | h
            · exact pok ev h
            · rcases List.mem_cons.1 h with h | h
              · rw [h]; exact trivial
              · rw [List.mem_singleton.1 h]; exact rfl
          · exact q2 ev h
        · simp only
          rw [iterations_append, iterations_append, p1, t3]
          have : iterations [Event.takeGain i (cur1 : Int),
              Event.divideGain i (log2 (((i : Int) + 2 : Int) : F))] = 0 := by
            simp [iterations]
          rw [this]
          omega
        · simp only
          rw [descendSteps_append, descendSteps_append, p2]
          have : descendSteps [Event.takeGain i (cur1 : Int),
              Event.divideGain i (log2 (((i : Int) + 2 : Int) : F))] = 0 := by
            simp [descendSteps]
          rw [this]
          omega

/-- The second loop and its record, for strictly ascending cutoffs: the loop makes at most one
iteration more than rank indices are left below the last cutoff, and the levels whose gain it
takes are the documents of the ideal ranking in rank order, up to the last cutoff and up to the
first document of zero gain, that one included. -/
theorem idealLoopT_asc (log2 : F → F) (cutoffs : List Int) (e : Int) (rel_levels : List Int)
    (hasc : ∀ (a b : Nat) (ca cb : Int), cutoffs[a]? = some ca → cutoffs[b]? = some cb →
      a < b → ca < cb) :
    ∀ (n i cur : Nat) (cnt : Int) (s : Walk F), (levelsFrom rel_levels cur cnt).length = n →
      (cur < rel_levels.length ∨ cur = 0) →
      (∃ c, cutoffs[s.cutoff_index]? = some c ∧ (i : Int) ≤ c) →
      ∀ cl, cutoffs[cutoffs.length - 1]? = some cl →
        iterations (idealLoopT log2 cutoffs e rel_levels i (cur : Int) cnt s).2
          ≤ (cl.toNat - i) + 1 ∧
        gainLevels (idealLoopT log2 cutoffs e rel_levels i (cur : Int) cnt s).2
          = (levelsFrom rel_levels cur cnt).take
              (min ((gainPrefix F (levelsFrom rel_levels cur cnt)).length + 1)
                (cl.toNat - i)) := by
  intro n
  induction n with
  | zero =>
    intro i cur cnt s hlen hb _ cl _
    have hnil : levelsFrom rel_levels cur cnt = [] := List.length_eq_zero.1 hlen
    obtain ⟨cur1, cnt1, hd, -, h3⟩ := descend_levels rel_levels cur cnt hb
    obtain ⟨t1, -, t3, t4, -⟩ := descendT_spec log2 cutoffs.length 0 rel_levels cur (cnt + 1) hb
    have hcur1 : cur1 = 0 := by
      rcases h3 with h | h
      · exact h.2
      · rw [hnil] at h; exact absurd h.2 (by simp)
    subst hcur1
    rw [hd] at t1
    have hdT : descendT F rel_levels (cur : Int) (cnt + 1)
        = ((((0 : Nat) : Int), cnt1), (descendT F rel_levels (cur : Int) (cnt + 1)).2) :=
      Prod.ext (Option.some.inj t1).symm rfl
    rw [idealLoopT_stop log2 cutoffs e rel_levels i _ _ cnt1 _ s hdT, hnil]
    constructor
    · have : iterations (Event.iteration i :: (descendT F rel_levels (cur : Int) (cnt + 1)).2)
          = 1 + iterations (descendT F rel_levels (cur : Int) (cnt + 1)).2 := by
        unfold iterations
        simp [List.countP_cons]
        omega
      simp only
      rw [this, t3]
      omega
    · have : gainLevels (Event.iteration i :: (descendT F rel_levels (cur : Int) (cnt + 1)).2)
          = gainLevels (descendT F rel_levels (cur : Int) (cnt + 1)).2 := by
        unfold gainLevels
        simp [List.filterMap_cons]
      simp only
      rw [this, t4]
      simp
  | succ n ih =>
    intro i cur cnt s hlen hb ⟨c, hc, hic⟩ cl hcl
    have hj : s.cutoff_index < cutoffs.length := (List.getElem?_eq_some.1 hc).1
    have hcc : cutoffs[s.cutoff_index] = c := (List.getElem?_eq_some.1 hc).2
    obtain ⟨cur1, cnt1, hd, hb1, h3⟩ := descend_levels rel_levels cur cnt hb
    obtain ⟨t1, -, t3, t4, -⟩ := descendT_spec log2 cutoffs.length 0 rel_levels cur (cnt + 1) hb
    have hcons : 0 < cur1 ∧
        levelsFrom rel_levels cur cnt = (cur1 : Int) :: levelsFrom rel_levels cur1 cnt1 := by
      rcases h3 with h | h
      · rw [h.1] at hlen; exact absurd hlen (by simp)
      · exact h
    obtain ⟨hpos, hR⟩ := hcons
    have hlen1 : (levelsFrom rel_levels cur1 cnt1).length = n := by
      rw [hR] at hlen; simpa using hlen
    have h0 : (cur1 : Int) ≠ 0 := by omega
    rw [hd] at t1
    have hdT : descendT F rel_levels (cur : Int) (cnt + 1)
        = (((cur1 : Int), cnt1), (descendT F rel_levels (cur : Int) (cnt + 1)).2) :=
      Prod.ext (Option.some.inj t1).symm rfl
    generalize (descendT F rel_levels (cur : Int) (cnt + 1)).2 = evd at hdT t3 t4
    have hgetc : cutoffs.getD s.cutoff_index 0 = c := by
      rw [List.getD_eq_getElem _ _ hj, hcc]
    rw [idealLoopT_unfold log2 cutoffs e rel_levels i _ _ _ _ _ evd s hdT h0 hgetc, hR]
    obtain ⟨p1, -, p3⟩ := prefix_counts i s.cutoff_index evd ((i : Int) = c ∧ s.acc > 0) s.acc
    by_cases hlast : (i : Int) = c ∧ s.cutoff_index + 1 = cutoffs.length
    · rw [if_pos hlast]
      have hclc : cl = c := by
        have : cutoffs.length - 1 = s.cutoff_index := by omega
        rw [this, hc] at hcl
        exact (Option.some.inj hcl).symm
      have hz : cl.toNat - i = 0 := by omega
      constructor
      · simp only
        rw [p1, t3]
        omega
      · simp only
        rw [p3, t4, hz]
        simp
    · rw [if_neg hlast]
      have hnext : ∃ c1, cutoffs[(if (i : Int) = c then s.cutoff_index + 1
          else s.cutoff_index)]? = some c1 ∧ ((i + 1 : Nat) : Int) ≤ c1 := by
        by_cases hit : (i : Int) = c
        · rw [if_pos hit]
          have hj1 : s.cutoff_index + 1 < cutoffs.length := by
            rcases Nat.lt_or_ge (s.cutoff_index + 1) cutoffs.length with h | h
            · exact h
            · exact absurd ⟨hit, by omega⟩ hlast
          refine ⟨cutoffs[s.cutoff_index + 1], List.getElem?_eq_getElem hj1, ?_⟩
          have := hasc _ _ _ _ hc (List.getElem?_eq_getElem hj1) (Nat.lt_succ_self _)
          push_cast
          omega
        · rw [if_neg hit]
          exact ⟨c, hc, by push_cast; omega⟩
      obtain ⟨c1, hc1, hic1⟩ := hnext
      have hlastc : ((i + 1 : Nat) : Int) ≤ cl := by
        have hlt := (List.getElem?_eq_some.1 hc1).1
        rcases Nat.eq_or_lt_of_le (Nat.le_sub_one_of_lt hlt) with h | h
        · rw [← h, hc1] at hcl
          have := Option.some.inj hcl
          omega
        · have := hasc _ _ _ _ hc1 hcl h
          omega
      obtain ⟨k, hk⟩ : ∃ k, cl.toNat - i = k + 1 := ⟨cl.toNat - i - 1, by omega⟩
      have hk2 : cl.toNat - (i + 1) = k := by omega
      by_cases hg : get_gain F (cur1 : Int) = 0
      · rw [if_pos hg, gainPrefix_cons_zero _ _ hg]
        constructor
        · simp only
          rw [iterations_append, p1, t3]
          simp [iterations]
        · simp only
          rw [gainLevels_append, p3, t4, hk]
          simp [gainLevels]
      · rw [if_neg hg, gainPrefix_cons_pos _ _ hg]
        obtain ⟨q1, q2⟩ := ih (i + 1) cur1 cnt1
          ⟨if (i : Int) = c then s.cutoff_index + 1 else s.cutoff_index,
            s.acc + discGain log2 i cur1,
            if (i : Int) = c then
              Function.update s.values (e + s.cutoff_index)
                (normalise (s.values (e + s.cutoff_index)) s.acc)
            else s.values⟩ hlen1 hb1 ⟨c1, hc1, hic1⟩ cl hcl
        have hnone : gainLevels [Event.takeGain i (cur1 : Int),
            Event.divideGain i (log2 (((i : Int) + 2 : Int) : F))] = [(cur1 : Int)] := by
          simp [gainLevels]
        have hzero : iterations [Event.takeGain i (cur1 : Int),
            Event.divideGain i (log2 (((i : Int) + 2 : Int) : F))] = 0 := by
          simp [iterations]
        constructor
        · simp only
          rw [iterations_append, iterations_append, p1, t3, hzero]
          omega
        · simp only
          rw [gainLevels_append, gainLevels_append, p3, t4, hnone, q2, hk, hk2,
            List.length_cons]
          rw [show min ((gainPrefix F (levelsFrom rel_levels cur1 cnt1)).length + 1 + 1) (k + 1)
            = min ((gainPrefix F (levelsFrom rel_levels cur1 cnt1)).length + 1) k + 1 by omega,
            List.take_succ_cons]
          simp

theorem actualLoopT_kinds (log2 : F → F) (cutoffs : List Int) (e : Int) (rel : List Int) :
    ∀ (n i : Nat) (s : Walk F), n = rel.length - i →
      iterations (actualLoopT log2 cutoffs e rel i s).2 = 0 ∧
      descendSteps (actualLoopT log2 cutoffs e rel i s).2 = 0 ∧
      gainLevels (actualLoopT log2 cutoffs e rel i s).2 = [] := by
  intro n
  induction n with
  | zero =>
    intro i s hn
    have hi : ¬ i < rel.length := by omega
    rw [actualLoopT, dif_neg hi]
    exact ⟨rfl, rfl, rfl⟩
  | succ n ih =>
    intro i s hn
    have hi : i < rel.length := by omega
    have hmid : ∀ (P : Prop) [Decidable P] (d : F),
        iterations (Event.readRel i :: (if P then [Event.divideGain i d] else [])) = 0 ∧
        descendSteps (Event.readRel i :: (if P then [Event.divideGain i d] else [])) = 0 ∧
        gainLevels (Event.readRel i :: (if P then [Event.divideGain i d] else [])) = [] := by
      intro P _ d
      refine ⟨?_, ?_, ?_⟩
      · unfold iterations; split <;> simp [List.countP_cons]
      · unfold descendSteps; split <;> simp [List.countP_cons]
      · unfold gainLevels; split <;> simp [List.filterMap_cons]
    rw [actualLoopT, dif_pos hi]
    by_cases hit : (i : Int) = cutoffs.getD s.cutoff_index 0
    · have hdec : decide ((i : Int) = cutoffs.getD s.cutoff_index 0) = true :=
        decide_eq_true hit
      simp only [hdec, if_true, true_and]
      by_cases hlast : s.cutoff_index + 1 = cutoffs.length
      · rw [if_pos hlast]
        exact ⟨by simp [iterations], by simp [descendSteps], by simp [gainLevels]⟩
      · rw [if_neg hlast]
        dsimp only
        obtain ⟨a1, a2, a3⟩ := ih (i + 1)
          ⟨s.cutoff_index + 1,
            if get_gain F (rel.getD i 0) > 0 then
              s.acc + get_gain F (rel.getD i 0) / log2 (((i : Int) + 2 : Int) : F) else s.acc,
            Function.update s.values (e + s.cutoff_index) s.acc⟩ (by omega)
        obtain ⟨m1, m2, m3⟩ := hmid (get_gain F (rel.getD i 0) > 0)
          (log2 (((i : Int) + 2 : Int) : F))
        refine ⟨?_, ?_, ?_⟩
        · rw [iterations_append, iterations_append, a1, m1]
          simp [iterations]
        · rw [descendSteps_append, descendSteps_append, a2, m2]
          simp [descendSteps]
        · rw [gainLevels_append, gainLevels_append, a3, m3]
          simp [gainLevels]
    · simp only [hit, decide_False, if_false, false_and, Bool.false_eq_true]
      obtain ⟨a1, a2, a3⟩ := ih (i + 1)
        ⟨s.cutoff_index,
          if get_gain F (rel.getD i 0) > 0 then
            s.acc + get_gain F (rel.getD i 0) / log2 (((i : Int) + 2 : Int) : F) else s.acc,
          s.values⟩ (by omega)
      obtain ⟨m1, m2, m3⟩ := hmid (get_gain F (rel.getD i 0) > 0)
        (log2 (((i : Int) + 2 : Int) : F))
      refine ⟨?_, ?_, ?_⟩
      · rw [iterations_append, iterations_append, a1, m1]
        simp [iterations]
      · rw [descendSteps_append, descendSteps_append, a2, m2]
        simp [descendSteps]
      · rw [gainLevels_append, gainLevels_append, a3, m3]
        simp [gainLevels]

theorem actualFillT_kinds (K : Nat) (e : Int) :
    ∀ (n : Nat) (s : Walk F), n = K - s.cutoff_index →
      iterations (actualFillT K e s).2 = 0 ∧ descendSteps (actualFillT K e s).2 = 0 ∧
      gainLevels (actualFillT K e s).2 = [] := by
  intro n
  induction n with
  | zero =>
    intro s hn
    have hK : ¬ s.cutoff_index < K := by omega
    rw [actualFillT, dif_neg hK]
    exact ⟨rfl, rfl, rfl⟩
  | succ n ih =>
    intro s hn
    have hK : s.cutoff_index < K := by omega
    rw [actualFillT, dif_pos hK]
    obtain ⟨a1, a2, a3⟩ := ih ⟨s.cutoff_index + 1, s.acc,
      Function.update s.values (e + s.cutoff_index) s.acc⟩ (by simp only; omega)
    refine ⟨?_, ?_, ?_⟩
    · unfold iterations at a1 ⊢
      simp only [List.countP_cons, a1]
      rfl
    · unfold descendSteps at a2 ⊢
      simp only [List.countP_cons, a2]
      rfl
    · unfold gainLevels at a3 ⊢
      simp only [List.filterMap_cons, a3]

/-- The ideal ranking holds as many documents as the counts of the levels from 1 on add up to,
a count below zero counting as zero. -/
theorem length_levelsFrom (rel_levels : List Int) :
    ∀ L : Nat, (levelsFrom rel_levels L 0).length
      = ∑ M in Finset.Ico 1 (L + 1), (rel_levels.getD M 0).toNat := by
  intro L
  induction L with
  | zero => simp [levelsFrom]
  | succ L ih =>
    rw [Finset.sum_Ico_succ_top (by omega), ← ih]
    simp only [levelsFrom, List.length_append, List.length_replicate, sub_zero]
    omega

/-- The second loop from its start, with its record, for any cutoffs, at least one. -/
theorem idealStartT_spec (log2 : F → F) (cutoffs : List Int) (e : Int) (rel_levels : List Int)
    (N : Nat) (s : Walk F) (hj : s.cutoff_index < cutoffs.length) :
    idealLoop log2 cutoffs e rel_levels 0 ((rel_levels.length : Int) - 1) 0 s
      = some (idealLoopT log2 cutoffs e rel_levels 0 ((rel_levels.length : Int) - 1) 0 s).1 ∧
    (∀ ev ∈ (idealLoopT log2 cutoffs e rel_levels 0 ((rel_levels.length : Int) - 1) 0 s).2,
      Event.ok log2 cutoffs.length N (rel_levels.length : Int) ev) ∧
    iterations (idealLoopT log2 cutoffs e rel_levels 0 ((rel_levels.length : Int) - 1) 0 s).2
      ≤ (levelsFrom rel_levels (rel_levels.length - 1) 0).length + 1 ∧
    descendSteps (idealLoopT log2 cutoffs e rel_levels 0 ((rel_levels.length : Int) - 1) 0 s).2
      ≤ rel_levels.length - 1 := by
  rcases Nat.eq_zero_or_pos rel_levels.length with hn | hn
  · have hd : descend rel_levels (-1) (0 + 1) = some (-1, 1) := by
      rw [descend, dif_neg (by decide)]; rfl
    have hdT : descendT F rel_levels (-1) (0 + 1) = ((-1, 1), []) := by
      rw [descendT, dif_neg (by decide)]; rfl
    have hg : get_gain F (-1) = 0 := rfl
    have hgetc : cutoffs.getD s.cutoff_index 0 = cutoffs[s.cutoff_index] :=
      List.getD_eq_getElem _ _ hj
    rw [hn]
    simp only [Nat.cast_zero, zero_sub]
    rw [idealLoop_unfold log2 cutoffs e rel_levels 0 (-1) 0 (-1) 1 _ s hd (by decide)
        (List.getElem?_eq_getElem hj),
      idealLoopT_unfold log2 cutoffs e rel_levels 0 (-1) 0 (-1) 1 _ [] s hdT (by decide) hgetc]
    obtain ⟨p1, p2, -⟩ := prefix_counts 0 s.cutoff_index ([] : List (Event F))
      (((0 : Nat) : Int) = cutoffs[s.cutoff_index] ∧ s.acc > 0) s.acc
    have pok := prefix_ok log2 cutoffs.length N (0 : Int) 0 s.cutoff_index
      ([] : List (Event F)) (((0 : Nat) : Int) = cutoffs[s.cutoff_index] ∧ s.acc > 0) s.acc hj
      (fun h => h.2) (fun ev hev => absurd hev (List.not_mem_nil _))
    have hit0 : iterations ([] : List (Event F)) = 0 := rfl
    have hst0 : descendSteps ([] : List (Event F)) = 0 := rfl
    by_cases hlast : ((0 : Nat) : Int) = cutoffs[s.cutoff_index]
        ∧ s.cutoff_index + 1 = cutoffs.length
    · rw [if_pos hlast, if_pos hlast]
      refine ⟨rfl, pok, ?_, ?_⟩
      · simp only
        rw [p1, hit0]
        omega
      · simp only
        rw [p2]
        exact Nat.zero_le _
    · rw [if_neg hlast, if_neg hlast, if_pos hg, if_pos hg]
      refine ⟨rfl, ?_, ?_, ?_⟩
      · intro ev hev
        rcases List.mem_append.1 hev with h | h
        · exact pok ev h
        · rw [List.mem_singleton.1 h]; exact trivial
      · simp only
        rw [iterations_append, p1, hit0]
        simp [iterations]
      · simp only
        rw [descendSteps_append, p2, hst0]
        simp [descendSteps]
  · have hcast : (rel_levels.length : Int) - 1 = ((rel_levels.length - 1 : Nat) : Int) := by
      omega
    rw [hcast]
    exact idealLoopT_spec log2 cutoffs e rel_levels N _ 0 (rel_levels.length - 1) 0 s rfl
      (Or.inl (by omega)) hj

/-- The second loop from its start, with its record, for strictly ascending positive cutoffs. -/
theorem idealStartT_asc (log2 : F → F) (cutoffs : List Int) (e : Int) (rel_levels : List Int)
    (hasc : ∀ (a b : Nat) (ca cb : Int), cutoffs[a]? = some ca → cutoffs[b]? = some cb →
      a < b → ca < cb)
    (s : Walk F) (c0 : Int) (hc0 : cutoffs[s.cutoff_index]? = some c0) (hpos : 0 < c0)
    (cl : Int) (hcl : cutoffs[cutoffs.length - 1]? = some cl) :
    iterations (idealLoopT log2 cutoffs e rel_levels 0 ((rel_levels.length : Int) - 1) 0 s).2
      ≤ cl.toNat + 1 ∧
    (1 ≤ rel_levels.length →
      gainLevels (idealLoopT log2 cutoffs e rel_levels 0 ((rel_levels.length : Int) - 1) 0 s).2
        = (levelsFrom rel_levels (rel_levels.length - 1) 0).take
            (min ((gainPrefix F (levelsFrom rel_levels (rel_levels.length - 1) 0)).length + 1)
              cl.toNat)) := by
  have hj : s.cutoff_index < cutoffs.length := (List.getElem?_eq_some.1 hc0).1
  rcases Nat.eq_zero_or_pos rel_levels.length with hn | hn
  · have hdT : descendT F rel_levels (-1) (0 + 1) = ((-1, 1), []) := by
      rw [descendT, dif_neg (by decide)]; rfl
    have hg : get_gain F (-1) = 0 := rfl
    have hgetc : cutoffs.getD s.cutoff_index 0 = c0 := by
      rw [List.getD_eq_getElem _ _ hj]
      exact (List.getElem?_eq_some.1 hc0).2
    have hit : ¬ (((0 : Nat) : Int) = c0 ∧ s.cutoff_index + 1 = cutoffs.length) := by
      intro h
      have := h.1
      push_cast at this
      omega
    refine ⟨?_, fun h => by omega⟩
    rw [hn]
    simp only [Nat.cast_zero, zero_sub]
    rw [idealLoopT_unfold log2 cutoffs e rel_levels 0 (-1) 0 (-1) 1 _ [] s hdT (by decide) hgetc,
      if_neg hit, if_pos hg]
    obtain ⟨p1, -, -⟩ := prefix_counts 0 s.cutoff_index ([] : List (Event F))
      (((0 : Nat) : Int) = c0 ∧ s.acc > 0) s.acc
    have hit0 : iterations ([] : List (Event F)) = 0 := rfl
    simp only
    rw [iterations_append, p1, hit0]
    simp [iterations]
  · have hcast : (rel_levels.length : Int) - 1 = ((rel_levels.length - 1 : Nat) : Int) := by
      omega
    rw [hcast]
    obtain ⟨q1, q2⟩ := idealLoopT_asc log2 cutoffs e rel_levels hasc _ 0
      (rel_levels.length - 1) 0 s rfl (Or.inl (by omega))
      ⟨c0, hc0, by push_cast; omega⟩ cl hcl
    simp only [Nat.sub_zero] at q1 q2
    exact ⟨q1, fun _ => q2⟩

/-- The whole of `te_calc_ndcg45_cut` with its record, for any cutoffs, at least one: the code
returns what the recorded run returns, every recorded access and division is harmless, every
cutoff has its store, the second loop makes at most one iteration more than the ideal ranking
has documents, and its inner loop at most `num_rel_levels - 1` steps (none without a level). -/
theorem te_calcT_spec (UNDEF : Int) (log2 : F → F) (ret : Int) (res_rels : RES_RELS)
    (tm : TREC_MEAS) (values : Int → F) (hret : UNDEF ≠ ret)
    (hne : tm.meas_params.param_values ≠ []) :
    ∃ final log, te_calc_ndcg45_cutT UNDEF log2 (ret, res_rels) tm values = ((1, final), log) ∧
      te_calc_ndcg45_cut UNDEF log2 (ret, res_rels) tm values = some (1, final) ∧
      (∀ ev ∈ log, Event.ok log2 tm.meas_params.num_params res_rels.num_ret
        res_rels.num_rel_levels ev) ∧
      (∀ j, j < tm.meas_params.num_params → Event.storeValue j ∈ log) ∧
      iterations log ≤ (idealRanking res_rels.rel_levels).length + 1 ∧
      descendSteps log ≤ res_rels.rel_levels.length - 1 := by
  have hK : 0 < tm.meas_params.param_values.length := List.length_pos.2 hne
  obtain ⟨a1, a2, a3, a4⟩ := actualLoopT_spec log2 tm.meas_params.param_values tm.eval_index
    res_rels.results_rel_list res_rels.num_rel_levels _ 0 ⟨0, 0, values⟩ rfl hK
  obtain ⟨k1, k2, -⟩ := actualLoopT_kinds log2 tm.meas_params.param_values tm.eval_index
    res_rels.results_rel_list _ 0 ⟨0, 0, values⟩ rfl
  generalize hA : actualLoopT log2 tm.meas_params.param_values tm.eval_index
    res_rels.results_rel_list 0 ⟨0, 0, values⟩ = A at a1 a2 a3 a4 k1 k2
  obtain ⟨b1, b2, b3⟩ := actualFillT_spec log2 tm.meas_params.param_values.length
    res_rels.results_rel_list.length tm.eval_index res_rels.num_rel_levels _ A.1 rfl
  obtain ⟨l1, l2, -⟩ := actualFillT_kinds tm.meas_params.param_values.length tm.eval_index
    _ A.1 rfl
  obtain ⟨c1, c2, c3, c4⟩ := idealStartT_spec log2 tm.meas_params.param_values tm.eval_index
    res_rels.rel_levels res_rels.results_rel_list.length
    ⟨0, 0, (actualFillT tm.meas_params.param_values.length tm.eval_index A.1).1.values⟩ hK
  generalize hC : idealLoopT log2 tm.meas_params.param_values tm.eval_index
    res_rels.rel_levels 0 ((res_rels.rel_levels.length : Int) - 1) 0
    ⟨0, 0, (actualFillT tm.meas_params.param_values.length tm.eval_index A.1).1.values⟩ = C
    at c1 c2 c3 c4
  obtain ⟨d1, d2, d3, d4, -⟩ := idealFillT_spec log2 tm.meas_params.param_values.length
    res_rels.results_rel_list.length tm.eval_index res_rels.num_rel_levels _ C.1 rfl
  have hT : te_calc_ndcg45_cutT UNDEF log2 (ret, res_rels) tm values
      = ((1, (idealFillT tm.meas_params.param_values.length tm.eval_index C.1).1.values),
        A.2 ++ (actualFillT tm.meas_params.param_values.length tm.eval_index A.1).2 ++ C.2
          ++ (idealFillT tm.meas_params.param_values.length tm.eval_index C.1).2) := by
    rw [te_calc_ndcg45_cutT, if_neg hret, ← hC, ← hA]
  refine ⟨_, _, hT, ?_, ?_, ?_, ?_, ?_⟩
  · rw [te_calc_ndcg45_cut, if_neg hret]
    simp only [actualPhase, a1, idealPhase, idealWalk]
    rw [b1] at c1
    rw [c1, d1]
  · intro ev hev
    simp only [List.mem_append] at hev
    rcases hev with ((h | h) | h) | h
    · exact a2 ev h
    · exact b2 ev h
    · exact c2 ev h
    · exact d2 ev h
  · intro j hj
    simp only [List.mem_append]
    by_cases hjA : j < A.1.cutoff_index
    · exact Or.inl (Or.inl (Or.inl (a4 j (Nat.zero_le _) hjA)))
    · exact Or.inl (Or.inl (Or.inr (b3 j (by omega) hj)))
  · rw [iterations_append, iterations_append, iterations_append, k1, l1, d3, idealRanking_eq]
    omega
  · rw [descendSteps_append, descendSteps_append, descendSteps_append, k2, l2, d4]
    omega

/-- The whole of `te_calc_ndcg45_cut` with its record, for strictly ascending positive cutoffs:
the second loop makes at most one iteration more than the last cutoff says, and the levels whose
gain it takes are the documents of the ideal ranking in rank order, up to the last cutoff and up
to the first document of zero gain, that one included. -/
theorem te_calcT_asc (UNDEF : Int) (log2 : F → F) (ret : Int) (res_rels : RES_RELS)
    (tm : TREC_MEAS) (values : Int → F) (hret : UNDEF ≠ ret)
    (hne : tm.meas_params.param_values ≠ [])
    (hasc : tm.meas_params.param_values.Pairwise (· < ·))
    (hpos : ∀ c ∈ tm.meas_params.param_values, 0 < c)
    (cl : Int)
    (hcl : tm.meas_params.param_values[tm.meas_params.param_values.length - 1]? = some cl) :
    iterations (te_calc_ndcg45_cutT UNDEF log2 (ret, res_rels) tm values).2 ≤ cl.toNat + 1 ∧
    (1 ≤ res_rels.rel_levels.length →
      gainLevels (te_calc_ndcg45_cutT UNDEF log2 (ret, res_rels) tm values).2
        = (idealRanking res_rels.rel_levels).take
            (min ((gainPrefix F (idealRanking res_rels.rel_levels)).length + 1) cl.toNat)) := by
  have hK : 0 < tm.meas_params.param_values.length := List.length_pos.2 hne
  have hc0 : (0 : Int) < tm.meas_params.param_values[0] := hpos _ (List.getElem_mem _)
  obtain ⟨k1, -, k3⟩ := actualLoopT_kinds log2 tm.meas_params.param_values tm.eval_index
    res_rels.results_rel_list _ 0 ⟨0, 0, values⟩ rfl
  generalize hA : actualLoopT log2 tm.meas_params.param_values tm.eval_index
    res_rels.results_rel_list 0 ⟨0, 0, values⟩ = A at k1 k3
  obtain ⟨l1, -, l3⟩ := actualFillT_kinds tm.meas_params.param_values.length tm.eval_index
    _ A.1 rfl
  obtain ⟨c1, c2⟩ := idealStartT_asc log2 tm.meas_params.param_values tm.eval_index
    res_rels.rel_levels (asc_of_pairwise _ hasc)
    ⟨0, 0, (actualFillT tm.meas_params.param_values.length tm.eval_index A.1).1.values⟩
    _ (List.getElem?_eq_getElem hK) hc0 cl hcl
  generalize hC : idealLoopT log2 tm.meas_params.param_values tm.eval_index
    res_rels.rel_levels 0 ((res_rels.rel_levels.length : Int) - 1) 0
    ⟨0, 0, (actualFillT tm.meas_params.param_values.length tm.eval_index A.1).1.values⟩ = C
    at c1 c2
  obtain ⟨-, -, d3, -, d5⟩ := idealFillT_spec log2 tm.meas_params.param_values.length
    res_rels.results_rel_list.length tm.eval_index res_rels.num_rel_levels _ C.1 rfl
  have hT : te_calc_ndcg45_cutT UNDEF log2 (ret, res_rels) tm values
      = ((1, (idealFillT tm.meas_params.param_values.length tm.eval_index C.1).1.values),
        A.2 ++ (actualFillT tm.meas_params.param_values.length tm.eval_index A.1).2 ++ C.2
          ++ (idealFillT tm.meas_params.param_values.length tm.eval_index C.1).2) := by
    rw [te_calc_ndcg45_cutT, if_neg hret, ← hC, ← hA]
  rw [hT]
  constructor
  · simp only
    rw [iterations_append, iterations_append, iterations_append, k1, l1, d3]
    omega
  · intro hn
    simp only
    rw [gainLevels_append, gainLevels_append, gainLevels_append, k3, l3, d5, c2 hn,
      idealRanking_eq]
    simp

end Lemmas

/-! ## The properties of the specification -/

section Claims

/-- C1: for strictly ascending positive cutoffs, the first half of `te_calc_ndcg45_cut` runs to
its end and the value it records for the cutoff `c` at position `j` is the sum, over the rank
indices `i` below `min c N`, of `get_gain (rel[i]) / log2 (i + 2)`: the gain of the first
`min c N` documents, with `N` the number of retrieved documents. -/
theorem actual_gain_at_cutoffs (tm : TREC_MEAS) (res_rels : RES_RELS) (values : Int → ℝ)
    (hne : tm.meas_params.param_values ≠ [])
    (hasc : tm.meas_params.param_values.Pairwise (· < ·))
    (hpos : ∀ c ∈ tm.meas_params.param_values, 0 < c) :
    ∃ raw, actualPhase (Real.logb 2) tm res_rels values = some raw ∧
      ∀ (j : Nat) (c : Int), tm.meas_params.param_values[j]? = some c →
        raw (tm.eval_index + j)
          = ∑ i in Finset.range (min c.toNat res_rels.num_ret),
              get_gain ℝ (res_rels.results_rel_list.getD i 0) / Real.logb 2 ((i : ℝ) + 2) := by
  obtain ⟨raw, hraw, h1, -⟩ := actualPhase_spec (Real.logb 2) tm res_rels values hne hasc hpos
  refine ⟨raw, hraw, fun j c hj => ?_⟩
  rw [h1 j c hj, dcg_eq_sum]
  exact Finset.sum_congr rfl (fun i _ => discGain_real i _)

theorem actual_gain_at_cutoffs_witness :
    ((⟨⟨[2, 4]⟩, 0⟩ : TREC_MEAS).meas_params.param_values ≠ [] ∧
      (⟨⟨[2, 4]⟩, 0⟩ : TREC_MEAS).meas_params.param_values.Pairwise (· < ·) ∧
      ∀ c ∈ (⟨⟨[2, 4]⟩, 0⟩ : TREC_MEAS).meas_params.param_values, 0 < c) ∧
    ∃ raw, actualPhase (Real.logb 2) ⟨⟨[2, 4]⟩, 0⟩ ⟨[5, 4, 0, 5], [0, 0, 0, 0, 1, 2]⟩
        (fun _ => 0) = some raw ∧
      ∀ (j : Nat) (c : Int), ([2, 4] : List Int)[j]? = some c →
        raw (0 + j)
          = ∑ i in Finset.range (min c.toNat 4),
              get_gain ℝ (([5, 4, 0, 5] : List Int).getD i 0) / Real.logb 2 ((i : ℝ) + 2) :=
  ⟨⟨by decide, by decide, by decide⟩,
    actual_gain_at_cutoffs ⟨⟨[2, 4]⟩, 0⟩ ⟨[5, 4, 0, 5], [0, 0, 0, 0, 1, 2]⟩ (fun _ => 0)
      (by decide) (by decide) (by decide)⟩

/-- C2: when no level above 5 has a positive count, `te_calc_ndcg45_cut` returns 1 and the final
score of the cutoff `c` at position `j` is `DCG / IDCG` when `IDCG > 0` and `DCG` otherwise, where
`DCG` is the value recorded by the first half and `IDCG` is the sum over `i < min c (length Ideal)`
of `get_gain (Ideal[i]) / log2 (i + 2)`, with `Ideal` made of `rel_levels[L]` copies of `L` for `L`
from `num_rel_levels - 1` down to 1.  (A count below zero stands for no copy at all, so the
counts need not be assumed non-negative.) -/
theorem normalised_by_ideal (UNDEF ret : Int) (tm : TREC_MEAS) (res_rels : RES_RELS)
    (values : Int → ℝ) (hret : UNDEF ≠ ret)
    (hne : tm.meas_params.param_values ≠ [])
    (hasc : tm.meas_params.param_values.Pairwise (· < ·))
    (hpos : ∀ c ∈ tm.meas_params.param_values, 0 < c)
    (htop : ∀ L : Nat, 5 < L → (L : Int) < res_rels.num_rel_levels →
      res_rels.rel_levels.getD L 0 ≤ 0) :
    ∃ raw final, actualPhase (Real.logb 2) tm res_rels values = some raw ∧
      te_calc_ndcg45_cut UNDEF (Real.logb 2) (ret, res_rels) tm values = some (1, final) ∧
      ∀ (j : Nat) (c : Int), tm.meas_params.param_values[j]? = some c →
        final (tm.eval_index + j)
          = if 0 < ∑ i in Finset.range (min c.toNat (idealRanking res_rels.rel_levels).length),
                get_gain ℝ ((idealRanking res_rels.rel_levels).getD i 0)
                  / Real.logb 2 ((i : ℝ) + 2)
            then raw (tm.eval_index + j)
              / ∑ i in Finset.range (min c.toNat (idealRanking res_rels.rel_levels).length),
                get_gain ℝ ((idealRanking res_rels.rel_levels).getD i 0)
                  / Real.logb 2 ((i : ℝ) + 2)
            else raw (tm.eval_index + j) := by
  obtain ⟨raw, s1, final, hraw, -, hfin, h1, -, -⟩ :=
    te_calc_spec UNDEF (Real.logb 2) ret res_rels tm values hret hne hasc hpos
  refine ⟨raw, final, hraw, hfin, fun j c hj => ?_⟩
  have hsum : dcg (Real.logb 2) (idealRanking res_rels.rel_levels) c.toNat
      = ∑ i in Finset.range (min c.toNat (idealRanking res_rels.rel_levels).length),
          get_gain ℝ ((idealRanking res_rels.rel_levels).getD i 0)
            / Real.logb 2 ((i : ℝ) + 2) := by
    rw [dcg_eq_sum]
    exact Finset.sum_congr rfl (fun i _ => discGain_real i _)
  rw [(h1 j c hj).2, dcg_gainPrefix_levelsFrom (Real.logb 2) res_rels.rel_levels
    (fun L h5 hL => htop L h5 (by exact_mod_cast hL)), hsum]
  rfl

theorem normalised_by_ideal_witness :
    ((-1 : Int) ≠ 0 ∧ ([2, 4] : List Int) ≠ [] ∧ ([2, 4] : List Int).Pairwise (· < ·) ∧
      (∀ c ∈ ([2, 4] : List Int), 0 < c) ∧
      ∀ L : Nat, 5 < L → (L : Int) < (7 : Nat) →
        ([0, 0, 0, 1, 1, 2, 0] : List Int).getD L 0 ≤ 0) ∧
    ∃ raw final,
      actualPhase (Real.logb 2) ⟨⟨[2, 4]⟩, 0⟩ ⟨[5, 4, 0, 5], [0, 0, 0, 1, 1, 2, 0]⟩ (fun _ => 0)
        = some raw ∧
      te_calc_ndcg45_cut (-1) (Real.logb 2) (0, ⟨[5, 4, 0, 5], [0, 0, 0, 1, 1, 2, 0]⟩)
        ⟨⟨[2, 4]⟩, 0⟩ (fun _ => 0) = some (1, final) ∧
      ∀ (j : Nat) (c : Int), ([2, 4] : List Int)[j]? = some c →
        final (0 + j)
          = if 0 < ∑ i in Finset.range
                  (min c.toNat (idealRanking [0, 0, 0, 1, 1, 2, 0]).length),
                get_gain ℝ ((idealRanking [0, 0, 0, 1, 1, 2, 0]).getD i 0)
                  / Real.logb 2 ((i : ℝ) + 2)
            then raw (0 + j)
              / ∑ i in Finset.range (min c.toNat (idealRanking [0, 0, 0, 1, 1, 2, 0]).length),
                get_gain ℝ ((idealRanking [0, 0, 0, 1, 1, 2, 0]).getD i 0)
                  / Real.logb 2 ((i : ℝ) + 2)
            else raw (0 + j) :=
  have htop : ∀ L : Nat, 5 < L → (L : Int) < (7 : Nat) →
      ([0, 0, 0, 1, 1, 2, 0] : List Int).getD L 0 ≤ 0 := by
    intro L h5 hL
    have h7 : L < 7 := by exact_mod_cast hL
    interval_cases L
    decide
  ⟨⟨by decide, by decide, by decide, by decide, htop⟩,
    normalised_by_ideal (-1) 0 ⟨⟨[2, 4]⟩, 0⟩ ⟨[5, 4, 0, 5], [0, 0, 0, 1, 1, 2, 0]⟩ (fun _ => 0)
      (by decide) (by decide) (by decide) (by decide) htop⟩

/-- C3: `get_gain` is a total function with `get_gain 4 = 1`, `get_gain 5 = 2` and
`get_gain x = 0` for every other level; so it is never negative, and positive exactly at the
levels 4 and 5. -/
theorem get_gain_table :
    get_gain ℝ 4 = 1 ∧ get_gain ℝ 5 = 2 ∧
      (∀ x : Int, x ≠ 4 → x ≠ 5 → get_gain ℝ x = 0) ∧
      (∀ x : Int, 0 ≤ get_gain ℝ x) ∧
      (∀ x : Int, 0 < get_gain ℝ x ↔ x = 4 ∨ x = 5) :=
  ⟨rfl, rfl, fun x h4 h5 => (get_gain_eq_zero_iff x).2 ⟨h4, h5⟩, get_gain_nonneg,
    get_gain_pos_iff⟩

/-- C4, amended: when no level above 5 has a positive count, a document of level 4 or 5 is
judged, and the ranked list is sorted by descending level and holds, for every level of 1 or
more, exactly as many documents as `rel_levels` counts, `te_calc_ndcg45_cut` returns 1 with the
final score 1 at every cutoff. -/
theorem perfect_ranking_scores_one (UNDEF ret : Int) (tm : TREC_MEAS) (res_rels : RES_RELS)
    (values : Int → ℝ) (hret : UNDEF ≠ ret)
    (hne : tm.meas_params.param_values ≠ [])
    (hasc : tm.meas_params.param_values.Pairwise (· < ·))
    (hpos : ∀ c ∈ tm.meas_params.param_values, 0 < c)
    (htop : ∀ L : Nat, 5 < L → (L : Int) < res_rels.num_rel_levels →
      res_rels.rel_levels.getD L 0 ≤ 0)
    (hgain : ∃ L : Nat, (L = 4 ∨ L = 5) ∧ 0 < res_rels.rel_levels.getD L 0)
    (hsorted : res_rels.results_rel_list.Pairwise (· ≥ ·))
    (hmatch : ∀ L : Nat, 1 ≤ L →
      (res_rels.results_rel_list.count (L : Int) : Int) = res_rels.rel_levels.getD L 0) :
    ∃ final, te_calc_ndcg45_cut UNDEF (Real.logb 2) (ret, res_rels) tm values = some (1, final) ∧
      ∀ (j : Nat), j < tm.meas_params.num_params → final (tm.eval_index + j) = 1 := by
  obtain ⟨raw, s1, final, -, -, hfin, h1, -, -⟩ :=
    te_calc_spec UNDEF (Real.logb 2) ret res_rels tm values hret hne hasc hpos
  refine ⟨final, hfin, fun j hj => ?_⟩
  have htop2 : ∀ L : Nat, 5 < L → L < res_rels.rel_levels.length →
      res_rels.rel_levels.getD L 0 ≤ 0 := fun L h5 hL => htop L h5 (by exact_mod_cast hL)
  have hcj : (0 : Int) < tm.meas_params.param_values[j] := hpos _ (List.getElem_mem _)
  obtain ⟨ha, hb⟩ := h1 j _ (List.getElem?_eq_getElem hj)
  obtain ⟨t, ht, hle⟩ := perfect_eq_ideal res_rels.results_rel_list res_rels.rel_levels
    hsorted hmatch
  have hraw : raw (tm.eval_index + j) = dcg (Real.logb 2)
      (levelsFrom res_rels.rel_levels (res_rels.rel_levels.length - 1) 0)
      (tm.meas_params.param_values[j]).toNat := by
    rw [ha, ht]
    apply dcg_append_zero
    intro x hx
    have := hle x hx
    rw [get_gain_eq_zero_iff]
    omega
  have hp := dcg_ideal_pos res_rels.rel_levels htop2 hgain
    (tm.meas_params.param_values[j]).toNat (by omega)
  rw [hb, hraw, dcg_gainPrefix_levelsFrom (Real.logb 2) res_rels.rel_levels htop2,
    idealRanking_eq, normalise, if_pos hp]
  exact div_self (ne_of_gt hp)

theorem perfect_ranking_scores_one_witness :
    ((-1 : Int) ≠ 0 ∧ ([1, 2, 5] : List Int) ≠ [] ∧ ([1, 2, 5] : List Int).Pairwise (· < ·) ∧
      (∀ c ∈ ([1, 2, 5] : List Int), 0 < c) ∧
      (∀ L : Nat, 5 < L → (L : Int) < (7 : Nat) →
        ([3, 0, 1, 0, 1, 2, 0] : List Int).getD L 0 ≤ 0) ∧
      (∃ L : Nat, (L = 4 ∨ L = 5) ∧ 0 < ([3, 0, 1, 0, 1, 2, 0] : List Int).getD L 0) ∧
      ([5, 5, 4, 2, 0, -1] : List Int).Pairwise (· ≥ ·) ∧
      ∀ L : Nat, 1 ≤ L → (([5, 5, 4, 2, 0, -1] : List Int).count (L : Int) : Int)
        = ([3, 0, 1, 0, 1, 2, 0] : List Int).getD L 0) ∧
    ∃ final, te_calc_ndcg45_cut (-1) (Real.logb 2)
        (0, ⟨[5, 5, 4, 2, 0, -1], [3, 0, 1, 0, 1, 2, 0]⟩) ⟨⟨[1, 2, 5]⟩, 0⟩ (fun _ => 0)
          = some (1, final) ∧
      ∀ (j : Nat), j < 3 → final (0 + j) = 1 :=
  have htop : ∀ L : Nat, 5 < L → (L : Int) < (7 : Nat) →
      ([3, 0, 1, 0, 1, 2, 0] : List Int).getD L 0 ≤ 0 := by
    intro L h5 hL
    have h7 : L < 7 := by exact_mod_cast hL
    interval_cases L
    decide
  have hmatch : ∀ L : Nat, 1 ≤ L → (([5, 5, 4, 2, 0, -1] : List Int).count (L : Int) : Int)
      = ([3, 0, 1, 0, 1, 2, 0] : List Int).getD L 0 := by
    intro L hL
    rcases Nat.lt_or_ge L 7 with h | h
    · interval_cases L <;> decide
    · rw [List.getD_eq_default _ _ (by simpa using h), List.count_eq_zero.2]
      · rfl
      · simp only [List.mem_cons, List.mem_singleton, List.not_mem_nil, or_false]
        omega
  ⟨⟨by decide, by decide, by decide, by decide, htop, ⟨5, Or.inr rfl, by decide⟩, by decide,
      hmatch⟩,
    perfect_ranking_scores_one (-1) 0 ⟨⟨[1, 2, 5]⟩, 0⟩
      ⟨[5, 5, 4, 2, 0, -1], [3, 0, 1, 0, 1, 2, 0]⟩ (fun _ => 0) (by decide) (by decide)
      (by decide) (by decide) htop ⟨5, Or.inr rfl, by decide⟩ (by decide) hmatch⟩

/-- C4, as the specification states it, fails when a level above 5 is judged: the ranked list
`[6, 5]` is sorted by descending level and holds exactly the judged documents (one of level 6,
one of level 5), a document of level 5 is judged, and yet the final score at the cutoff 1 is 0,
not 1. -/
theorem perfect_ranking_with_level_six :
    (([6, 5] : List Int).Pairwise (· ≥ ·) ∧
      (∀ L : Nat, 1 ≤ L → (([6, 5] : List Int).count (L : Int) : Int)
        = ([0, 0, 0, 0, 0, 1, 1] : List Int).getD L 0) ∧
      ∃ L : Nat, (L = 4 ∨ L = 5) ∧ 0 < ([0, 0, 0, 0, 0, 1, 1] : List Int).getD L 0) ∧
    ∃ final, te_calc_ndcg45_cut (-1) (Real.logb 2) (0, ⟨[6, 5], [0, 0, 0, 0, 0, 1, 1]⟩)
        ⟨⟨[1]⟩, 0⟩ (fun _ => 0) = some (1, final) ∧
      final 0 = 0 ∧ final 0 ≠ 1 := by
  have hmatch : ∀ L : Nat, 1 ≤ L → (([6, 5] : List Int).count (L : Int) : Int)
      = ([0, 0, 0, 0, 0, 1, 1] : List Int).getD L 0 := by
    intro L hL
    rcases Nat.lt_or_ge L 7 with h | h
    · interval_cases L <;> decide
    · rw [List.getD_eq_default _ _ (by simpa using h), List.count_eq_zero.2]
      · rfl
      · simp only [List.mem_cons, List.mem_singleton, List.not_mem_nil, or_false]
        omega
  refine ⟨⟨by decide, hmatch, ⟨5, Or.inr rfl, by decide⟩⟩, ?_⟩
  obtain ⟨raw, s1, final, -, -, hfin, h1, -, -⟩ :=
    te_calc_spec (-1) (Real.logb 2) 0 ⟨[6, 5], [0, 0, 0, 0, 0, 1, 1]⟩ ⟨⟨[1]⟩, 0⟩ (fun _ => 0)
      (by decide) (show ([1] : List Int) ≠ [] by decide)
      (show ([1] : List Int).Pairwise (· < ·) by decide)
      (show ∀ c ∈ ([1] : List Int), 0 < c by decide)
  have hlev : levelsFrom [0, 0, 0, 0, 0, 1, 1]
      (([0, 0, 0, 0, 0, 1, 1] : List Int).length - 1) 0 = [6, 5] := by decide
  have hP : gainPrefix ℝ [6, 5] = [] := by
    simp [gainPrefix, List.takeWhile, get_gain]
  obtain ⟨ha, hb⟩ := h1 0 1 rfl
  simp only [hlev, hP] at hb
  have d1 : dcg (Real.logb 2) [6, 5] (1 : Int).toNat = 0 := by
    simp [dcg, dcgFrom, discGain, get_gain]
  have d2 : dcg (Real.logb 2) [] (1 : Int).toNat = 0 := by
    simp [dcg, dcgFrom]
  rw [d1] at ha
  rw [ha, d2, normalise_zero] at hb
  simp only [Nat.cast_zero, add_zero] at hb
  exact ⟨final, hfin, hb, by rw [hb]; norm_num⟩

/-- C5, amended: when fewer documents are retrieved than the smallest cutoff, the first half
records the total gain of the retrieved documents at every cutoff, whatever the histogram; and
when moreover the ideal ranking has no more leading documents of non-zero gain than the smallest
cutoff, all final scores are equal: each is that total divided by the gain of those leading
documents, or the total itself when that gain is 0. -/
theorem short_list_scores (UNDEF ret : Int) (tm : TREC_MEAS) (res_rels : RES_RELS)
    (values : Int → ℝ) (hret : UNDEF ≠ ret)
    (hne : tm.meas_params.param_values ≠ [])
    (hasc : tm.meas_params.param_values.Pairwise (· < ·))
    (hpos : ∀ c ∈ tm.meas_params.param_values, 0 < c)
    (hshort : ∀ c ∈ tm.meas_params.param_values, (res_rels.num_ret : Int) < c) :
    ∃ raw final, actualPhase (Real.logb 2) tm res_rels values = some raw ∧
      te_calc_ndcg45_cut UNDEF (Real.logb 2) (ret, res_rels) tm values = some (1, final) ∧
      (∀ (j : Nat), j < tm.meas_params.num_params →
        raw (tm.eval_index + j)
          = ∑ i in Finset.range res_rels.num_ret,
              get_gain ℝ (res_rels.results_rel_list.getD i 0) / Real.logb 2 ((i : ℝ) + 2)) ∧
      ((∀ c ∈ tm.meas_params.param_values,
          ((gainPrefix ℝ (idealRanking res_rels.rel_levels)).length : Int) ≤ c) →
        ∀ (j : Nat), j < tm.meas_params.num_params →
        final (tm.eval_index + j)
          = if 0 < ∑ i in Finset.range (gainPrefix ℝ (idealRanking res_rels.rel_levels)).length,
                get_gain ℝ ((gainPrefix ℝ (idealRanking res_rels.rel_levels)).getD i 0)
                  / Real.logb 2 ((i : ℝ) + 2)
            then (∑ i in Finset.range res_rels.num_ret,
                get_gain ℝ (res_rels.results_rel_list.getD i 0) / Real.logb 2 ((i : ℝ) + 2))
              / ∑ i in Finset.range (gainPrefix ℝ (idealRanking res_rels.rel_levels)).length,
                get_gain ℝ ((gainPrefix ℝ (idealRanking res_rels.rel_levels)).getD i 0)
                  / Real.logb 2 ((i : ℝ) + 2)
            else ∑ i in Finset.range res_rels.num_ret,
                get_gain ℝ (res_rels.results_rel_list.getD i 0)
                  / Real.logb 2 ((i : ℝ) + 2)) := by
  obtain ⟨raw, s1, final, hraw, -, hfin, h1, -, -⟩ :=
    te_calc_spec UNDEF (Real.logb 2) ret res_rels tm values hret hne hasc hpos
  have hT : ∀ (j : Nat), j < tm.meas_params.num_params → raw (tm.eval_index + j)
      = ∑ i in Finset.range res_rels.num_ret,
          get_gain ℝ (res_rels.results_rel_list.getD i 0) / Real.logb 2 ((i : ℝ) + 2) := by
    intro j hj
    obtain ⟨ha, -⟩ := h1 j _ (List.getElem?_eq_getElem hj)
    have hs : (res_rels.results_rel_list.length : Int) < tm.meas_params.param_values[j] :=
      hshort _ (List.getElem_mem hj)
    rw [ha, dcg_of_length_le _ _ _ (by omega), dcg_eq_sum, min_self]
    exact Finset.sum_congr rfl (fun i _ => discGain_real i _)
  refine ⟨raw, final, hraw, hfin, hT, fun hideal j hj => ?_⟩
  obtain ⟨-, hb⟩ := h1 j _ (List.getElem?_eq_getElem hj)
  have hi := hideal _ (List.getElem_mem hj)
  have hI : dcg (Real.logb 2) (gainPrefix ℝ
        (levelsFrom res_rels.rel_levels (res_rels.rel_levels.length - 1) 0))
        (tm.meas_params.param_values[j]).toNat
      = ∑ i in Finset.range (gainPrefix ℝ (idealRanking res_rels.rel_levels)).length,
          get_gain ℝ ((gainPrefix ℝ (idealRanking res_rels.rel_levels)).getD i 0)
            / Real.logb 2 ((i : ℝ) + 2) := by
    rw [← idealRanking_eq, dcg_of_length_le _ _ _ (by omega), dcg_eq_sum, min_self]
    exact Finset.sum_congr rfl (fun i _ => discGain_real i _)
  rw [hb, hI, hT j hj]
  rfl

theorem short_list_scores_witness :
    ((-1 : Int) ≠ 0 ∧ ([3, 5] : List Int) ≠ [] ∧ ([3, 5] : List Int).Pairwise (· < ·) ∧
      (∀ c ∈ ([3, 5] : List Int), 0 < c) ∧
      (∀ c ∈ ([3, 5] : List Int), ((2 : Nat) : Int) < c) ∧
      ∀ c ∈ ([3, 5] : List Int),
        ((gainPrefix ℝ (idealRanking [0, 0, 0, 2, 1, 2])).length : Int) ≤ c) ∧
    ∃ raw final,
      actualPhase (Real.logb 2) ⟨⟨[3, 5]⟩, 0⟩ ⟨[4, 5], [0, 0, 0, 2, 1, 2]⟩ (fun _ => 0)
        = some raw ∧
      te_calc_ndcg45_cut (-1) (Real.logb 2) (0, ⟨[4, 5], [0, 0, 0, 2, 1, 2]⟩) ⟨⟨[3, 5]⟩, 0⟩
        (fun _ => 0) = some (1, final) ∧
      (∀ (j : Nat), j < 2 →
        raw (0 + j)
          = ∑ i in Finset.range 2,
              get_gain ℝ (([4, 5] : List Int).getD i 0) / Real.logb 2 ((i : ℝ) + 2)) ∧
      ((∀ c ∈ ([3, 5] : List Int),
          ((gainPrefix ℝ (idealRanking [0, 0, 0, 2, 1, 2])).length : Int) ≤ c) →
        ∀ (j : Nat), j < 2 →
        final (0 + j)
          = if 0 < ∑ i in Finset.range (gainPrefix ℝ (idealRanking [0, 0, 0, 2, 1, 2])).length,
                get_gain ℝ ((gainPrefix ℝ (idealRanking [0, 0, 0, 2, 1, 2])).getD i 0)
                  / Real.logb 2 ((i : ℝ) + 2)
            then (∑ i in Finset.range 2,
                get_gain ℝ (([4, 5] : List Int).getD i 0) / Real.logb 2 ((i : ℝ) + 2))
              / ∑ i in Finset.range (gainPrefix ℝ (idealRanking [0, 0, 0, 2, 1, 2])).length,
                get_gain ℝ ((gainPrefix ℝ (idealRanking [0, 0, 0, 2, 1, 2])).getD i 0)
                  / Real.logb 2 ((i : ℝ) + 2)
            else ∑ i in Finset.range 2,
                get_gain ℝ (([4, 5] : List Int).getD i 0) / Real.logb 2 ((i : ℝ) + 2)) :=
  have hideal : ∀ c ∈ ([3, 5] : List Int),
      ((gainPrefix ℝ (idealRanking [0, 0, 0, 2, 1, 2])).length : Int) ≤ c := by
    have hr : idealRanking [0, 0, 0, 2, 1, 2] = [5, 5, 4, 3, 3] := by decide
    have hP : gainPrefix ℝ [5, 5, 4, 3, 3] = [5, 5, 4] := by
      simp [gainPrefix, List.takeWhile, get_gain]
    rw [hr, hP]
    decide
  ⟨⟨by decide, by decide, by decide, by decide, by decide, hideal⟩,
    short_list_scores (-1) 0 ⟨⟨[3, 5]⟩, 0⟩ ⟨[4, 5], [0, 0, 0, 2, 1, 2]⟩ (fun _ => 0)
      (by decide) (by decide) (by decide) (by decide) (by decide)⟩

/-- C5, as the specification states it, fails: with one retrieved document of level 5, three
judged documents of level 5 and the cutoffs 2 and 4, fewer documents are retrieved than the
smallest cutoff, and yet the two final scores differ, each cutoff being divided by its own ideal
gain. -/
theorem short_list_scores_differ :
    ((⟨[5], [0, 0, 0, 0, 0, 3]⟩ : RES_RELS).num_ret : Int) < 2 ∧
    ∃ final, te_calc_ndcg45_cut (-1) (Real.logb 2) (0, ⟨[5], [0, 0, 0, 0, 0, 3]⟩)
        ⟨⟨[2, 4]⟩, 0⟩ (fun _ => 0) = some (1, final) ∧
      final 0 = 2 / (2 + 2 / Real.logb 2 3) ∧
      final 1 = 2 / (2 + 2 / Real.logb 2 3 + 1) ∧
      final 0 ≠ final 1 := by
  refine ⟨by decide, ?_⟩
  obtain ⟨raw, s1, final, -, -, hfin, h1, -, -⟩ :=
    te_calc_spec (-1) (Real.logb 2) 0 ⟨[5], [0, 0, 0, 0, 0, 3]⟩ ⟨⟨[2, 4]⟩, 0⟩ (fun _ => 0)
      (by decide) (show ([2, 4] : List Int) ≠ [] by decide)
      (show ([2, 4] : List Int).Pairwise (· < ·) by decide)
      (show ∀ c ∈ ([2, 4] : List Int), 0 < c by decide)
  obtain ⟨-, ⟨t3, t4⟩, -⟩ := scenario_terms
  have hlev : levelsFrom [0, 0, 0, 0, 0, 3]
      (([0, 0, 0, 0, 0, 3] : List Int).length - 1) 0 = [5, 5, 5] := by decide
  have hP : gainPrefix ℝ [5, 5, 5] = [5, 5, 5] := by
    simp [gainPrefix, List.takeWhile, get_gain]
  obtain ⟨a0, b0⟩ := h1 0 2 rfl
  obtain ⟨a1, b1⟩ := h1 1 4 rfl
  simp only [hlev, hP] at b0 b1
  have d1 : dcg (Real.logb 2) [5] (2 : Int).toNat = 2 := by
    simp [dcg, dcgFrom, discGain, get_gain]
  have d2 : dcg (Real.logb 2) [5] (4 : Int).toNat = 2 := by
    simp [dcg, dcgFrom, discGain, get_gain]
  have d3 : dcg (Real.logb 2) [5, 5, 5] (2 : Int).toNat = 2 + 2 / Real.logb 2 3 := by
    simp [dcg, dcgFrom, discGain, get_gain]
  have d4 : dcg (Real.logb 2) [5, 5, 5] (4 : Int).toNat = 2 + 2 / Real.logb 2 3 + 1 := by
    simp [dcg, dcgFrom, discGain, get_gain]
    norm_num [logb_two_four]
    ring
  rw [d1] at a0
  rw [d2] at a1
  rw [a0, d3] at b0
  rw [a1, d4] at b1
  simp only [Nat.cast_zero, add_zero, Nat.cast_one, zero_add] at b0 b1
  generalize 2 / Real.logb 2 3 = y at t3 t4 b0 b1 ⊢
  have hp0 : (0 : ℝ) < 2 + y := by linarith
  have hp1 : (0 : ℝ) < 2 + y + 1 := by linarith
  rw [normalise, if_pos hp0] at b0
  rw [normalise, if_pos hp1] at b1
  refine ⟨final, hfin, b0, b1, ?_⟩
  rw [b0, b1]
  intro h
  rw [div_eq_div_iff (ne_of_gt hp0) (ne_of_gt hp1)] at h
  linarith

/-- C7: for strictly ascending positive cutoffs, the values recorded by the first half do not
decrease along the cutoffs: the value of the cutoff at position `j` is at most the value of the
cutoff at any later position. -/
theorem raw_values_monotone (tm : TREC_MEAS) (res_rels : RES_RELS) (values : Int → ℝ)
    (hne : tm.meas_params.param_values ≠ [])
    (hasc : tm.meas_params.param_values.Pairwise (· < ·))
    (hpos : ∀ c ∈ tm.meas_params.param_values, 0 < c) :
    ∃ raw, actualPhase (Real.logb 2) tm res_rels values = some raw ∧
      ∀ (j j1 : Nat), j < j1 → j1 < tm.meas_params.num_params →
        raw (tm.eval_index + j) ≤ raw (tm.eval_index + j1) := by
  obtain ⟨raw, hraw, h1, -⟩ := actualPhase_spec (Real.logb 2) tm res_rels values hne hasc hpos
  refine ⟨raw, hraw, fun j j1 hj hj1 => ?_⟩
  have hjK : j < tm.meas_params.param_values.length := lt_trans hj hj1
  have hlt := asc_of_pairwise _ hasc j j1 _ _ (List.getElem?_eq_getElem hjK)
    (List.getElem?_eq_getElem hj1) hj
  rw [h1 j _ (List.getElem?_eq_getElem hjK), h1 j1 _ (List.getElem?_eq_getElem hj1)]
  exact dcg_real_mono _ _ _ (by omega)

theorem raw_values_monotone_witness :
    (([5, 10, 15] : List Int) ≠ [] ∧ ([5, 10, 15] : List Int).Pairwise (· < ·) ∧
      ∀ c ∈ ([5, 10, 15] : List Int), 0 < c) ∧
    ∃ raw, actualPhase (Real.logb 2) ⟨⟨[5, 10, 15]⟩, 3⟩ ⟨[4, 0, 5, 1, 9, 5, -1, 4], [2, 1, 0, 0, 2, 2]⟩
        (fun _ => 0) = some raw ∧
      ∀ (j j1 : Nat), j < j1 → j1 < 3 → raw (3 + j) ≤ raw (3 + j1) :=
  ⟨⟨by decide, by decide, by decide⟩,
    raw_values_monotone ⟨⟨[5, 10, 15]⟩, 3⟩ ⟨[4, 0, 5, 1, 9, 5, -1, 4], [2, 1, 0, 0, 2, 2]⟩
      (fun _ => 0) (by decide) (by decide) (by decide)⟩

/-- C8: on the ranked list `[5, 4, 0, 5]` with two judged documents of level 5 and one of level
4 (`num_rel_levels = 6`) and the cutoffs 2 and 4, the value recorded for cutoff 2 is
`2 / log2 2 + 1 / log2 3`, about 2.6309, the value recorded for cutoff 4 is
`2 / log2 2 + 1 / log2 3 + 2 / log2 5`, about 3.4923, and the final score of cutoff 2 is its
recorded value divided by `2 / log2 2 + 2 / log2 3`, about 3.2619. -/
theorem scenario_first_cutoff (UNDEF ret e : Int) (values : Int → ℝ) (hret : UNDEF ≠ ret) :
    ∃ raw final,
      actualPhase (Real.logb 2) ⟨⟨[2, 4]⟩, e⟩ ⟨[5, 4, 0, 5], [0, 0, 0, 0, 1, 2]⟩ values = some raw ∧
      te_calc_ndcg45_cut UNDEF (Real.logb 2) (ret, ⟨[5, 4, 0, 5], [0, 0, 0, 0, 1, 2]⟩)
        ⟨⟨[2, 4]⟩, e⟩ values = some (1, final) ∧
      raw e = 2 / Real.logb 2 2 + 1 / Real.logb 2 3 ∧
      |raw e - 2.6309| < 0.0001 ∧
      raw (e + 1) = 2 / Real.logb 2 2 + 1 / Real.logb 2 3 + 2 / Real.logb 2 5 ∧
      |raw (e + 1) - 3.4923| < 0.0001 ∧
      final e = raw e / (2 / Real.logb 2 2 + 2 / Real.logb 2 3) ∧
      |2 / Real.logb 2 2 + 2 / Real.logb 2 3 - 3.2619| < 0.0001 := by
  obtain ⟨raw, s1, final, hraw, -, hfin, r0, r1, f0, -, -⟩ := scenario_run UNDEF ret e values hret
  obtain ⟨⟨t1, t2⟩, ⟨t3, t4⟩, ⟨t5, t6⟩⟩ := scenario_terms
  have h22 : Real.logb 2 2 = 1 := Real.logb_self_eq_one (by norm_num)
  refine ⟨raw, final, hraw, hfin, r0, ?_, r1, ?_, ?_, ?_⟩
  · rw [r0, h22, abs_lt]
    generalize 1 / Real.logb 2 3 = x at t1 t2 ⊢
    constructor <;> norm_num <;> linarith
  · rw [r1, h22, abs_lt]
    generalize 1 / Real.logb 2 3 = x at t1 t2 ⊢
    generalize 2 / Real.logb 2 5 = y at t5 t6 ⊢
    constructor <;> norm_num <;> linarith
  · rw [f0, normalise, if_pos]
    rw [h22]
    generalize 2 / Real.logb 2 3 = x at t3 t4 ⊢
    norm_num
    linarith
  · rw [h22, abs_lt]
    generalize 2 / Real.logb 2 3 = x at t3 t4 ⊢
    constructor <;> norm_num <;> linarith

theorem scenario_first_cutoff_witness :
    (-1 : Int) ≠ 0 ∧
    ∃ raw final,
      actualPhase (Real.logb 2) ⟨⟨[2, 4]⟩, 0⟩ ⟨[5, 4, 0, 5], [0, 0, 0, 0, 1, 2]⟩ (fun _ => 0)
        = some raw ∧
      te_calc_ndcg45_cut (-1) (Real.logb 2) (0, ⟨[5, 4, 0, 5], [0, 0, 0, 0, 1, 2]⟩)
        ⟨⟨[2, 4]⟩, 0⟩ (fun _ => 0) = some (1, final) ∧
      raw 0 = 2 / Real.logb 2 2 + 1 / Real.logb 2 3 ∧
      |raw 0 - 2.6309| < 0.0001 ∧
      raw (0 + 1) = 2 / Real.logb 2 2 + 1 / Real.logb 2 3 + 2 / Real.logb 2 5 ∧
      |raw (0 + 1) - 3.4923| < 0.0001 ∧
      final 0 = raw 0 / (2 / Real.logb 2 2 + 2 / Real.logb 2 3) ∧
      |2 / Real.logb 2 2 + 2 / Real.logb 2 3 - 3.2619| < 0.0001 :=
  ⟨by decide, scenario_first_cutoff (-1) 0 0 (fun _ => 0) (by decide)⟩

/-- C9, as the code has it: on the ranked list `[5, 4, 0, 5]` with two judged documents of
level 5 and one of level 4 and the cutoffs 2 and 4, the walk over the ideal ranking `[5, 5, 4]`
ends with `ideal_dcg = 2 / log2 2 + 2 / log2 3 + 1 / log2 4`, about 3.7619 (the level-4 document
stands at rank 3 and is discounted by `log2 4 = 2`), and the final score of cutoff 4 is its
recorded value divided by that. -/
theorem scenario_second_cutoff (UNDEF ret e : Int) (values : Int → ℝ) (hret : UNDEF ≠ ret) :
    ∃ raw s1 final,
      actualPhase (Real.logb 2) ⟨⟨[2, 4]⟩, e⟩ ⟨[5, 4, 0, 5], [0, 0, 0, 0, 1, 2]⟩ values = some raw ∧
      idealWalk (Real.logb 2) ⟨⟨[2, 4]⟩, e⟩ ⟨[5, 4, 0, 5], [0, 0, 0, 0, 1, 2]⟩ raw = some s1 ∧
      te_calc_ndcg45_cut UNDEF (Real.logb 2) (ret, ⟨[5, 4, 0, 5], [0, 0, 0, 0, 1, 2]⟩)
        ⟨⟨[2, 4]⟩, e⟩ values = some (1, final) ∧
      s1.acc = 2 / Real.logb 2 2 + 2 / Real.logb 2 3 + 1 / Real.logb 2 4 ∧
      |s1.acc - 3.7619| < 0.0001 ∧
      final (e + 1) = raw (e + 1) / s1.acc := by
  obtain ⟨raw, s1, final, hraw, hs1, hfin, -, -, -, f1, hacc⟩ :=
    scenario_run UNDEF ret e values hret
  obtain ⟨-, ⟨t3, t4⟩, -⟩ := scenario_terms
  have h22 : Real.logb 2 2 = 1 := Real.logb_self_eq_one (by norm_num)
  refine ⟨raw, s1, final, hraw, hs1, hfin, hacc, ?_, ?_⟩
  · rw [hacc, h22, logb_two_four, abs_lt]
    generalize 2 / Real.logb 2 3 = x at t3 t4 ⊢
    constructor <;> norm_num <;> linarith
  · rw [f1, hacc, normalise, if_pos]
    rw [h22, logb_two_four]
    generalize 2 / Real.logb 2 3 = x at t3 t4 ⊢
    norm_num
    linarith

theorem scenario_second_cutoff_witness :
    (-1 : Int) ≠ 0 ∧
    ∃ raw s1 final,
      actualPhase (Real.logb 2) ⟨⟨[2, 4]⟩, 0⟩ ⟨[5, 4, 0, 5], [0, 0, 0, 0, 1, 2]⟩ (fun _ => 0)
        = some raw ∧
      idealWalk (Real.logb 2) ⟨⟨[2, 4]⟩, 0⟩ ⟨[5, 4, 0, 5], [0, 0, 0, 0, 1, 2]⟩ raw = some s1 ∧
      te_calc_ndcg45_cut (-1) (Real.logb 2) (0, ⟨[5, 4, 0, 5], [0, 0, 0, 0, 1, 2]⟩)
        ⟨⟨[2, 4]⟩, 0⟩ (fun _ => 0) = some (1, final) ∧
      s1.acc = 2 / Real.logb 2 2 + 2 / Real.logb 2 3 + 1 / Real.logb 2 4 ∧
      |s1.acc - 3.7619| < 0.0001 ∧
      final (0 + 1) = raw (0 + 1) / s1.acc :=
  ⟨by decide, scenario_second_cutoff (-1) 0 0 (fun _ => 0) (by decide)⟩

/-- C9, as the specification states it, fails: on that input the walk over the ideal ranking
does not end with `ideal_dcg = 2 / log2 2 + 2 / log2 3 + 1 / log2 3` (about 3.8928) but with a
value below 3.77, and the final score of cutoff 4 is not its recorded value divided by
`2 / log2 2 + 2 / log2 3 + 1 / log2 3`. -/
theorem scenario_second_cutoff_not_as_stated :
    ∃ raw s1 final,
      actualPhase (Real.logb 2) ⟨⟨[2, 4]⟩, 0⟩ ⟨[5, 4, 0, 5], [0, 0, 0, 0, 1, 2]⟩ (fun _ => 0)
        = some raw ∧
      idealWalk (Real.logb 2) ⟨⟨[2, 4]⟩, 0⟩ ⟨[5, 4, 0, 5], [0, 0, 0, 0, 1, 2]⟩ raw = some s1 ∧
      te_calc_ndcg45_cut (-1) (Real.logb 2) (0, ⟨[5, 4, 0, 5], [0, 0, 0, 0, 1, 2]⟩)
        ⟨⟨[2, 4]⟩, 0⟩ (fun _ => 0) = some (1, final) ∧
      s1.acc ≠ 2 / Real.logb 2 2 + 2 / Real.logb 2 3 + 1 / Real.logb 2 3 ∧
      s1.acc < 3.77 ∧ ¬ |s1.acc - 3.8928| < 0.0001 ∧
      final 1 ≠ raw 1 / (2 / Real.logb 2 2 + 2 / Real.logb 2 3 + 1 / Real.logb 2 3) := by
  obtain ⟨raw, s1, final, hraw, hs1, hfin, -, r1, -, f1, hacc⟩ :=
    scenario_run (-1) 0 0 (fun _ => 0) (by decide)
  obtain ⟨⟨t1, t2⟩, ⟨t3, t4⟩, ⟨t5, t6⟩⟩ := scenario_terms
  have h22 : Real.logb 2 2 = 1 := Real.logb_self_eq_one (by norm_num)
  rw [zero_add] at r1 f1
  rw [h22] at r1
  rw [h22, logb_two_four] at f1 hacc
  rw [h22]
  generalize 1 / Real.logb 2 3 = x at t1 t2 r1 ⊢
  generalize 2 / Real.logb 2 3 = y at t3 t4 f1 hacc ⊢
  generalize 2 / Real.logb 2 5 = z at t5 t6 r1
  have hlt : s1.acc < 3.77 := by rw [hacc]; norm_num; linarith
  refine ⟨raw, s1, final, hraw, hs1, hfin, ?_, hlt, ?_, ?_⟩
  · rw [hacc]
    intro h
    norm_num at h
    linarith
  · rw [abs_lt]
    intro h
    norm_num at h hlt
    linarith [h.1]
  · have hpos : (0 : ℝ) < 2 / 1 + y + 1 / 2 := by norm_num; linarith
    have hr : raw 1 ≠ 0 := by
      rw [r1]
      have : (0 : ℝ) < 2 / 1 + x + z := by norm_num; linarith
      exact ne_of_gt this
    have hpos2 : (0 : ℝ) < 2 / 1 + y + x := by norm_num; linarith
    rw [f1, normalise, if_pos hpos]
    intro h
    rw [div_eq_div_iff (ne_of_gt hpos) (ne_of_gt hpos2)] at h
    have h2 := mul_left_cancel₀ hr h
    norm_num at h2
    linarith

/-- C10: with at least one cutoff, `te_calc_ndcg45_cut` always returns; it returns `UNDEF`
exactly when `te_form_res_rels` returned `UNDEF`, and then `eval->values` is what it was; in
every other case it returns 1.  (`UNDEF` is a sentinel, a value other than 1.) -/
theorem undef_only_from_upstream (UNDEF : Int) (form : Int × RES_RELS) (tm : TREC_MEAS)
    (values : Int → ℝ) (hU : UNDEF ≠ 1) (hne : tm.meas_params.param_values ≠ []) :
    ∃ r final, te_calc_ndcg45_cut UNDEF (Real.logb 2) form tm values = some (r, final) ∧
      (r = UNDEF ↔ form.1 = UNDEF) ∧
      (form.1 = UNDEF → final = values) ∧
      (form.1 ≠ UNDEF → r = 1) := by
  obtain ⟨r, final, hrun, h1, h2⟩ := te_calc_some UNDEF (Real.logb 2) form tm values hne
  refine ⟨r, final, hrun, ⟨fun hr => ?_, fun hf => (h1 hf.symm).1⟩, fun hf => (h1 hf.symm).2,
    fun hf => h2 (fun h => hf h.symm)⟩
  by_contra hcon
  have := h2 (fun h => hcon h.symm)
  exact hU (hr ▸ this)

theorem undef_only_from_upstream_witness :
    ((-1 : Int) ≠ 1 ∧ ([5, 10] : List Int) ≠ []) ∧
    ∃ r final, te_calc_ndcg45_cut (-1) (Real.logb 2) (-1, ⟨[5, 4], [0, 0, 0, 0, 1, 1]⟩)
        ⟨⟨[5, 10]⟩, 0⟩ (fun _ => 7) = some (r, final) ∧
      (r = -1 ↔ (-1 : Int) = -1) ∧
      ((-1 : Int) = -1 → final = (fun _ => 7)) ∧
      ((-1 : Int) ≠ -1 → r = 1) :=
  ⟨⟨by decide, by decide⟩,
    undef_only_from_upstream (-1) (-1, ⟨[5, 4], [0, 0, 0, 0, 1, 1]⟩) ⟨⟨[5, 10]⟩, 0⟩ (fun _ => 7)
      (by decide) (by decide)⟩

/-- C11: on a non-empty strictly ascending sequence of positive cutoffs the run of
`te_calc_ndcg45_cut` returns, and every division it makes has a positive divisor: a gain is
divided by the discount `log2 (i + 2)` of its rank index `i`, which is at least 1, and a score is
divided by `ideal_dcg` only when `ideal_dcg > 0`; every final cutoff score is non-negative. -/
theorem no_division_by_zero (UNDEF ret : Int) (tm : TREC_MEAS) (res_rels : RES_RELS)
    (values : Int → ℝ) (hret : UNDEF ≠ ret)
    (hne : tm.meas_params.param_values ≠ [])
    (hasc : tm.meas_params.param_values.Pairwise (· < ·))
    (hpos : ∀ c ∈ tm.meas_params.param_values, 0 < c) :
    ∃ final log,
      te_calc_ndcg45_cutT UNDEF (Real.logb 2) (ret, res_rels) tm values = ((1, final), log) ∧
      te_calc_ndcg45_cut UNDEF (Real.logb 2) (ret, res_rels) tm values = some (1, final) ∧
      (∀ (i : Nat) (d : ℝ), Event.divideGain i d ∈ log →
        d = Real.logb 2 ((i : ℝ) + 2) ∧ 1 ≤ d) ∧
      (∀ (k : Nat) (d : ℝ), Event.divideValue k d ∈ log → 0 < d) ∧
      ∀ j : Nat, j < tm.meas_params.num_params → 0 ≤ final (tm.eval_index + j) := by
  obtain ⟨final, log, hT, hfin, hok, -, -, -⟩ :=
    te_calcT_spec UNDEF (Real.logb 2) ret res_rels tm values hret hne
  obtain ⟨raw, -, final2, -, -, hfin2, h1, -, -⟩ :=
    te_calc_spec UNDEF (Real.logb 2) ret res_rels tm values hret hne hasc hpos
  have hff : final2 = final := by
    rw [hfin] at hfin2
    exact (congrArg Prod.snd (Option.some.inj hfin2)).symm
  subst hff
  refine ⟨final2, log, hT, hfin, ?_, ?_, ?_⟩
  · intro i d hmem
    have h2 : d = Real.logb 2 ((((i : Int) + 2 : Int)) : ℝ) := hok _ hmem
    have hd : d = Real.logb 2 ((i : ℝ) + 2) := by
      rw [h2]
      push_cast
      rfl
    refine ⟨hd, ?_⟩
    have hi : (0 : ℝ) ≤ i := Nat.cast_nonneg i
    rw [hd, Real.le_logb_iff_rpow_le (by norm_num) (by linarith), Real.rpow_one]
    linarith
  · intro k d hmem
    exact (hok _ hmem).2
  · intro j hj
    obtain ⟨ha, hb⟩ := h1 j _ (List.getElem?_eq_getElem hj)
    have hnn : 0 ≤ dcg (Real.logb 2) res_rels.results_rel_list
        (tm.meas_params.param_values[j]).toNat := dcgFrom_real_nonneg _ 0
    rw [hb, ha, normalise]
    split
    · rename_i hd
      exact div_nonneg hnn (le_of_lt hd)
    · exact hnn

theorem no_division_by_zero_witness :
    ((-1 : Int) ≠ 0 ∧ ([2, 4] : List Int) ≠ [] ∧ ([2, 4] : List Int).Pairwise (· < ·) ∧
      (∀ c ∈ ([2, 4] : List Int), 0 < c)) ∧
    ∃ final log,
      te_calc_ndcg45_cutT (-1) (Real.logb 2) (0, ⟨[5, 4, 0, 5], [0, 0, 0, 0, 1, 2]⟩)
        ⟨⟨[2, 4]⟩, 0⟩ (fun _ => 0) = ((1, final), log) ∧
      te_calc_ndcg45_cut (-1) (Real.logb 2) (0, ⟨[5, 4, 0, 5], [0, 0, 0, 0, 1, 2]⟩)
        ⟨⟨[2, 4]⟩, 0⟩ (fun _ => 0) = some (1, final) ∧
      (∀ (i : Nat) (d : ℝ), Event.divideGain i d ∈ log →
        d = Real.logb 2 ((i : ℝ) + 2) ∧ 1 ≤ d) ∧
      (∀ (k : Nat) (d : ℝ), Event.divideValue k d ∈ log → 0 < d) ∧
      ∀ j : Nat, j < 2 → 0 ≤ final (0 + j) :=
  ⟨⟨by decide, by decide, by decide, by decide⟩,
    no_division_by_zero (-1) 0 ⟨⟨[2, 4]⟩, 0⟩ ⟨[5, 4, 0, 5], [0, 0, 0, 0, 1, 2]⟩ (fun _ => 0)
      (by decide) (by decide) (by decide) (by decide)⟩

/-- C12: on a successful call with `K` cutoffs the run writes `eval->values` at the indices
`eval_index + j` with `j < K` and nowhere else: every store and every division in place has a
cutoff index below `K`, every `j < K` has its store, entry `eval_index + j` ends as the score of
the `j`-th cutoff (its DCG, divided by the ideal DCG at that cutoff when that is positive), and
every other entry of `eval->values` is what it was.  The ranked list, the histogram and the
cutoffs are arguments the function only reads. -/
theorem output_frame (UNDEF ret : Int) (tm : TREC_MEAS) (res_rels : RES_RELS)
    (values : Int → ℝ) (hret : UNDEF ≠ ret)
    (hne : tm.meas_params.param_values ≠ [])
    (hasc : tm.meas_params.param_values.Pairwise (· < ·))
    (hpos : ∀ c ∈ tm.meas_params.param_values, 0 < c) :
    ∃ final log,
      te_calc_ndcg45_cutT UNDEF (Real.logb 2) (ret, res_rels) tm values = ((1, final), log) ∧
      te_calc_ndcg45_cut UNDEF (Real.logb 2) (ret, res_rels) tm values = some (1, final) ∧
      (∀ k : Nat, Event.storeValue k ∈ log → k < tm.meas_params.num_params) ∧
      (∀ (k : Nat) (d : ℝ), Event.divideValue k d ∈ log → k < tm.meas_params.num_params) ∧
      (∀ j : Nat, j < tm.meas_params.num_params → Event.storeValue j ∈ log) ∧
      (∀ (j : Nat) (c : Int), tm.meas_params.param_values[j]? = some c →
        final (tm.eval_index + j) = normalise (dcg (Real.logb 2) res_rels.results_rel_list c.toNat)
          (dcg (Real.logb 2) (gainPrefix ℝ (idealRanking res_rels.rel_levels)) c.toNat)) ∧
      ∀ x : Int, (∀ j : Nat, j < tm.meas_params.num_params → x ≠ tm.eval_index + j) →
        final x = values x := by
  obtain ⟨final, log, hT, hfin, hok, hst, -, -⟩ :=
    te_calcT_spec UNDEF (Real.logb 2) ret res_rels tm values hret hne
  obtain ⟨raw, -, final2, -, -, hfin2, h1, h2, -⟩ :=
    te_calc_spec UNDEF (Real.logb 2) ret res_rels tm values hret hne hasc hpos
  have hff : final2 = final := by
    rw [hfin] at hfin2
    exact (congrArg Prod.snd (Option.some.inj hfin2)).symm
  subst hff
  refine ⟨final2, log, hT, hfin, fun k hmem => hok _ hmem, fun k d hmem => (hok _ hmem).1, hst,
    fun j c hj => ?_, h2⟩
  obtain ⟨ha, hb⟩ := h1 j c hj
  rw [hb, ha, idealRanking_eq]

theorem output_frame_witness :
    ((-1 : Int) ≠ 0 ∧ ([2, 4] : List Int) ≠ [] ∧ ([2, 4] : List Int).Pairwise (· < ·) ∧
      (∀ c ∈ ([2, 4] : List Int), 0 < c)) ∧
    ∃ final log,
      te_calc_ndcg45_cutT (-1) (Real.logb 2) (0, ⟨[5, 4, 0, 5], [0, 0, 0, 0, 1, 2]⟩)
        ⟨⟨[2, 4]⟩, 3⟩ (fun _ => 7) = ((1, final), log) ∧
      te_calc_ndcg45_cut (-1) (Real.logb 2) (0, ⟨[5, 4, 0, 5], [0, 0, 0, 0, 1, 2]⟩)
        ⟨⟨[2, 4]⟩, 3⟩ (fun _ => 7) = some (1, final) ∧
      (∀ k : Nat, Event.storeValue k ∈ log → k < 2) ∧
      (∀ (k : Nat) (d : ℝ), Event.divideValue k d ∈ log → k < 2) ∧
      (∀ j : Nat, j < 2 → Event.storeValue j ∈ log) ∧
      (∀ (j : Nat) (c : Int), ([2, 4] : List Int)[j]? = some c →
        final (3 + j) = normalise (dcg (Real.logb 2) [5, 4, 0, 5] c.toNat)
          (dcg (Real.logb 2) (gainPrefix ℝ (idealRanking [0, 0, 0, 0, 1, 2])) c.toNat)) ∧
      ∀ x : Int, (∀ j : Nat, j < 2 → x ≠ 3 + j) → final x = (fun _ => (7 : ℝ)) x :=
  ⟨⟨by decide, by decide, by decide, by decide⟩,
    output_frame (-1) 0 ⟨⟨[2, 4]⟩, 3⟩ ⟨[5, 4, 0, 5], [0, 0, 0, 0, 1, 2]⟩ (fun _ => 7)
      (by decide) (by decide) (by decide) (by decide)⟩

/-- C13: the default parameter table of the measure is the sequence 5, 10, 15, 20, 30, 100 with
parameter count 6; it is not empty, strictly ascending, without duplicates, and every value is
positive. -/
theorem default_cutoffs_table :
    default_ndcg45_cutoffs.param_values = [5, 10, 15, 20, 30, 100] ∧
      default_ndcg45_cutoffs.num_params = 6 ∧
      default_ndcg45_cutoffs.param_values ≠ [] ∧
      default_ndcg45_cutoffs.param_values.Pairwise (· < ·) ∧
      default_ndcg45_cutoffs.param_values.Nodup ∧
      ∀ c ∈ default_ndcg45_cutoffs.param_values, 0 < c :=
  ⟨rfl, rfl, by decide, by decide, by decide, by decide⟩

/-- C14, amended: when no level above 5 has a positive count, the walk over the ideal ranking
as implemented, which stops at the first level of zero gain, and the variant walk, which adds
nothing for such a level and goes on through the lower levels, end with the same `ideal_dcg` and
leave the same values: the entry of every cutoff `c` divided by the ideal gain at `c` (when that
gain is positive). -/
theorem stop_on_zero_same_as_skipping (tm : TREC_MEAS) (res_rels : RES_RELS)
    (values : Int → ℝ) (hne : tm.meas_params.param_values ≠ [])
    (hasc : tm.meas_params.param_values.Pairwise (· < ·))
    (hpos : ∀ c ∈ tm.meas_params.param_values, 0 < c)
    (htop : ∀ L : Nat, 5 < L → (L : Int) < res_rels.num_rel_levels →
      res_rels.rel_levels.getD L 0 ≤ 0) :
    ∃ s1 s2 final, idealWalk (Real.logb 2) tm res_rels values = some s1 ∧
      idealWalkSkip (Real.logb 2) tm res_rels values = some s2 ∧
      s1.acc = s2.acc ∧
      idealPhase (Real.logb 2) tm res_rels values = some final ∧
      idealPhaseSkip (Real.logb 2) tm res_rels values = some final ∧
      ∀ (j : Nat) (c : Int), tm.meas_params.param_values[j]? = some c →
        final (tm.eval_index + j) = normalise (values (tm.eval_index + j))
          (dcg (Real.logb 2) (idealRanking res_rels.rel_levels) c.toNat) := by
  have htop2 : ∀ L : Nat, 5 < L → L < res_rels.rel_levels.length →
      res_rels.rel_levels.getD L 0 ≤ 0 := fun L h5 hL => htop L h5 (by exact_mod_cast hL)
  have hK : 0 < tm.meas_params.param_values.length := List.length_pos.2 hne
  obtain ⟨s1, hs1, hp1, a1, a2, a3⟩ :=
    idealPhase_spec (Real.logb 2) tm res_rels values hne hasc hpos
  obtain ⟨s2, hs2, hp2, b1, b2, b3⟩ :=
    idealPhaseSkip_spec (Real.logb 2) tm res_rels values hne hasc hpos
  have hlast : tm.meas_params.param_values[tm.meas_params.param_values.length - 1]?
      = some (tm.meas_params.param_values[tm.meas_params.param_values.length - 1]) :=
    List.getElem?_eq_getElem (by omega)
  have hsame : (idealFill tm.meas_params.num_params tm.eval_index s2).values
      = (idealFill tm.meas_params.num_params tm.eval_index s1).values := by
    funext x
    by_cases hx : ∃ m : Nat, m < tm.meas_params.param_values.length ∧ x = tm.eval_index + m
    · obtain ⟨m, hm, rfl⟩ := hx
      rw [a1 m _ (List.getElem?_eq_getElem hm), b1 m _ (List.getElem?_eq_getElem hm),
        dcg_gainPrefix_levelsFrom (Real.logb 2) res_rels.rel_levels htop2, idealRanking_eq]
    · have hx2 : ∀ m : Nat, m < tm.meas_params.param_values.length → x ≠ tm.eval_index + m :=
        fun m hm h => hx ⟨m, hm, h⟩
      rw [a2 x hx2, b2 x hx2]
  refine ⟨s1, s2, _, hs1, hs2, ?_, hp1, by rw [hp2, hsame], fun j c hj => ?_⟩
  · rw [a3 _ hlast, b3 _ hlast,
      dcg_gainPrefix_levelsFrom (Real.logb 2) res_rels.rel_levels htop2, idealRanking_eq]
  · rw [a1 j c hj, dcg_gainPrefix_levelsFrom (Real.logb 2) res_rels.rel_levels htop2]

theorem stop_on_zero_same_as_skipping_witness :
    (([2, 4] : List Int) ≠ [] ∧ ([2, 4] : List Int).Pairwise (· < ·) ∧
      (∀ c ∈ ([2, 4] : List Int), 0 < c) ∧
      ∀ L : Nat, 5 < L → (L : Int) < (7 : Nat) →
        ([0, 2, 0, 1, 1, 2, 0] : List Int).getD L 0 ≤ 0) ∧
    ∃ s1 s2 final,
      idealWalk (Real.logb 2) ⟨⟨[2, 4]⟩, 0⟩ ⟨[5, 4, 0, 5], [0, 2, 0, 1, 1, 2, 0]⟩ (fun _ => 1)
        = some s1 ∧
      idealWalkSkip (Real.logb 2) ⟨⟨[2, 4]⟩, 0⟩ ⟨[5, 4, 0, 5], [0, 2, 0, 1, 1, 2, 0]⟩
        (fun _ => 1) = some s2 ∧
      s1.acc = s2.acc ∧
      idealPhase (Real.logb 2) ⟨⟨[2, 4]⟩, 0⟩ ⟨[5, 4, 0, 5], [0, 2, 0, 1, 1, 2, 0]⟩ (fun _ => 1)
        = some final ∧
      idealPhaseSkip (Real.logb 2) ⟨⟨[2, 4]⟩, 0⟩ ⟨[5, 4, 0, 5], [0, 2, 0, 1, 1, 2, 0]⟩
        (fun _ => 1) = some final ∧
      ∀ (j : Nat) (c : Int), ([2, 4] : List Int)[j]? = some c →
        final (0 + j) = normalise ((fun _ => (1 : ℝ)) (0 + (j : Int)))
          (dcg (Real.logb 2) (idealRanking [0, 2, 0, 1, 1, 2, 0]) c.toNat) :=
  have htop : ∀ L : Nat, 5 < L → (L : Int) < (7 : Nat) →
      ([0, 2, 0, 1, 1, 2, 0] : List Int).getD L 0 ≤ 0 := by
    intro L h5 hL
    have h7 : L < 7 := by exact_mod_cast hL
    interval_cases L
    decide
  ⟨⟨by decide, by decide, by decide, htop⟩,
    stop_on_zero_same_as_skipping ⟨⟨[2, 4]⟩, 0⟩ ⟨[5, 4, 0, 5], [0, 2, 0, 1, 1, 2, 0]⟩
      (fun _ => 1) (by decide) (by decide) (by decide) htop⟩

/-- C14, as the specification states it, fails when a level above 5 is judged: with one judged
document of level 6 and one of level 5 and the cutoff 2, the walk as implemented stops at level 6
and leaves the entry 1 of the cutoff as it is, while the variant walk goes on to level 5 and
divides the entry by `2 / log2 3`. -/
theorem stop_on_zero_differs_with_level_six :
    ∃ v1 v2,
      idealPhase (Real.logb 2) ⟨⟨[2]⟩, 0⟩ ⟨[], [0, 0, 0, 0, 0, 1, 1]⟩ (fun _ => 1) = some v1 ∧
      idealPhaseSkip (Real.logb 2) ⟨⟨[2]⟩, 0⟩ ⟨[], [0, 0, 0, 0, 0, 1, 1]⟩ (fun _ => 1)
        = some v2 ∧
      v1 0 = 1 ∧ v2 0 = 1 / (2 / Real.logb 2 3) ∧ v1 0 ≠ v2 0 := by
  obtain ⟨s1, -, hp1, a1, -, -⟩ :=
    idealPhase_spec (Real.logb 2) ⟨⟨[2]⟩, 0⟩ ⟨[], [0, 0, 0, 0, 0, 1, 1]⟩ (fun _ => 1)
      (show ([2] : List Int) ≠ [] by decide)
      (show ([2] : List Int).Pairwise (· < ·) by decide)
      (show ∀ c ∈ ([2] : List Int), 0 < c by decide)
  obtain ⟨s2, -, hp2, b1, -, -⟩ :=
    idealPhaseSkip_spec (Real.logb 2) ⟨⟨[2]⟩, 0⟩ ⟨[], [0, 0, 0, 0, 0, 1, 1]⟩ (fun _ => 1)
      (show ([2] : List Int) ≠ [] by decide)
      (show ([2] : List Int).Pairwise (· < ·) by decide)
      (show ∀ c ∈ ([2] : List Int), 0 < c by decide)
  obtain ⟨-, ⟨t3, t4⟩, -⟩ := scenario_terms
  have hlev : levelsFrom [0, 0, 0, 0, 0, 1, 1]
      (([0, 0, 0, 0, 0, 1, 1] : List Int).length - 1) 0 = [6, 5] := by decide
  have hP : gainPrefix ℝ [6, 5] = [] := by
    simp [gainPrefix, List.takeWhile, get_gain]
  have ha := a1 0 2 rfl
  have hb := b1 0 2 rfl
  simp only [hlev, hP] at ha hb
  have d1 : dcg (Real.logb 2) [] (2 : Int).toNat = 0 := by
    simp [dcg, dcgFrom]
  have d2 : dcg (Real.logb 2) [6, 5] (2 : Int).toNat = 2 / Real.logb 2 3 := by
    simp [dcg, dcgFrom, discGain, get_gain]
  rw [d1, normalise_zero] at ha
  rw [d2] at hb
  simp only [Nat.cast_zero, add_zero] at ha hb
  generalize 2 / Real.logb 2 3 = y at t3 t4 hb ⊢
  have hy : (0 : ℝ) < y := by linarith
  rw [normalise, if_pos hy] at hb
  refine ⟨_, _, hp1, hp2, ha, hb, ?_⟩
  rw [ha, hb]
  intro h
  have h2 : y = 1 := by
    field_simp at h
    linarith
  linarith

/-- C15, amended: the entries of `rel_levels` are consumed as the counts of their own levels.
With at least one level and a non-empty strictly ascending sequence of positive cutoffs, the
levels whose gain the second `for` loop takes are, rank by rank, the documents of the ranking
that holds `rel_levels[L]` copies of `L` for `L` from `num_rel_levels - 1` down to 1, up to the
last cutoff and up to the first document of zero gain, that one included; in that ranking the
levels descend, and level `L` stands at exactly `rel_levels[L]` positions (none when the entry is
negative). -/
theorem histogram_consumed_per_level (UNDEF ret : Int) (tm : TREC_MEAS) (res_rels : RES_RELS)
    (values : Int → ℝ) (hret : UNDEF ≠ ret)
    (hne : tm.meas_params.param_values ≠ [])
    (hasc : tm.meas_params.param_values.Pairwise (· < ·))
    (hpos : ∀ c ∈ tm.meas_params.param_values, 0 < c)
    (hlev : 1 ≤ res_rels.rel_levels.length) (cl : Int)
    (hcl : tm.meas_params.param_values[tm.meas_params.param_values.length - 1]? = some cl) :
    gainLevels (te_calc_ndcg45_cutT UNDEF (Real.logb 2) (ret, res_rels) tm values).2
        = (idealRanking res_rels.rel_levels).take
            (min ((gainPrefix ℝ (idealRanking res_rels.rel_levels)).length + 1) cl.toNat) ∧
      (idealRanking res_rels.rel_levels).Pairwise (· ≥ ·) ∧
      ∀ L : Nat, 1 ≤ L → L < res_rels.rel_levels.length →
        (idealRanking res_rels.rel_levels).count (L : Int)
          = (res_rels.rel_levels.getD L 0).toNat := by
  refine ⟨(te_calcT_asc UNDEF (Real.logb 2) ret res_rels tm values hret hne hasc hpos cl hcl).2
    hlev, ?_, ?_⟩
  · rw [idealRanking_eq]
    exact levelsFrom_sorted _ _ _
  · intro L h1 hL
    rw [idealRanking_eq, count_levelsFrom, if_pos ⟨by omega, by omega⟩, Int.toNat_ofNat]

theorem histogram_consumed_per_level_witness :
    ((-1 : Int) ≠ 0 ∧ ([10] : List Int) ≠ [] ∧ ([10] : List Int).Pairwise (· < ·) ∧
      (∀ c ∈ ([10] : List Int), 0 < c) ∧ 1 ≤ ([0, 0, 0, 0, 1, 2] : List Int).length ∧
      ([10] : List Int)[([10] : List Int).length - 1]? = some 10) ∧
    (gainLevels (te_calc_ndcg45_cutT (-1) (Real.logb 2) (0, ⟨[5, 4, 0, 5], [0, 0, 0, 0, 1, 2]⟩)
        ⟨⟨[10]⟩, 0⟩ (fun _ => 0)).2
        = (idealRanking [0, 0, 0, 0, 1, 2]).take
            (min ((gainPrefix ℝ (idealRanking [0, 0, 0, 0, 1, 2])).length + 1)
              (10 : Int).toNat) ∧
      (idealRanking [0, 0, 0, 0, 1, 2]).Pairwise (· ≥ ·) ∧
      ∀ L : Nat, 1 ≤ L → L < ([0, 0, 0, 0, 1, 2] : List Int).length →
        (idealRanking [0, 0, 0, 0, 1, 2]).count (L : Int)
          = (([0, 0, 0, 0, 1, 2] : List Int).getD L 0).toNat) :=
  ⟨⟨by decide, by decide, by decide, by decide, by decide, by decide⟩,
    histogram_consumed_per_level (-1) 0 ⟨⟨[10]⟩, 0⟩ ⟨[5, 4, 0, 5], [0, 0, 0, 0, 1, 2]⟩
      (fun _ => 0) (by decide) (by decide) (by decide) (by decide) (by decide) 10 (by decide)⟩

/-- C15, as the specification states it, fails: on the cumulative histogram of two judged
documents of level 5 and one of level 4 (entry 2 for level 5, entry 3 for level 4 and for every
lower level) and the cutoff 10, the second `for` loop takes the gain of the levels
5, 5, 4, 4, 4, 3, not of 5, 5, 4: level 4 gets 3 rank positions, not 3 - 2. -/
theorem cumulative_histogram_walk :
    ([3, 3, 3, 3, 3, 2] : List Int).Pairwise (· ≥ ·) ∧
      gainLevels (te_calc_ndcg45_cutT (-1) (Real.logb 2)
        (0, ⟨[5, 4, 0, 5], [3, 3, 3, 3, 3, 2]⟩) ⟨⟨[10]⟩, 0⟩ (fun _ => 0)).2
          = [5, 5, 4, 4, 4, 3] ∧
      gainLevels (te_calc_ndcg45_cutT (-1) (Real.logb 2)
        (0, ⟨[5, 4, 0, 5], [3, 3, 3, 3, 3, 2]⟩) ⟨⟨[10]⟩, 0⟩ (fun _ => 0)).2 ≠ [5, 5, 4] ∧
      (gainLevels (te_calc_ndcg45_cutT (-1) (Real.logb 2)
        (0, ⟨[5, 4, 0, 5], [3, 3, 3, 3, 3, 2]⟩) ⟨⟨[10]⟩, 0⟩ (fun _ => 0)).2).count 4
          ≠ 3 - 2 := by
  have h := (te_calcT_asc (-1) (Real.logb 2) 0 ⟨[5, 4, 0, 5], [3, 3, 3, 3, 3, 2]⟩
    ⟨⟨[10]⟩, 0⟩ (fun _ => 0) (by decide) (by decide) (by decide) (by decide) 10
    (by decide)).2 (by decide)
  have hid : idealRanking [3, 3, 3, 3, 3, 2] = [5, 5, 4, 4, 4, 3, 3, 3, 2, 2, 2, 1, 1, 1] := by
    decide
  have hgp : gainPrefix ℝ [5, 5, 4, 4, 4, 3, 3, 3, 2, 2, 2, 1, 1, 1] = [5, 5, 4, 4, 4] := by
    simp [gainPrefix, get_gain, List.takeWhile]
  have hw : gainLevels (te_calc_ndcg45_cutT (-1) (Real.logb 2)
      (0, ⟨[5, 4, 0, 5], [3, 3, 3, 3, 3, 2]⟩) ⟨⟨[10]⟩, 0⟩ (fun _ => 0)).2
      = [5, 5, 4, 4, 4, 3] := by
    rw [h, hid, hgp]
    decide
  rw [hw]
  exact ⟨by decide, rfl, by decide, by decide⟩

/-- The walk on the histogram of per-level counts with 2 documents of level 5 and 1 of level 4,
and the cutoff 10: the second `for` loop takes the gain of the levels 5, 5, 4. -/
theorem per_level_histogram_walk :
    gainLevels (te_calc_ndcg45_cutT (-1) (Real.logb 2) (0, ⟨[5, 4, 0, 5], [0, 0, 0, 0, 1, 2]⟩)
        ⟨⟨[10]⟩, 0⟩ (fun _ => 0)).2 = [5, 5, 4] := by
  have h := (te_calcT_asc (-1) (Real.logb 2) 0 ⟨[5, 4, 0, 5], [0, 0, 0, 0, 1, 2]⟩
    ⟨⟨[10]⟩, 0⟩ (fun _ => 0) (by decide) (by decide) (by decide) (by decide) 10
    (by decide)).2 (by decide)
  have hid : idealRanking [0, 0, 0, 0, 1, 2] = [5, 5, 4] := by decide
  have hgp : gainPrefix ℝ [5, 5, 4] = [5, 5, 4] := by
    simp [gainPrefix, get_gain]
  rw [h, hid, hgp]
  decide

/-- C16, amended: for every ranked list, every histogram and every non-empty strictly ascending
sequence of positive cutoffs the run of `te_calc_ndcg45_cut` returns; its second `for` loop
makes at most `min (c, S) + 1` iterations, `c` the last cutoff and `S` the sum of the counts
`rel_levels[L]` for `1 ≤ L < num_rel_levels` (a negative count adding 0), and its inner `while`
loop makes at most `num_rel_levels - 1` steps in all, none when there is no level. -/
theorem walks_terminate (UNDEF ret : Int) (tm : TREC_MEAS) (res_rels : RES_RELS)
    (values : Int → ℝ)
    (hne : tm.meas_params.param_values ≠ [])
    (hasc : tm.meas_params.param_values.Pairwise (· < ·))
    (hpos : ∀ c ∈ tm.meas_params.param_values, 0 < c) (cl : Int)
    (hcl : tm.meas_params.param_values[tm.meas_params.param_values.length - 1]? = some cl) :
    te_calc_ndcg45_cut UNDEF (Real.logb 2) (ret, res_rels) tm values
        = some (te_calc_ndcg45_cutT UNDEF (Real.logb 2) (ret, res_rels) tm values).1 ∧
      iterations (te_calc_ndcg45_cutT UNDEF (Real.logb 2) (ret, res_rels) tm values).2
        ≤ min cl.toNat (∑ L in Finset.Ico 1 res_rels.rel_levels.length,
            (res_rels.rel_levels.getD L 0).toNat) + 1 ∧
      descendSteps (te_calc_ndcg45_cutT UNDEF (Real.logb 2) (ret, res_rels) tm values).2
        ≤ res_rels.rel_levels.length - 1 := by
  by_cases hret : UNDEF = ret
  · have hT : te_calc_ndcg45_cutT UNDEF (Real.logb 2) (ret, res_rels) tm values
        = ((UNDEF, values), []) := by
      rw [te_calc_ndcg45_cutT, if_pos hret]
    rw [hT]
    refine ⟨?_, Nat.zero_le _, Nat.zero_le _⟩
    rw [te_calc_ndcg45_cut, if_pos hret]
  · obtain ⟨final, log, hT, hfin, -, -, hit, hds⟩ :=
      te_calcT_spec UNDEF (Real.logb 2) ret res_rels tm values hret hne
    have hit2 := (te_calcT_asc UNDEF (Real.logb 2) ret res_rels tm values hret hne hasc hpos
      cl hcl).1
    have hlen : (idealRanking res_rels.rel_levels).length
        = ∑ L in Finset.Ico 1 res_rels.rel_levels.length,
            (res_rels.rel_levels.getD L 0).toNat := by
      rw [idealRanking_eq, length_levelsFrom]
      rcases Nat.eq_zero_or_pos res_rels.rel_levels.length with h0 | h0
      · rw [h0]
        rfl
      · rw [Nat.sub_add_cancel h0]
    rw [hT] at hit2 ⊢
    rw [hlen] at hit
    refine ⟨hfin, ?_, hds⟩
    simp only at hit2 ⊢
    omega

theorem walks_terminate_witness :
    (([2, 4] : List Int) ≠ [] ∧ ([2, 4] : List Int).Pairwise (· < ·) ∧
      (∀ c ∈ ([2, 4] : List Int), 0 < c) ∧
      ([2, 4] : List Int)[([2, 4] : List Int).length - 1]? = some 4) ∧
    (te_calc_ndcg45_cut (-1) (Real.logb 2) (0, ⟨[5, 4, 0, 5], [0, 0, 0, 0, 1, 2]⟩)
        ⟨⟨[2, 4]⟩, 0⟩ (fun _ => 0)
        = some (te_calc_ndcg45_cutT (-1) (Real.logb 2) (0, ⟨[5, 4, 0, 5], [0, 0, 0, 0, 1, 2]⟩)
            ⟨⟨[2, 4]⟩, 0⟩ (fun _ => 0)).1 ∧
      iterations (te_calc_ndcg45_cutT (-1) (Real.logb 2)
          (0, ⟨[5, 4, 0, 5], [0, 0, 0, 0, 1, 2]⟩) ⟨⟨[2, 4]⟩, 0⟩ (fun _ => 0)).2
        ≤ min (4 : Int).toNat (∑ L in Finset.Ico 1 ([0, 0, 0, 0, 1, 2] : List Int).length,
            (([0, 0, 0, 0, 1, 2] : List Int).getD L 0).toNat) + 1 ∧
      descendSteps (te_calc_ndcg45_cutT (-1) (Real.logb 2)
          (0, ⟨[5, 4, 0, 5], [0, 0, 0, 0, 1, 2]⟩) ⟨⟨[2, 4]⟩, 0⟩ (fun _ => 0)).2
        ≤ ([0, 0, 0, 0, 1, 2] : List Int).length - 1) :=
  ⟨⟨by decide, by decide, by decide, by decide⟩,
    walks_terminate (-1) 0 ⟨⟨[2, 4]⟩, 0⟩ ⟨[5, 4, 0, 5], [0, 0, 0, 0, 1, 2]⟩ (fun _ => 0)
      (by decide) (by decide) (by decide) 4 (by decide)⟩

/-- C16, as the specification states it, fails for a histogram without levels: with
`num_rel_levels = 0` the inner `while` loop makes no step, which is more than the
`num_rel_levels - 1 = -1` steps of the stated bound. -/
theorem inner_loop_steps_without_levels :
    descendSteps (te_calc_ndcg45_cutT (-1) (Real.logb 2) (0, ⟨[5, 4], []⟩)
        ⟨⟨[1]⟩, 0⟩ (fun _ => 0)).2 = 0 ∧
      ¬ ((descendSteps (te_calc_ndcg45_cutT (-1) (Real.logb 2) (0, ⟨[5, 4], []⟩)
        ⟨⟨[1]⟩, 0⟩ (fun _ => 0)).2 : Int)
          ≤ (⟨[5, 4], []⟩ : RES_RELS).num_rel_levels - 1) := by
  obtain ⟨final, log, hT, -, -, -, -, hds⟩ :=
    te_calcT_spec (-1) (Real.logb 2) 0 ⟨[5, 4], []⟩ ⟨⟨[1]⟩, 0⟩ (fun _ => 0) (by decide)
      (by decide)
  rw [hT]
  have h0 : descendSteps log = 0 := Nat.le_zero.1 hds
  simp only [h0]
  exact ⟨trivial, by decide⟩

/-- C17: let `T` be the highest level from 1 to `num_rel_levels - 1` with a count of 1 or more
(`T = 0` when there is none).  The value recorded for a cutoff `c` is the DCG of the ranked list
at `c`.  When `T` is 4 or 5 the ideal gain at every cutoff, the DCG of the ideal ranking at `c`,
is positive and the final score of `c` is the recorded value divided by it; otherwise the walk
over the ideal ranking ends with `ideal_dcg = 0`, without a store, and every final score is the
recorded value. -/
theorem normalised_iff_top_level (UNDEF ret : Int) (tm : TREC_MEAS) (res_rels : RES_RELS)
    (values : Int → ℝ) (T : Nat) (hret : UNDEF ≠ ret)
    (hne : tm.meas_params.param_values ≠ [])
    (hasc : tm.meas_params.param_values.Pairwise (· < ·))
    (hpos : ∀ c ∈ tm.meas_params.param_values, 0 < c)
    (htop : ∀ L : Nat, T < L → (L : Int) < res_rels.num_rel_levels →
      res_rels.rel_levels.getD L 0 ≤ 0)
    (hT : T = 0 ∨ ((T : Int) < res_rels.num_rel_levels ∧ 1 ≤ res_rels.rel_levels.getD T 0)) :
    ∃ raw s1 final, actualPhase (Real.logb 2) tm res_rels values = some raw ∧
      idealWalk (Real.logb 2) tm res_rels raw = some s1 ∧
      te_calc_ndcg45_cut UNDEF (Real.logb 2) (ret, res_rels) tm values = some (1, final) ∧
      (∀ (j : Nat) (c : Int), tm.meas_params.param_values[j]? = some c →
        raw (tm.eval_index + j) = dcg (Real.logb 2) res_rels.results_rel_list c.toNat) ∧
      ((T = 4 ∨ T = 5) → ∀ (j : Nat) (c : Int), tm.meas_params.param_values[j]? = some c →
        0 < dcg (Real.logb 2) (idealRanking res_rels.rel_levels) c.toNat ∧
        final (tm.eval_index + j) = raw (tm.eval_index + j)
          / dcg (Real.logb 2) (idealRanking res_rels.rel_levels) c.toNat) ∧
      (¬ (T = 4 ∨ T = 5) → s1 = ⟨0, 0, raw⟩ ∧ final = raw) := by
  obtain ⟨raw, s1, final, hraw, hs1, hfin, h1, -, -⟩ :=
    te_calc_spec UNDEF (Real.logb 2) ret res_rels tm values hret hne hasc hpos
  have hTn : T ≤ res_rels.rel_levels.length - 1 := by
    rcases hT with h | h
    · omega
    · have : (T : Int) < (res_rels.rel_levels.length : Int) := h.1
      omega
  have hlev : levelsFrom res_rels.rel_levels (res_rels.rel_levels.length - 1) 0
      = levelsFrom res_rels.rel_levels T 0 := by
    apply levelsFrom_skip _ _ _ hTn
    intro M h1 h2
    apply htop M h1
    show (M : Int) < (res_rels.rel_levels.length : Int)
    omega
  refine ⟨raw, s1, final, hraw, hs1, hfin, fun j c hjc => (h1 j c hjc).1, ?_, ?_⟩
  · intro h45 j c hjc
    have hT1 : 1 ≤ res_rels.rel_levels.getD T 0 := by
      rcases hT with h | h
      · omega
      · exact h.2
    obtain ⟨t, ht⟩ := levelsFrom_head res_rels.rel_levels T (by omega) hT1
    have hg : (0 : ℝ) < get_gain ℝ (T : Int) := (get_gain_pos_iff _).2 (by omega)
    have hcj : (0 : Int) < c := by
      obtain ⟨hj, hc⟩ := List.getElem?_eq_some.1 hjc
      rw [← hc]
      exact hpos _ (List.getElem_mem hj)
    obtain ⟨k, hk⟩ : ∃ k, c.toNat = k + 1 := ⟨c.toNat - 1, by omega⟩
    have hd : 0 < dcg (Real.logb 2) (gainPrefix ℝ
        (levelsFrom res_rels.rel_levels (res_rels.rel_levels.length - 1) 0)) c.toNat := by
      rw [hlev, ht, gainPrefix_cons_pos _ _ (ne_of_gt hg), hk]
      unfold dcg
      rw [List.take_succ_cons, dcgFrom]
      have h1 : 0 < discGain (Real.logb 2) 0 (T : Int) := by
        rw [discGain_real]
        exact div_pos hg (logb_two_pos 0)
      have h2 := dcgFrom_real_nonneg ((gainPrefix ℝ t).take k) (0 + 1)
      linarith
    have htop5 : ∀ L : Nat, 5 < L → L < res_rels.rel_levels.length →
        res_rels.rel_levels.getD L 0 ≤ 0 := by
      intro L h5 hL
      apply htop L (by omega)
      show (L : Int) < (res_rels.rel_levels.length : Int)
      omega
    have hb := (h1 j c hjc).2
    rw [normalise, if_pos hd,
      dcg_gainPrefix_levelsFrom (Real.logb 2) res_rels.rel_levels htop5] at hb
    rw [dcg_gainPrefix_levelsFrom (Real.logb 2) res_rels.rel_levels htop5] at hd
    exact ⟨hd, hb⟩
  · intro h45
    have hP : gainPrefix ℝ
        (levelsFrom res_rels.rel_levels (res_rels.rel_levels.length - 1) 0) = [] := by
      rw [hlev]
      rcases hT with h | h
      · rw [h]; rfl
      · rcases Nat.eq_zero_or_pos T with h0 | h0
        · rw [h0]; rfl
        · obtain ⟨t, ht⟩ := levelsFrom_head res_rels.rel_levels T h0 h.2
          rw [ht]
          apply gainPrefix_cons_zero
          rw [get_gain_eq_zero_iff]
          omega
    have hwalk := idealWalk_of_gainPrefix_nil (Real.logb 2) tm res_rels raw hne hpos hP
    rw [hwalk] at hs1
    have hs : s1 = ⟨0, 0, raw⟩ := (Option.some.inj hs1).symm
    refine ⟨hs, ?_⟩
    rw [te_calc_ndcg45_cut, if_neg hret] at hfin
    simp only [hraw, idealPhase, hwalk] at hfin
    rw [idealFill_acc_zero _ _ _ ⟨0, 0, raw⟩ rfl rfl] at hfin
    simp only [Option.some.injEq, Prod.mk.injEq, true_and] at hfin
    exact hfin.symm

theorem normalised_iff_top_level_witness :
    ((-1 : Int) ≠ 0 ∧ ([1, 2] : List Int) ≠ [] ∧ ([1, 2] : List Int).Pairwise (· < ·) ∧
      (∀ c ∈ ([1, 2] : List Int), 0 < c) ∧
      (∀ L : Nat, 5 < L → (L : Int) < (6 : Nat) →
        ([0, 0, 0, 0, 2, 1] : List Int).getD L 0 ≤ 0) ∧
      ((5 : Nat) = 0 ∨ (((5 : Nat) : Int) < (6 : Nat) ∧
        1 ≤ ([0, 0, 0, 0, 2, 1] : List Int).getD 5 0)) ∧
      ((5 : Nat) = 4 ∨ (5 : Nat) = 5)) ∧
    ∃ raw s1 final,
      actualPhase (Real.logb 2) ⟨⟨[1, 2]⟩, 0⟩ ⟨[4, 5], [0, 0, 0, 0, 2, 1]⟩ (fun _ => 0)
        = some raw ∧
      idealWalk (Real.logb 2) ⟨⟨[1, 2]⟩, 0⟩ ⟨[4, 5], [0, 0, 0, 0, 2, 1]⟩ raw = some s1 ∧
      te_calc_ndcg45_cut (-1) (Real.logb 2) (0, ⟨[4, 5], [0, 0, 0, 0, 2, 1]⟩)
        ⟨⟨[1, 2]⟩, 0⟩ (fun _ => 0) = some (1, final) ∧
      (∀ (j : Nat) (c : Int), ([1, 2] : List Int)[j]? = some c →
        raw (0 + j) = dcg (Real.logb 2) [4, 5] c.toNat) ∧
      (((5 : Nat) = 4 ∨ (5 : Nat) = 5) → ∀ (j : Nat) (c : Int),
        ([1, 2] : List Int)[j]? = some c →
        0 < dcg (Real.logb 2) (idealRanking [0, 0, 0, 0, 2, 1]) c.toNat ∧
        final (0 + j) = raw (0 + j)
          / dcg (Real.logb 2) (idealRanking [0, 0, 0, 0, 2, 1]) c.toNat) ∧
      (¬ ((5 : Nat) = 4 ∨ (5 : Nat) = 5) → s1 = ⟨0, 0, raw⟩ ∧ final = raw) :=
  ⟨⟨by decide, by decide, by decide, by decide, fun L h5 hL => by omega,
      Or.inr ⟨by decide, by decide⟩, by decide⟩,
    normalised_iff_top_level (-1) 0 ⟨⟨[1, 2]⟩, 0⟩ ⟨[4, 5], [0, 0, 0, 0, 2, 1]⟩ (fun _ => 0) 5
      (by decide) (by decide) (by decide) (by decide)
      (fun L h5 hL => by
        have : (L : Int) < 6 := hL
        omega)
      (Or.inr ⟨by decide, by decide⟩)⟩

/-- C18: when no level above 5 has a positive count and the ranked list holds no more documents
of level 4 and no more of level 5 than `rel_levels` counts (a level from `num_rel_levels` on
counting as 0), the gain recorded at every cutoff is at most the ideal gain at that cutoff, and
every final score lies between 0 and 1.  (The counts need not be assumed non-negative.) -/
theorem scores_between_zero_and_one (UNDEF ret : Int) (tm : TREC_MEAS) (res_rels : RES_RELS)
    (values : Int → ℝ) (hret : UNDEF ≠ ret)
    (hne : tm.meas_params.param_values ≠ [])
    (hasc : tm.meas_params.param_values.Pairwise (· < ·))
    (hpos : ∀ c ∈ tm.meas_params.param_values, 0 < c)
    (htop : ∀ L : Nat, 5 < L → (L : Int) < res_rels.num_rel_levels →
      res_rels.rel_levels.getD L 0 ≤ 0)
    (h4 : (res_rels.results_rel_list.count 4 : Int) ≤ res_rels.rel_levels.getD 4 0)
    (h5 : (res_rels.results_rel_list.count 5 : Int) ≤ res_rels.rel_levels.getD 5 0) :
    ∃ final, te_calc_ndcg45_cut UNDEF (Real.logb 2) (ret, res_rels) tm values = some (1, final) ∧
      ∀ (j : Nat) (c : Int), tm.meas_params.param_values[j]? = some c →
        dcg (Real.logb 2) res_rels.results_rel_list c.toNat
          ≤ dcg (Real.logb 2) (idealRanking res_rels.rel_levels) c.toNat ∧
        0 ≤ final (tm.eval_index + j) ∧ final (tm.eval_index + j) ≤ 1 := by
  obtain ⟨raw, s1, final, -, -, hfin, h1, -, -⟩ :=
    te_calc_spec UNDEF (Real.logb 2) ret res_rels tm values hret hne hasc hpos
  refine ⟨final, hfin, fun j c hj => ?_⟩
  have htop2 : ∀ L : Nat, 5 < L → L < res_rels.rel_levels.length →
      res_rels.rel_levels.getD L 0 ≤ 0 := fun L h5 hL => htop L h5 (by exact_mod_cast hL)
  obtain ⟨ha, hb⟩ := h1 j c hj
  have hle : dcg (Real.logb 2) res_rels.results_rel_list c.toNat
      ≤ dcg (Real.logb 2) (idealRanking res_rels.rel_levels) c.toNat := by
    rw [idealRanking_eq]
    apply dcg_le_of_counts _ _ (levelsFrom_sorted _ _ _)
    · intro x hx
      have hbd := mem_levelsFrom_bounds res_rels.rel_levels _ 0 x hx
      have hcn := mem_levelsFrom_count res_rels.rel_levels _ 0 x (le_refl _) hx
      by_contra hcon
      have hlt : x.toNat < res_rels.rel_levels.length := by omega
      have := htop2 x.toNat (by omega) hlt
      omega
    · exact count_le_ideal _ _ 4 (by decide) h4
    · exact count_le_ideal _ _ 5 (by decide) h5
  have hnn : 0 ≤ dcg (Real.logb 2) res_rels.results_rel_list c.toNat :=
    dcgFrom_real_nonneg _ 0
  refine ⟨hle, ?_, ?_⟩
  · rw [hb, ha, normalise]
    split
    · rename_i hd
      exact div_nonneg hnn (le_of_lt hd)
    · exact hnn
  · rw [hb, ha, dcg_gainPrefix_levelsFrom (Real.logb 2) res_rels.rel_levels htop2, normalise]
    split
    · rename_i hd
      exact (div_le_one hd).2 hle
    · rename_i hd
      linarith [not_lt.1 hd]

theorem scores_between_zero_and_one_witness :
    ((-1 : Int) ≠ 0 ∧ ([1, 3] : List Int) ≠ [] ∧ ([1, 3] : List Int).Pairwise (· < ·) ∧
      (∀ c ∈ ([1, 3] : List Int), 0 < c) ∧
      (∀ L : Nat, 5 < L → (L : Int) < (7 : Nat) →
        ([0, 0, 0, 4, 2, 1, 0] : List Int).getD L 0 ≤ 0) ∧
      ((([0, 4, 5, 3, 4] : List Int).count 4 : Nat) : Int)
        ≤ ([0, 0, 0, 4, 2, 1, 0] : List Int).getD 4 0 ∧
      ((([0, 4, 5, 3, 4] : List Int).count 5 : Nat) : Int)
        ≤ ([0, 0, 0, 4, 2, 1, 0] : List Int).getD 5 0) ∧
    ∃ final, te_calc_ndcg45_cut (-1) (Real.logb 2)
        (0, ⟨[0, 4, 5, 3, 4], [0, 0, 0, 4, 2, 1, 0]⟩) ⟨⟨[1, 3]⟩, 0⟩ (fun _ => 0)
          = some (1, final) ∧
      ∀ (j : Nat) (c : Int), ([1, 3] : List Int)[j]? = some c →
        dcg (Real.logb 2) [0, 4, 5, 3, 4] c.toNat
          ≤ dcg (Real.logb 2) (idealRanking [0, 0, 0, 4, 2, 1, 0]) c.toNat ∧
        0 ≤ final (0 + j) ∧ final (0 + j) ≤ 1 :=
  have htop : ∀ L : Nat, 5 < L → (L : Int) < (7 : Nat) →
      ([0, 0, 0, 4, 2, 1, 0] : List Int).getD L 0 ≤ 0 := by
    intro L h5 hL
    have h7 : L < 7 := by exact_mod_cast hL
    interval_cases L
    decide
  ⟨⟨by decide, by decide, by decide, by decide, htop, by decide, by decide⟩,
    scores_between_zero_and_one (-1) 0 ⟨⟨[1, 3]⟩, 0⟩ ⟨[0, 4, 5, 3, 4], [0, 0, 0, 4, 2, 1, 0]⟩
      (fun _ => 0) (by decide) (by decide) (by decide) (by decide) htop (by decide)
      (by decide)⟩

/-- C19: for every ranked list, every histogram and every sequence of at least one cutoff, the
run of `te_calc_ndcg45_cut` returns without a read outside an array, and every access it makes is
in bounds: `cutoffs` and `eval->values` are indexed with a `cutoff_index` below the number of
cutoffs, `results_rel_list` with an `i` below `num_ret`, and `rel_levels` with a `cur_lvl` from
1 to `num_rel_levels - 1` (so not at all when `num_rel_levels` is 0 or 1). -/
theorem array_accesses_in_bounds (UNDEF ret : Int) (tm : TREC_MEAS) (res_rels : RES_RELS)
    (values : Int → ℝ) (hne : tm.meas_params.param_values ≠ []) :
    te_calc_ndcg45_cut UNDEF (Real.logb 2) (ret, res_rels) tm values
        = some (te_calc_ndcg45_cutT UNDEF (Real.logb 2) (ret, res_rels) tm values).1 ∧
      (∀ k : Nat,
        Event.readCutoff k ∈ (te_calc_ndcg45_cutT UNDEF (Real.logb 2) (ret, res_rels) tm values).2
          → k < tm.meas_params.num_params) ∧
      (∀ k : Nat,
        Event.storeValue k ∈ (te_calc_ndcg45_cutT UNDEF (Real.logb 2) (ret, res_rels) tm values).2
          → k < tm.meas_params.num_params) ∧
      (∀ (k : Nat) (d : ℝ),
        Event.divideValue k d
            ∈ (te_calc_ndcg45_cutT UNDEF (Real.logb 2) (ret, res_rels) tm values).2
          → k < tm.meas_params.num_params) ∧
      (∀ i : Nat,
        Event.readRel i ∈ (te_calc_ndcg45_cutT UNDEF (Real.logb 2) (ret, res_rels) tm values).2
          → i < res_rels.num_ret) ∧
      ∀ l : Int,
        Event.readLevel l ∈ (te_calc_ndcg45_cutT UNDEF (Real.logb 2) (ret, res_rels) tm values).2
          → 1 ≤ l ∧ l ≤ res_rels.num_rel_levels - 1 := by
  by_cases hret : UNDEF = ret
  · have hT : te_calc_ndcg45_cutT UNDEF (Real.logb 2) (ret, res_rels) tm values
        = ((UNDEF, values), []) := by
      rw [te_calc_ndcg45_cutT, if_pos hret]
    rw [hT]
    refine ⟨?_, ?_, ?_, ?_, ?_, ?_⟩
    · rw [te_calc_ndcg45_cut, if_pos hret]
    all_goals simp
  · obtain ⟨final, log, hT, hfin, hok, -, -, -⟩ :=
      te_calcT_spec UNDEF (Real.logb 2) ret res_rels tm values hret hne
    rw [hT]
    exact ⟨hfin, fun k hmem => hok _ hmem, fun k hmem => hok _ hmem,
      fun k d hmem => (hok _ hmem).1, fun i hmem => hok _ hmem, fun l hmem => hok _ hmem⟩

theorem array_accesses_in_bounds_witness :
    (([4, 1, 1] : List Int) ≠ []) ∧
    (te_calc_ndcg45_cut (-1) (Real.logb 2) (0, ⟨[5, 4, 0, 5], []⟩) ⟨⟨[4, 1, 1]⟩, 0⟩ (fun _ => 0)
        = some (te_calc_ndcg45_cutT (-1) (Real.logb 2) (0, ⟨[5, 4, 0, 5], []⟩)
            ⟨⟨[4, 1, 1]⟩, 0⟩ (fun _ => 0)).1 ∧
      (∀ k : Nat,
        Event.readCutoff k ∈ (te_calc_ndcg45_cutT (-1) (Real.logb 2) (0, ⟨[5, 4, 0, 5], []⟩)
            ⟨⟨[4, 1, 1]⟩, 0⟩ (fun _ => 0)).2 → k < 3) ∧
      (∀ k : Nat,
        Event.storeValue k ∈ (te_calc_ndcg45_cutT (-1) (Real.logb 2) (0, ⟨[5, 4, 0, 5], []⟩)
            ⟨⟨[4, 1, 1]⟩, 0⟩ (fun _ => 0)).2 → k < 3) ∧
      (∀ (k : Nat) (d : ℝ),
        Event.divideValue k d ∈ (te_calc_ndcg45_cutT (-1) (Real.logb 2) (0, ⟨[5, 4, 0, 5], []⟩)
            ⟨⟨[4, 1, 1]⟩, 0⟩ (fun _ => 0)).2 → k < 3) ∧
      (∀ i : Nat,
        Event.readRel i ∈ (te_calc_ndcg45_cutT (-1) (Real.logb 2) (0, ⟨[5, 4, 0, 5], []⟩)
            ⟨⟨[4, 1, 1]⟩, 0⟩ (fun _ => 0)).2 → i < 4) ∧
      ∀ l : Int,
        Event.readLevel l ∈ (te_calc_ndcg45_cutT (-1) (Real.logb 2) (0, ⟨[5, 4, 0, 5], []⟩)
            ⟨⟨[4, 1, 1]⟩, 0⟩ (fun _ => 0)).2 → 1 ≤ l ∧ l ≤ (0 : Int) - 1) :=
  ⟨by decide,
    array_accesses_in_bounds (-1) 0 ⟨⟨[4, 1, 1]⟩, 0⟩ ⟨[5, 4, 0, 5], []⟩ (fun _ => 0)
      (by decide)⟩

/-- C20: the final score reported for a cutoff value `c` does not depend on the other cutoffs:
for one ranked list and one histogram and two strictly ascending sequences of positive cutoffs
that both hold `c`, the score of `c` in the one run is its score in the other. -/
theorem score_independent_of_other_cutoffs (UNDEF retA retB : Int) (tmA tmB : TREC_MEAS)
    (res_rels : RES_RELS) (valuesA valuesB : Int → ℝ)
    (hretA : UNDEF ≠ retA) (hretB : UNDEF ≠ retB)
    (hneA : tmA.meas_params.param_values ≠ [])
    (hascA : tmA.meas_params.param_values.Pairwise (· < ·))
    (hposA : ∀ c ∈ tmA.meas_params.param_values, 0 < c)
    (hneB : tmB.meas_params.param_values ≠ [])
    (hascB : tmB.meas_params.param_values.Pairwise (· < ·))
    (hposB : ∀ c ∈ tmB.meas_params.param_values, 0 < c) :
    ∃ finalA finalB,
      te_calc_ndcg45_cut UNDEF (Real.logb 2) (retA, res_rels) tmA valuesA = some (1, finalA) ∧
      te_calc_ndcg45_cut UNDEF (Real.logb 2) (retB, res_rels) tmB valuesB = some (1, finalB) ∧
      ∀ (jA jB : Nat) (c : Int), tmA.meas_params.param_values[jA]? = some c →
        tmB.meas_params.param_values[jB]? = some c →
        finalA (tmA.eval_index + jA) = finalB (tmB.eval_index + jB) := by
  obtain ⟨rawA, -, finalA, -, -, hfinA, hA, -, -⟩ :=
    te_calc_spec UNDEF (Real.logb 2) retA res_rels tmA valuesA hretA hneA hascA hposA
  obtain ⟨rawB, -, finalB, -, -, hfinB, hB, -, -⟩ :=
    te_calc_spec UNDEF (Real.logb 2) retB res_rels tmB valuesB hretB hneB hascB hposB
  refine ⟨finalA, finalB, hfinA, hfinB, fun jA jB c ha hb => ?_⟩
  rw [(hA jA c ha).2, (hA jA c ha).1, (hB jB c hb).2, (hB jB c hb).1]

theorem score_independent_of_other_cutoffs_witness :
    ((-1 : Int) ≠ 0 ∧ (-1 : Int) ≠ 0 ∧
      ([2, 4] : List Int) ≠ [] ∧ ([2, 4] : List Int).Pairwise (· < ·) ∧
      (∀ c ∈ ([2, 4] : List Int), 0 < c) ∧
      ([1, 2, 3] : List Int) ≠ [] ∧ ([1, 2, 3] : List Int).Pairwise (· < ·) ∧
      (∀ c ∈ ([1, 2, 3] : List Int), 0 < c)) ∧
    ∃ finalA finalB,
      te_calc_ndcg45_cut (-1) (Real.logb 2) (0, ⟨[5, 4, 0, 5], [0, 0, 0, 0, 1, 2]⟩)
        ⟨⟨[2, 4]⟩, 0⟩ (fun _ => 0) = some (1, finalA) ∧
      te_calc_ndcg45_cut (-1) (Real.logb 2) (0, ⟨[5, 4, 0, 5], [0, 0, 0, 0, 1, 2]⟩)
        ⟨⟨[1, 2, 3]⟩, 7⟩ (fun _ => 1) = some (1, finalB) ∧
      ∀ (jA jB : Nat) (c : Int), ([2, 4] : List Int)[jA]? = some c →
        ([1, 2, 3] : List Int)[jB]? = some c →
        finalA (0 + jA) = finalB (7 + jB) :=
  ⟨⟨by decide, by decide, by decide, by decide, by decide, by decide, by decide, by decide⟩,
    score_independent_of_other_cutoffs (-1) 0 0 ⟨⟨[2, 4]⟩, 0⟩ ⟨⟨[1, 2, 3]⟩, 7⟩
      ⟨[5, 4, 0, 5], [0, 0, 0, 0, 1, 2]⟩ (fun _ => 0) (fun _ => 1) (by decide) (by decide)
      (by decide) (by decide) (by decide) (by decide) (by decide) (by decide)⟩

end Claims

end Ndcg45
